import Mathlib

/-!
Verification of the spark LoD/RAD pipeline (`src/rust/spark-lib`,
`src/rust/spark-worker-rs`) against its specification.

Shallow embedding conventions:
* machine bytes are `Nat` values `< 256`; wrapping arithmetic is explicit `% 256`;
* `f32` / `u16` / `u32` values that the code moves around without interpreting
  (bit-cast serialization) are represented by their little-endian bit patterns
  (`Nat < 2^32` resp. `2^16`);
* `f32` values that the code computes with (quantizers, geometry, importance,
  pixel scales) are embedded as exact rationals `ℚ`; transcendental similarity
  computations (exp/ln/sqrt in `tsplat.rs`) are embedded over `ℝ`;
* `f32 → f16` conversion is performed by the external `half` crate; it enters
  the embedding as an abstract conversion pair;
* loops whose termination depends on well-formedness of the input tree are
  given explicit fuel and return `Option`/`Except` results.
-/

namespace Spark

/-! ## Byte-level helpers (rad.rs serialization primitives) -/

/-- Little-endian bytes of a 32-bit word, as in `u32::to_le_bytes` /
`f32::to_le_bytes` (an f32 is carried by its bit pattern). -/
def leBytes4 (v : Nat) : List Nat :=
  [v % 256, v / 256 % 256, v / 2 ^ 16 % 256, v / 2 ^ 24 % 256]

/-- Little-endian bytes of a 16-bit word (`u16::to_le_bytes`, f16 bit pattern). -/
def leBytes2 (v : Nat) : List Nat :=
  [v % 256, v / 256 % 256]

/-- Read a 32-bit little-endian word at byte offset `pos`
(`u32::from_le_bytes` / `f32::from_le_bytes`). -/
def ofLeBytes4 (bs : List Nat) (pos : Nat) : Nat :=
  bs.getD pos 0 + 256 * bs.getD (pos + 1) 0 + 2 ^ 16 * bs.getD (pos + 2) 0 +
    2 ^ 24 * bs.getD (pos + 3) 0

/-- Read a 16-bit little-endian word at byte offset `pos`. -/
def ofLeBytes2 (bs : List Nat) (pos : Nat) : Nat :=
  bs.getD pos 0 + 256 * bs.getD (pos + 1) 0

/-- Rust `f32::clamp`. -/
def clampQ (x lo hi : ℚ) : ℚ := max lo (min x hi)

/-- Rust `f32::round`: nearest integer, ties away from zero. -/
def rustRound (x : ℚ) : ℤ :=
  if 0 ≤ x then ⌊x + 1 / 2⌋ else -⌊-x + 1 / 2⌋

/-- Rust `as i8` reinterpretation of a byte value (two's complement). -/
def i8Val (b : Nat) : ℤ :=
  if b < 128 then (b : ℤ) else (b : ℤ) - 256

/-! ## Quantizers (rad.rs lines 834–1161)

Each `encode_*` lays bytes out dimension-major (all of dimension 0 across
`count` elements, then dimension 1, …); each `decode_*` returns values
element-major, exactly as the source loops do. -/

/-- `encode_f32(data, dims, count)` (rad.rs:834). -/
def encode_f32 (data : List Nat) (dims count : Nat) : List Nat :=
  (List.range dims).flatMap fun d =>
    (List.range count).flatMap fun j => leBytes4 (data.getD (d + j * dims) 0)

/-- `decode_f32(data, dims, count)` (rad.rs:846). -/
def decode_f32 (bytes : List Nat) (dims count : Nat) : List Nat :=
  (List.range count).flatMap fun i =>
    (List.range dims).map fun d => ofLeBytes4 bytes (i * 4 + d * (count * 4))

/-- `encode_f16(data, dims, count)` (rad.rs:858).  `toH` is the external
`half::f16::from_f32` conversion, mapping an f32 bit pattern to an f16 bit
pattern. -/
def encode_f16 (toH : Nat → Nat) (data : List Nat) (dims count : Nat) : List Nat :=
  (List.range dims).flatMap fun d =>
    (List.range count).flatMap fun j => leBytes2 (toH (data.getD (d + j * dims) 0))

/-- `decode_f16(data, dims, count)` (rad.rs:870).  `ofH` is the external
`half::f16::to_f32` conversion. -/
def decode_f16 (ofH : Nat → Nat) (bytes : List Nat) (dims count : Nat) : List Nat :=
  (List.range count).flatMap fun i =>
    (List.range dims).map fun d => ofH (ofLeBytes2 bytes (i * 2 + d * (count * 2)))

/-- `encode_u16(data, dims, count)` (rad.rs:1123). -/
def encode_u16 (data : List Nat) (dims count : Nat) : List Nat :=
  (List.range dims).flatMap fun d =>
    (List.range count).flatMap fun j => leBytes2 (data.getD (d + j * dims) 0)

/-- `decode_u16(data, dims, count)` (rad.rs:1135).  Note the source reads only
`count` words and ignores `dims`. -/
def decode_u16 (bytes : List Nat) (_dims count : Nat) : List Nat :=
  (List.range count).map fun i => ofLeBytes2 bytes (i * 2)

/-- `encode_usize_as_u32(data, dims, count)` (rad.rs:1143). -/
def encode_u32 (data : List Nat) (dims count : Nat) : List Nat :=
  (List.range dims).flatMap fun d =>
    (List.range count).flatMap fun j => leBytes4 (data.getD (d + j * dims) 0 % 2 ^ 32)

/-- `decode_u32_as_usize(data, dims, count)` (rad.rs:1155).  Like `decode_u16`,
the source ignores `dims`. -/
def decode_u32 (bytes : List Nat) (_dims count : Nat) : List Nat :=
  (List.range count).map fun i => ofLeBytes4 bytes (i * 4)

/-- The quantized byte of one value in the `r8` codec:
`((v - min) / (max - min) * 255).clamp(0, 255).round() as u8` (rad.rs:939). -/
def r8Byte (v lo hi : ℚ) : Nat :=
  (rustRound (clampQ ((v - lo) / (hi - lo) * 255) 0 255)).toNat

/-- `encode_r8(data, dims, count, min, max)` (rad.rs:934). -/
def encode_r8 (data : List ℚ) (dims count : Nat) (lo hi : ℚ) : List Nat :=
  (List.range dims).flatMap fun d =>
    (List.range count).map fun j => r8Byte (data.getD (d + j * dims) 0) lo hi

/-- The value an `r8` byte decodes to: `(b / 255) * (max - min) + min`
(rad.rs:965); this is the byte grid of the codec. -/
def r8Grid (b : Nat) (lo hi : ℚ) : ℚ := (b : ℚ) / 255 * (hi - lo) + lo

/-- `decode_r8(data, dims, count, min, max)` (rad.rs:960). -/
def decode_r8 (bytes : List Nat) (dims count : Nat) (lo hi : ℚ) : List ℚ :=
  (List.range count).flatMap fun i =>
    (List.range dims).map fun d => r8Grid (bytes.getD (i + d * count) 0) lo hi

/-- The quantized byte of one value in the `s8` codec, stored as a `u8`:
`(v / max * 127).clamp(-127, 127).round() as i8 as u8` (rad.rs:977). -/
def s8Byte (v hi : ℚ) : Nat :=
  ((rustRound (clampQ (v / hi * 127) (-127) 127)) % 256).toNat

/-- `encode_s8(data, dims, count, max)` (rad.rs:972). -/
def encode_s8 (data : List ℚ) (dims count : Nat) (hi : ℚ) : List Nat :=
  (List.range dims).flatMap fun d =>
    (List.range count).map fun j => s8Byte (data.getD (d + j * dims) 0) hi

/-- The value an `s8` byte decodes to: `(b as i8) / 127 * max` (rad.rs:990). -/
def s8Grid (b : Nat) (hi : ℚ) : ℚ := (i8Val b : ℚ) / 127 * hi

/-- `decode_s8(data, dims, count, max)` (rad.rs:985). -/
def decode_s8 (bytes : List Nat) (dims count : Nat) (hi : ℚ) : List ℚ :=
  (List.range count).flatMap fun i =>
    (List.range dims).map fun d => s8Grid (bytes.getD (i + d * count) 0) hi

/-- Wrapping byte subtraction `a.wrapping_sub(b)`. -/
def wsub (a b : Nat) : Nat := (a + 256 - b % 256) % 256

/-- Wrapping byte addition `a.wrapping_add(b)`. -/
def wadd (a b : Nat) : Nat := (a + b) % 256

/-- One dimension's delta chain: byte deltas of successive quantized values,
starting from `last = 0` (rad.rs:997 inner loop). -/
def deltaChain (qs : List Nat) : List Nat :=
  (List.range qs.length).map fun j =>
    wsub (qs.getD j 0) (if j = 0 then 0 else qs.getD (j - 1) 0)

/-- `encode_r8_delta(data, dims, count, min, max)` (rad.rs:997). -/
def encode_r8_delta (data : List ℚ) (dims count : Nat) (lo hi : ℚ) : List Nat :=
  (List.range dims).flatMap fun d =>
    deltaChain ((List.range count).map fun j => r8Byte (data.getD (d + j * dims) 0) lo hi)

/-- The reconstructed byte of element `j` in one dimension's chain (the chain
of dimension `d` occupies byte positions `d*count + j`): the wrapping prefix
sum of the stored deltas (rad.rs:1018). -/
def prefixByte (bytes : List Nat) (start : Nat) : Nat → Nat
  | 0 => wadd 0 (bytes.getD start 0)
  | j + 1 => wadd (prefixByte bytes start j) (bytes.getD (start + (j + 1)) 0)

/-- `decode_r8_delta(data, dims, count, min, max)` (rad.rs:1012). -/
def decode_r8_delta (bytes : List Nat) (dims count : Nat) (lo hi : ℚ) : List ℚ :=
  (List.range count).flatMap fun i =>
    (List.range dims).map fun d => r8Grid (prefixByte bytes (d * count) i) lo hi

/-- `encode_s8_delta(data, dims, count, max)` (rad.rs:1027). -/
def encode_s8_delta (data : List ℚ) (dims count : Nat) (hi : ℚ) : List Nat :=
  (List.range dims).flatMap fun d =>
    deltaChain ((List.range count).map fun j => s8Byte (data.getD (d + j * dims) 0) hi)

/-- `decode_s8_delta(data, dims, count, max)` (rad.rs:1042). -/
def decode_s8_delta (bytes : List Nat) (dims count : Nat) (hi : ℚ) : List ℚ :=
  (List.range count).flatMap fun i =>
    (List.range dims).map fun d => s8Grid (prefixByte bytes (d * count) i) hi

end Spark

namespace Spark

/-! ## Compact splat array child columns (csplat.rs) -/

/-- `CsplatArray::set_child_count(base, count, child_count)` (csplat.rs:617):
each node's list is rebuilt as `child_count[i]` consecutive indices starting
from its current first child (or 0 if it had none). -/
def set_child_count (children : List (List Nat)) (base : Nat) (counts : List Nat) :
    List (List Nat) :=
  (List.range children.length).map fun i =>
    if base ≤ i ∧ i < base + counts.length then
      (List.range (counts.getD (i - base) 0)).map fun k => (children.getD i []).getD 0 0 + k
    else children.getD i []

/-- `CsplatArray::set_child_start(base, count, child_start)` (csplat.rs:629):
start 0 clears the node's list; otherwise the list is rebuilt as
`max(len, 1)` consecutive indices from the given start. -/
def set_child_start (children : List (List Nat)) (base : Nat) (starts : List Nat) :
    List (List Nat) :=
  (List.range children.length).map fun i =>
    if base ≤ i ∧ i < base + starts.length then
      if starts.getD (i - base) 0 = 0 then []
      else
        (List.range (max (children.getD i []).length 1)).map fun k =>
          starts.getD (i - base) 0 + k
    else children.getD i []

/-- `CsplatArray::get_child_start` for one node (csplat.rs:733):
`children.first().copied().unwrap_or(0)`. -/
def get_child_start (children : List Nat) : Nat := children.getD 0 0

/-- `CsplatArray::get_child_count` for one node (csplat.rs:727). -/
def get_child_count (children : List Nat) : Nat := children.length

/-! ## `retain` on the compact splat array (csplat.rs:325–346)

The source computes one keep bitmap from the predicate and filters every
non-empty parallel column with that same bitmap. -/

/-- Filter a column by a shared keep bitmap, as each
`retain(|_| *bits.next().unwrap())` call does. -/
def filterByMask {α : Type} : List Bool → List α → List α
  | b :: m, x :: xs => if b then x :: filterByMask m xs else filterByMask m xs
  | _, _ => []

/-- The surviving original indices, in order, of a keep bitmap: the
`old_index` map of the specification. -/
def maskIndices : List Bool → List Nat
  | [] => []
  | b :: m =>
    if b then 0 :: (maskIndices m).map (· + 1) else (maskIndices m).map (· + 1)

/-- A compact splat array restricted to the columns relevant to `retain`:
the splat core column, the optional child-list column, and the optional SH
band columns (`CsplatArray`, csplat.rs:127). `S` abstracts the per-splat core
record. -/
structure CsplatColumns (S : Type) where
  splats : List S
  children : List (List Nat)
  sh1 : List (List ℤ)
  sh2 : List (List ℤ)
  sh3 : List (List ℤ)

/-- Column coherence: every parallel column present (non-empty) has the same
length as the splat column. -/
def CsplatColumns.coherent {S : Type} (a : CsplatColumns S) : Prop :=
  (a.children ≠ [] → a.children.length = a.splats.length) ∧
  (a.sh1 ≠ [] → a.sh1.length = a.splats.length) ∧
  (a.sh2 ≠ [] → a.sh2.length = a.splats.length) ∧
  (a.sh3 ≠ [] → a.sh3.length = a.splats.length)

/-- `CsplatArray::retain(f)` (csplat.rs:325): one bitmap, applied to the splat
column and to every non-empty parallel column. -/
def CsplatColumns.retain {S : Type} (a : CsplatColumns S) (f : S → Bool) :
    CsplatColumns S :=
  let keep := a.splats.map f
  { splats := filterByMask keep a.splats
    children := if a.children = [] then a.children else filterByMask keep a.children
    sh1 := if a.sh1 = [] then a.sh1 else filterByMask keep a.sh1
    sh2 := if a.sh2 = [] then a.sh2 else filterByMask keep a.sh2
    sh3 := if a.sh3 = [] then a.sh3 else filterByMask keep a.sh3 }

/-- `CsplatArray::get_sh1` for one node (csplat.rs:309), on the stored signed
bytes. -/
def get_sh1 {S : Type} (a : CsplatColumns S) (i : Nat) : List ℚ :=
  (a.sh1.getD i []).map fun v => (v : ℚ) / 127

/-! ## Bhatt-LoD pruning pass (bhatt_lod.rs:140–188)

The full merge tree is represented structurally; each node carries the
`area()` and `opacity()` of its splat (the two factors of the importance
metric `splat.area() * splat.opacity()` computed at bhatt_lod.rs:155).
Original splats are the leaves; appended merge nodes are the interior nodes.
`to_output` is initialized `true` for the original splats (leaves) and the
root, `false` for all other appended nodes (bhatt_lod.rs:144–148); the
recursion only ever sets it to `true`, so the initialization is carried as
the `isRoot` flag below. -/

/-- A node of the full merge tree, carrying `area` and `opacity`. -/
inductive MergeTree where
  | node (area opacity : ℚ) (children : List MergeTree)

/-- A merge-tree node decorated with its final `to_output` flag. -/
inductive KeptTree where
  | node (area opacity : ℚ) (kept : Bool) (children : List KeptTree)

/-- Importance metric of a node: `splat.area() * splat.opacity()`
(bhatt_lod.rs:155–158; the local variable is called `feature_size` there). -/
def MergeTree.imp : MergeTree → ℚ
  | .node a o _ => a * o

/-- Importance of a decorated node. -/
def KeptTree.imp : KeptTree → ℚ
  | .node a o _ _ => a * o

def KeptTree.kept : KeptTree → Bool
  | .node _ _ k _ => k

def KeptTree.children : KeptTree → List KeptTree
  | .node _ _ _ cs => cs

/-- Maximum of a list of rationals; the source folds `f32::max` from
`-INFINITY`, so on the non-empty lists it is applied to this is the plain
maximum. -/
def qMax : List ℚ → ℚ
  | [] => 0
  | x :: xs => xs.foldl max x

/-- `recurse_to_output` (bhatt_lod.rs:150–186): returns the decorated subtree,
the value the source returns as `feature_size` (the node's importance if it is
kept, else the maximum over its surviving descendants), and the importances of
the collected survivor frontier (`new_children`). `isRoot` is the node's
initial `to_output` flag. -/
def recurseToOutput (lodBase : ℚ) (isRoot : Bool) : MergeTree → KeptTree × ℚ × List ℚ
  | .node a o cs =>
    match cs with
    | [] => (.node a o true [], a * o, [a * o])
    | _ :: _ =>
      let rec go : List MergeTree → List KeptTree × ℚ × List ℚ
        | [] => ([], 0, [])
        | [c] =>
          let r := recurseToOutput lodBase false c
          ([r.1], r.2.1, r.2.2)
        | c :: c' :: rest =>
          let r := recurseToOutput lodBase false c
          let rs := go (c' :: rest)
          (r.1 :: rs.1, max r.2.1 rs.2.1, r.2.2 ++ rs.2.2)
      let r := go cs
      let keep := isRoot || decide (lodBase * r.2.1 ≤ a * o)
      if keep then (.node a o true r.1, a * o, [a * o])
      else (.node a o false r.1, r.2.1, r.2.2)

mutual

/-- Concatenated `keptImps` of a child list. -/
def keptImpsList : List KeptTree → List ℚ
  | [] => []
  | c :: cs => keptImps c ++ keptImpsList cs

/-- The importances of the kept nodes of a decorated tree (the node itself
included when its flag is set). -/
def keptImps : KeptTree → List ℚ
  | .node a o k cs => (if k then [a * o] else []) ++ keptImpsList cs

end

/-- The importances of the kept proper descendants of a decorated node:
the surviving descendants the pruning condition is compared against. -/
def survImps (t : KeptTree) : List ℚ :=
  keptImpsList t.children

mutual

/-- Concatenated `allSubtrees` of a child list. -/
def allSubtreesList : List KeptTree → List KeptTree
  | [] => []
  | c :: cs => allSubtrees c ++ allSubtreesList cs

/-- All decorated subtrees of a decorated tree, the tree itself included. -/
def allSubtrees : KeptTree → List KeptTree
  | .node a o k cs => .node a o k cs :: allSubtreesList cs

end

/-- The proper decorated subtrees: every node of the tree except the root. -/
def properSubtrees (t : KeptTree) : List KeptTree :=
  allSubtreesList t.children

/-- The pruning pass on the full merge tree: the root's `to_output` flag is
pre-set (bhatt_lod.rs:148). -/
def pruneTree (lodBase : ℚ) (t : MergeTree) : KeptTree :=
  (recurseToOutput lodBase true t).1

mutual

/-- `nonneg` on a child list. -/
def nonnegList : List MergeTree → Bool
  | [] => true
  | c :: cs => nonneg c && nonnegList cs

/-- Every node of the merge tree has non-negative `area` and `opacity`
(`ellipsoid_area` is non-negative and `opacity` is clamped positive in the
builder, csplat.rs:245). -/
def nonneg : MergeTree → Bool
  | .node a o cs => decide (0 ≤ a) && decide (0 ≤ o) && nonnegList cs

end

/-- The pruning condition of the specification at one decorated node: leaves
are kept; an interior node is kept iff its importance is at least `lodBase`
times the maximum importance among its surviving descendants. -/
def nodeOk (lodBase : ℚ) (s : KeptTree) : Prop :=
  (s.children = [] → s.kept = true) ∧
  (s.children ≠ [] → (s.kept = true ↔ lodBase * qMax (survImps s) ≤ s.imp))

/-! ## Streaming RAD chunk-property decoder (rad.rs:1411–1585) -/

/-- `roundup8` (rad.rs:817): `(size + 7) & !7`. -/
def roundup8 (size : Nat) : Nat := (size + 7) / 8 * 8

/-- `RadChunkPropertyName` (rad.rs:166). -/
inductive PropName where
  | center | alpha | rgb | scales | orientation | sh1 | sh2 | sh3
  | childCount | childStart
deriving DecidableEq

/-- `RadChunkPropertyEncoding` (rad.rs:191). -/
inductive PropEncoding where
  | f32 | f16 | f32LeBytes | f16LeBytes | r8 | r8Delta | s8 | s8Delta
  | ln0r8 | lnF16 | oct88r8 | u16 | u32
deriving DecidableEq

/-- `RadChunkProperty` (rad.rs:152): declared offset and byte count, the
property and encoding tags, whether `compression: Some(Gz)` is present, and
the optional affine range. -/
structure RadChunkProperty where
  offset : Nat
  bytes : Nat
  property : PropName
  encoding : PropEncoding
  compression : Bool
  min : Option ℚ
  max : Option ℚ
deriving DecidableEq

/-- The encoding/range dispatch of `poll_chunk_props` (rad.rs:1437–1579):
`ok` exactly when the property/encoding combination is supported and the
required `min`/`max` fields are present; the error strings follow the source. -/
def decodeDispatch (p : RadChunkProperty) : Except String Unit :=
  match p.property with
  | .center =>
    match p.encoding with
    | .f32 | .f16 | .f32LeBytes | .f16LeBytes => .ok ()
    | _ => .error "Unsupported center encoding"
  | .alpha =>
    match p.encoding with
    | .f32 | .f16 => .ok ()
    | .r8 =>
      match p.min, p.max with
      | none, _ => .error "Property missing min"
      | some _, none => .error "Property missing max"
      | some _, some _ => .ok ()
    | _ => .error "Unsupported alpha encoding"
  | .rgb =>
    match p.encoding with
    | .f32 | .f16 => .ok ()
    | .r8 | .r8Delta =>
      match p.min, p.max with
      | none, _ => .error "Property missing min"
      | some _, none => .error "Property missing max"
      | some _, some _ => .ok ()
    | _ => .error "Unsupported rgb encoding"
  | .scales =>
    match p.encoding with
    | .f32 | .lnF16 => .ok ()
    | .ln0r8 =>
      match p.min, p.max with
      | none, _ => .error "Property missing min"
      | some _, none => .error "Property missing max"
      | some _, some _ => .ok ()
    | _ => .error "Unsupported scales encoding"
  | .orientation =>
    match p.encoding with
    | .oct88r8 | .f32 | .f16 => .ok ()
    | _ => .error "Unsupported orientation encoding"
  | .sh1 | .sh2 | .sh3 =>
    match p.encoding with
    | .f32 | .f16 => .ok ()
    | .r8 | .r8Delta =>
      match p.min, p.max with
      | none, _ => .error "Property missing min"
      | some _, none => .error "Property missing max"
      | some _, some _ => .ok ()
    | .s8 | .s8Delta =>
      match p.max with
      | none => .error "Property missing max"
      | some _ => .ok ()
    | _ => .error "Unsupported sh encoding"
  | .childCount =>
    match p.encoding with
    | .u16 => .ok ()
    | _ => .error "Unsupported child count encoding"
  | .childStart =>
    match p.encoding with
    | .u32 => .ok ()
    | _ => .error "Unsupported child start encoding"

/-- The byte-stream cursor state of `RadDecoder` relevant to property
consumption: the internal buffer and the running stream offset. -/
structure DecoderSt where
  buffer : List Nat
  offset : Nat
deriving DecidableEq

/-- `poll_chunk_props` (rad.rs:1411): consume the declared properties in
order.  For each property, the declared offset must equal the running cursor
(rad.rs:1419, stream error otherwise); with fewer than `roundup8 bytes`
buffered bytes the decoder suspends (`ok false`); otherwise the payload is
decompressed (`inflate` is the external `miniz_oxide` decompressor) and
dispatched, and the cursor advances by the padded size.  The receiver's
`set_*` writes do not affect control flow and are not modelled. -/
def poll_chunk_props (inflate : List Nat → Option (List Nat)) (payloadStart : Nat) :
    List RadChunkProperty → DecoderSt → Except String (Bool × DecoderSt)
  | [], st => .ok (true, st)
  | p :: rest, st =>
    if payloadStart + p.offset ≠ st.offset then
      .error "Property offset mismatch"
    else if st.buffer.length < roundup8 p.bytes then
      .ok (false, st)
    else
      match (if p.compression then inflate (st.buffer.take p.bytes)
             else some (st.buffer.take p.bytes)) with
      | none => .error "Failed to decompress gz data"
      | some _ =>
        match decodeDispatch p with
        | .error e => .error e
        | .ok _ =>
          poll_chunk_props inflate payloadStart rest
            { buffer := st.buffer.drop (roundup8 p.bytes)
              offset := st.offset + roundup8 p.bytes }

/-! ## Runtime LoD traversal (lod_tree.rs:684–895)

`LodSplat` keeps only the tree fields; the numeric result of
`new_compute_pixel_scale` (lod_tree.rs:897, a function of the splat's center
and size and the instance's view parameters) is abstracted into a per-instance
function `ps : Nat → ℚ` from paged splat index to pixel scale, so the theorems
quantify over every view configuration.  The traversal only ever compares
pixel scales, so this abstraction preserves its control flow exactly. -/

/-- The tree fields of `LodSplat` (lod_tree.rs:95). -/
structure LodSplatT where
  childStart : Nat
  childCount : Nat
deriving DecidableEq

/-- `0xFFFFFFFF`, the not-resident page sentinel. -/
def NOT_RESIDENT : Nat := 4294967295

/-- One traversal instance: its tree's (paged) splat array, the residency map
`chunk_to_page`, its root page, its lod id, and its pixel-scale function. -/
structure LodInstanceT where
  splats : List LodSplatT
  chunkToPage : List Nat
  rootPage : Nat
  lodId : Nat
  ps : Nat → ℚ

/-- Traversal state: the max-heap frontier (as a list popped by maximum),
`output`, the `touched` chunk list with its dedup set folded in, and
`num_splats`. -/
structure TravState where
  frontier : List (ℚ × Nat × Nat)
  output : List (Nat × Nat)
  touched : List (Nat × Nat)
  numSplats : Nat

/-- Lexicographic comparison on heap entries, mirroring `Ord` on
`(OrderedFloat<f32>, u32, u32)`. -/
def heapLe (a b : ℚ × Nat × Nat) : Bool :=
  decide (a.1 < b.1) || (decide (a.1 = b.1) &&
    (decide (a.2.1 < b.2.1) || (decide (a.2.1 = b.2.1) && decide (a.2.2 ≤ b.2.2))))

/-- The maximum entry of a non-empty heap (the `BinaryHeap::peek`). -/
def heapMax (x : ℚ × Nat × Nat) (l : List (ℚ × Nat × Nat)) : ℚ × Nat × Nat :=
  l.foldl (fun m y => if heapLe m y then y else m) x

/-- Remove one occurrence of an entry from the heap list. -/
def heapErase : List (ℚ × Nat × Nat) → (ℚ × Nat × Nat) → List (ℚ × Nat × Nat)
  | [], _ => []
  | y :: l, x => if y = x then l else y :: heapErase l x

/-- `touched_set.insert` + `touched.push` (lod_tree.rs:807-815): append if the
pair is not yet present. -/
def touchChunk (touched : List (Nat × Nat)) (p : Nat × Nat) : List (Nat × Nat) :=
  if p ∈ touched then touched else touched ++ [p]

/-- How the main loop of `new_traverse_lod_trees` exited. -/
inductive TravExit where
  | limitReached | budgetStop | emptied
deriving DecidableEq

/-- The per-child fold of the expansion step (lod_tree.rs:829–839): each child
is emitted if its pixel scale is within the limit and pushed on the frontier
otherwise. -/
def expandChildren (inst : LodInstanceT) (instIndex : Nat) (limit : ℚ)
    (node : LodSplatT) (st : TravState) (rest : List (ℚ × Nat × Nat)) : TravState :=
  let pairs := (List.range node.childCount).map fun k =>
    let child := node.childStart + k
    let childPage := inst.chunkToPage.getD (child / 2 ^ 16) 0
    childPage * 2 ^ 16 + child % 2 ^ 16
  pairs.foldl
    (fun acc pagedIndex =>
      let scale := inst.ps pagedIndex
      if scale ≤ limit then { acc with output := acc.output ++ [(instIndex, pagedIndex)] }
      else { acc with frontier := acc.frontier ++ [(scale, instIndex, pagedIndex)] })
    { st with frontier := rest, numSplats := st.numSplats - 1 + node.childCount }

/-- The main loop of `new_traverse_lod_trees` (lod_tree.rs:754–842). -/
def travLoop (insts : List LodInstanceT) (maxSplats : Nat) (limit : ℚ) :
    Nat → TravState → Option (TravState × TravExit)
  | 0, _ => none
  | fuel + 1, st =>
    match st.frontier with
    | [] => some (st, .emptied)
    | x :: l =>
      let top := heapMax x l
      if top.1 ≤ limit then some (st, .limitReached)
      else
        let instIndex := top.2.1
        let pagedIndex := top.2.2
        let inst := insts.getD instIndex ⟨[], [], 0, 0, fun _ => 0⟩
        let node := inst.splats.getD pagedIndex ⟨0, 0⟩
        let rest := heapErase st.frontier top
        if node.childCount = 0 then
          travLoop insts maxSplats limit fuel
            { st with frontier := rest, output := st.output ++ [(instIndex, pagedIndex)] }
        else if maxSplats < st.numSplats - 1 + node.childCount then
          some (st, .budgetStop)
        else
          let firstChunk := node.childStart / 2 ^ 16
          let lastChunk := (node.childStart + node.childCount - 1) / 2 ^ 16
          let touched := touchChunk st.touched (inst.lodId, firstChunk)
          let touched :=
            if lastChunk ≠ firstChunk then touchChunk touched (inst.lodId, lastChunk)
            else touched
          if inst.chunkToPage.length ≤ lastChunk then
            travLoop insts maxSplats limit fuel
              { st with
                frontier := rest
                output := st.output ++ [(instIndex, pagedIndex)]
                touched := touched }
          else if inst.chunkToPage.getD firstChunk 0 = NOT_RESIDENT ∨
              inst.chunkToPage.getD lastChunk 0 = NOT_RESIDENT then
            travLoop insts maxSplats limit fuel
              { st with
                frontier := rest
                output := st.output ++ [(instIndex, pagedIndex)]
                touched := touched }
          else
            travLoop insts maxSplats limit fuel
              (expandChildren inst instIndex limit node { st with touched := touched } rest)

/-- Traversal result: emitted `(instance, paged splat)` pairs, touched
`(lod id, chunk)` pairs, and whether the loop was budget-terminated. -/
structure TravResult where
  output : List (Nat × Nat)
  touched : List (Nat × Nat)
  budgetTerminated : Bool
deriving DecidableEq

/-- The effective root paged index of an instance (lod_tree.rs:738–740):
`root_page << 16`, with a `0xFFFFFFFF` root page treated as page 0. -/
def rootIndex (inst : LodInstanceT) : Nat :=
  (if inst.rootPage = NOT_RESIDENT then 0 else inst.rootPage) * 2 ^ 16

/-- `new_traverse_lod_trees` (lod_tree.rs:685): seed one root per instance,
run the loop, then drain the remaining frontier into the output
(lod_tree.rs:844). -/
def newTraverseLodTrees (insts : List LodInstanceT) (maxSplats : Nat) (limit : ℚ)
    (fuel : Nat) : Option TravResult :=
  let st0 : TravState :=
    { frontier := insts.enum.map fun p => (p.2.ps (rootIndex p.2), p.1, rootIndex p.2)
      output := []
      touched := insts.foldl (fun acc inst => touchChunk acc (inst.lodId, 0)) []
      numSplats := insts.length }
  match travLoop insts maxSplats limit fuel st0 with
  | none => none
  | some (st, exit) =>
    some { output := st.output ++ st.frontier.map (fun e => (e.2.1, e.2.2))
           touched := st.touched
           budgetTerminated := decide (exit = .budgetStop) }

/-- The pixel scale the traversal associates with `(instance, paged index)`. -/
def instPs (insts : List LodInstanceT) (instIndex pagedIndex : Nat) : ℚ :=
  (insts.getD instIndex ⟨[], [], 0, 0, fun _ => 0⟩).ps pagedIndex

/-- The node stored at `(instance, paged index)`. -/
def instNode (insts : List LodInstanceT) (instIndex pagedIndex : Nat) : LodSplatT :=
  (insts.getD instIndex ⟨[], [], 0, 0, fun _ => 0⟩).splats.getD pagedIndex ⟨0, 0⟩

/-- The "coarser stand-in" condition (lod_tree.rs:817–827): the node has
children but their chunk range is not fully resident, so the node itself is
emitted in place of its children. -/
def standIn (insts : List LodInstanceT) (instIndex pagedIndex : Nat) : Prop :=
  let inst := insts.getD instIndex ⟨[], [], 0, 0, fun _ => 0⟩
  let node := inst.splats.getD pagedIndex ⟨0, 0⟩
  let lastChunk := (node.childStart + node.childCount - 1) / 2 ^ 16
  node.childCount ≠ 0 ∧
    (inst.chunkToPage.length ≤ lastChunk ∨
      inst.chunkToPage.getD (node.childStart / 2 ^ 16) 0 = NOT_RESIDENT ∨
      inst.chunkToPage.getD lastChunk 0 = NOT_RESIDENT)

/-- The per-splat guarantee of the traversal: an emitted `(instance, paged
index)` pair has its pixel scale within the limit, or is a leaf, or is a
coarser stand-in for non-resident children. -/
def emitOk (insts : List LodInstanceT) (limit : ℚ) (q : Nat × Nat) : Prop :=
  instPs insts q.1 q.2 ≤ limit ∨ (instNode insts q.1 q.2).childCount = 0 ∨
    standIn insts q.1 q.2

/-- The invariant of the traversal loop: `num_splats` counts emitted plus
frontier entries and stays within the budget, the heap stores the true pixel
scale of every entry, and every emitted pair satisfies `emitOk`. -/
def travInv (insts : List LodInstanceT) (maxSplats : Nat) (limit : ℚ)
    (st : TravState) : Prop :=
  st.numSplats = st.output.length + st.frontier.length ∧
  st.numSplats ≤ maxSplats ∧
  (∀ e ∈ st.frontier, e.1 = instPs insts e.2.1 e.2.2) ∧
  (∀ q ∈ st.output, emitOk insts limit q)

/-! ## List update and swap primitives -/

/-- Write `x` at position `i` (no-op out of bounds, where the source would
panic). -/
def listSet {α : Type} : List α → Nat → α → List α
  | [], _, _ => []
  | _ :: t, 0, x => x :: t
  | h :: t, n + 1, x => h :: listSet t n x

/-- `data.swap(i, j)`. -/
def listSwap {α : Type} (l : List α) (i j : Nat) : List α :=
  match l[i]?, l[j]? with
  | some xi, some xj => listSet (listSet l i xj) j xi
  | _, _ => l

/-! ## Permutation by cycle decomposition (tsplat.rs:128–151) -/

/-- The `dest_of_src` array of `compute_swaps` (tsplat.rs:131–135):
`dest_of_src[old] = new` for each entry of the index map. -/
def buildDest (indexMap : List Nat) : List Nat :=
  indexMap.enum.foldl (fun dest p => listSet dest p.2 p.1)
    (List.replicate indexMap.length 0)

/-- The inner `while dest_of_src[i] != i` walk of `compute_swaps`
(tsplat.rs:138–142), with fuel. -/
def swapWalk : Nat → List Nat → Nat → List (Nat × Nat) →
    Option (List (Nat × Nat) × List Nat)
  | 0, _, _, _ => none
  | fuel + 1, dest, i, acc =>
    if dest.getD i 0 = i then some (acc, dest)
    else
      swapWalk fuel (listSwap dest i (dest.getD i 0)) i (acc ++ [(i, dest.getD i 0)])

/-- `compute_swaps(index_map)` (tsplat.rs:128). -/
def compute_swaps (indexMap : List Nat) : Option (List (Nat × Nat)) :=
  let n := indexMap.length
  ((List.range n).foldl
    (fun acc i => acc.bind fun p => swapWalk (n + 1) p.2 i p.1)
    (some ([], buildDest indexMap))).map (fun p => p.1)

/-- `apply_swaps(data, swaps)` (tsplat.rs:147). -/
def apply_swaps {α : Type} (data : List α) (swaps : List (Nat × Nat)) : List α :=
  swaps.foldl (fun d p => listSwap d p.1 p.2) data

/-- `CsplatArray::permute` applied to one parallel column (csplat.rs:381):
asserts the map length, computes the swap list once, and applies it. -/
def permuteCol {α : Type} (data : List α) (indexMap : List Nat) : Option (List α) :=
  if indexMap.length = data.length then
    (compute_swaps indexMap).map (apply_swaps data)
  else none

/-- The `dest_of_src` working array is an in-bounds injective position map. -/
def destOk (n : Nat) (dest : List Nat) : Prop :=
  dest.length = n ∧ (∀ k, k < n → dest.getD k 0 < n) ∧
  ∀ k kk, k < n → kk < n → dest.getD k 0 = dest.getD kk 0 → k = kk

/-- The meaning of an accumulated swap list relative to the current
`dest_of_src`: applying the swaps to any column realizes the source map
`m ∘ dest`. -/
def swapsSem (m : List Nat) (sw : List (Nat × Nat)) (dest : List Nat) : Prop :=
  ∀ (α : Type) (d : α) (data : List α), data.length = m.length →
    ∀ k, k < m.length → (apply_swaps data sw).getD k d =
      data.getD (m.getD (dest.getD k 0) 0) d

/-! ## Chunk-tree layout (chunk_tree.rs)

Centers are rational triples; `morton_coord16_to_index` /
`morton_coord24_to_index` live in `ordering.rs`, which is not part of the
sources; they are modelled from the spec as 3-D bit interleaving ("Morton
order: bit-interleaved 3D integer coordinates").  The layout theorems do not
depend on the key function. -/

/-- A splat array as seen by the layout passes: centers, feature sizes, and
the child-list column. -/
structure LayoutSplats where
  centers : List (ℚ × ℚ × ℚ)
  sizes : List ℚ
  children : List (List Nat)

/-- The evolving layout state: the emitted old-index order and the (rewritten)
child-list column. -/
structure LayoutSt where
  indices : List Nat
  children : List (List Nat)
deriving DecidableEq

/-- `BATCH_SIZE` (chunk_tree.rs:11). -/
def BATCH_SIZE : Nat := 65536

/-- `MIN_BATCH_SIZE` (chunk_tree.rs:12). -/
def MIN_BATCH_SIZE : Nat := 8192

/-- `SLICE_FACTOR` (chunk_tree.rs:14). -/
def SLICE_FACTOR : ℚ := 3

/-- Modelled from the spec: Morton order as bit interleaving of three
`bits`-bit coordinates (`ordering.rs` is not in the sources). -/
def mortonIndex (bits : Nat) (x y z : Nat) : Nat :=
  (List.range bits).foldl
    (fun acc i => acc + (x / 2 ^ i % 2) * 2 ^ (3 * i) + (y / 2 ^ i % 2) * 2 ^ (3 * i + 1)
      + (z / 2 ^ i % 2) * 2 ^ (3 * i + 2)) 0

/-- An axis-aligned bounding box over rational points. -/
structure AabbQ where
  lo : ℚ × ℚ × ℚ
  hi : ℚ × ℚ × ℚ

/-- Fold of `Aabb::empty().add_point(...)` over a point list; on the non-empty
lists the layout applies it to, this is the componentwise min/max. -/
def aabbOf : List (ℚ × ℚ × ℚ) → AabbQ
  | [] => ⟨(0, 0, 0), (0, 0, 0)⟩
  | p :: rest =>
    rest.foldl
      (fun a q =>
        ⟨(min a.lo.1 q.1, min a.lo.2.1 q.2.1, min a.lo.2.2 q.2.2),
         (max a.hi.1 q.1, max a.hi.2.1 q.2.1, max a.hi.2.2 q.2.2)⟩)
      ⟨p, p⟩

/-- One normalized Morton coordinate:
`((c - min) / extent * scale).clamp(0, scale).round()` (chunk_tree.rs:569-570;
a degenerate extent yields coordinate 0, as the `NaN as u16` cast does). -/
def mcoord (lo hi c scale : ℚ) : Nat :=
  (rustRound (clampQ ((c - lo) / (hi - lo) * scale) 0 scale)).toNat

/-- The Morton sort key of a center within a box (chunk_tree.rs:567–572 with
16-bit coordinates, chunk_tree.rs:292–297 with 24-bit coordinates). -/
def mortonKey (bits : Nat) (scale : ℚ) (a : AabbQ) (c : ℚ × ℚ × ℚ) : Nat :=
  mortonIndex bits (mcoord a.lo.1 a.hi.1 c.1 scale)
    (mcoord a.lo.2.1 a.hi.2.1 c.2.1 scale) (mcoord a.lo.2.2 a.hi.2.2 c.2.2 scale)

/-- The center of an old splat index. -/
def centerOf (sp : LayoutSplats) (u : Nat) : ℚ × ℚ × ℚ :=
  sp.centers.getD u (0, 0, 0)

/-- `batch.sort_by_key(morton key within the batch AABB)` — a stable sort, as
Rust's `sort_by_key` is. -/
def sortMorton (bits : Nat) (scale : ℚ) (sp : LayoutSplats) (batch : List Nat) :
    List Nat :=
  let aabb := aabbOf (batch.map (centerOf sp))
  batch.mergeSort fun u v =>
    decide (mortonKey bits scale aabb (centerOf sp u) ≤ mortonKey bits scale aabb (centerOf sp v))

/-- Componentwise extent of a box. -/
def extentOf (a : AabbQ) : ℚ × ℚ × ℚ :=
  (a.hi.1 - a.lo.1, a.hi.2.1 - a.lo.2.1, a.hi.2.2 - a.lo.2.2)

/-- Midpoint of a box (`Aabb::center`). -/
def aabbCenter (a : AabbQ) : ℚ × ℚ × ℚ :=
  ((a.lo.1 + a.hi.1) / 2, (a.lo.2.1 + a.hi.2.1) / 2, (a.lo.2.2 + a.hi.2.2) / 2)

/-- `Aabb::longest_axis` (chunk_tree.rs:104): 0 = X, 1 = Y, 2 = Z. -/
def longestAxis (e : ℚ × ℚ × ℚ) : Nat :=
  if e.1 ≥ e.2.1 ∧ e.1 ≥ e.2.2 then 0 else if e.2.1 ≥ e.2.2 then 1 else 2

/-- Component of a triple selected by axis index. -/
def axisGet (axis : Nat) (c : ℚ × ℚ × ℚ) : ℚ :=
  if axis = 0 then c.1 else if axis = 1 then c.2.1 else c.2.2

/-- `extent.max_element()`. -/
def maxElem (e : ℚ × ℚ × ℚ) : ℚ := max e.1 (max e.2.1 e.2.2)

/-- `extent.min_element()`. -/
def minElem (e : ℚ × ℚ × ℚ) : ℚ := min e.1 (min e.2.1 e.2.2)

/-- `octant` of a center relative to the split point (chunk_tree.rs:626–628). -/
def octantOf (split c : ℚ × ℚ × ℚ) : Nat :=
  (if c.1 < split.1 then 0 else 1) + (if c.2.1 < split.2.1 then 0 else 2) +
    (if c.2.2 < split.2.2 then 0 else 4)

/-- Redistribution of a leftover ordering into follow-up batches
(chunk_tree.rs:598–639): split on the longest axis when the box is elongated
3:1 (larger half first), otherwise partition into octants around the centroid
and order them by the fixed Hilbert permutation `{0,1,3,2,6,7,5,4}`. -/
def splitLeftover (sp : LayoutSplats) (leftover : List Nat) : List (List Nat) :=
  let aabb := aabbOf (leftover.map (centerOf sp))
  let e := extentOf aabb
  if maxElem e ≥ 3 * minElem e then
    let axis := longestAxis e
    let split := axisGet axis (aabbCenter aabb)
    let a := leftover.filter fun u => decide (axisGet axis (centerOf sp u) < split)
    let b := leftover.filter fun u => ¬ decide (axisGet axis (centerOf sp u) < split)
    if a.length < b.length then [b, a] else [a, b]
  else
    let split := aabbCenter aabb
    let octs := fun o => leftover.filter fun u => octantOf split (centerOf sp u) = o
    [octs 0, octs 1, octs 3, octs 2, octs 6, octs 7, octs 5, octs 4]

/-- The inner `while let Some(parent) = ordering.pop_front()` loop of
`chunk_tree_morton` (chunk_tree.rs:579–593): assign each parent's children the
next contiguous index range and append them to the ordering, stopping before
crossing `end_index`. -/
def innerLoop : Nat → LayoutSt → List Nat → Nat → Option (LayoutSt × List Nat)
  | 0, _, _, _ => none
  | fuel + 1, st, ordering, endIdx =>
    match ordering with
    | [] => some (st, [])
    | parent :: rest =>
      let cs := st.children.getD parent []
      if endIdx < st.indices.length + cs.length then some (st, parent :: rest)
      else
        innerLoop fuel
          ⟨st.indices ++ cs, listSet st.children parent (List.range' st.indices.length cs.length)⟩
          (rest ++ cs) endIdx

/-- The outer batch loop of `chunk_tree_morton` (chunk_tree.rs:560–641):
Morton-sort the batch, expand it up to the batch boundary
`(start + MIN_BATCH_SIZE).div_ceil(BATCH_SIZE) * BATCH_SIZE`, and requeue any
leftover as split follow-up batches. -/
def outerLoop (sp : LayoutSplats) : Nat → LayoutSt → List (List Nat) → Option LayoutSt
  | 0, _, _ => none
  | _ + 1, st, [] => some st
  | fuel + 1, st, batch :: batches =>
    let sorted := sortMorton 16 65535 sp batch
    let endIdx := (st.indices.length + MIN_BATCH_SIZE + (BATCH_SIZE - 1)) / BATCH_SIZE * BATCH_SIZE
    match innerLoop fuel st sorted endIdx with
    | none => none
    | some (st', leftover) =>
      match leftover with
      | [] => outerLoop sp fuel st' batches
      | _ :: _ => outerLoop sp fuel st' (batches ++ splitLeftover sp leftover)

/-- `chunk_tree_morton(splats, root)` (chunk_tree.rs:553) up to (and
including) the final length assertion; the returned state holds the layout
order and the rewritten child-list column, to which `permute` is then
applied. -/
def chunkTreeMorton (sp : LayoutSplats) (root : Nat) (fuel : Nat) : Option LayoutSt :=
  match outerLoop sp fuel ⟨[root], sp.children⟩ [[root]] with
  | none => none
  | some st => if st.indices.length = sp.centers.length then some st else none

/-- `chunk_tree(splats, root)` (chunk_tree.rs:647) simply delegates to
`chunk_tree_morton`. -/
def chunk_tree (sp : LayoutSplats) (root : Nat) (fuel : Nat) : Option LayoutSt :=
  chunkTreeMorton sp root fuel

/-- The child-list column after `splats.permute(&indices)` (chunk_tree.rs:644,
csplat.rs:381): each column is permuted by the one swap list. -/
def chunkTreePermuted (sp : LayoutSplats) (root : Nat) (fuel : Nat) :
    Option (List (List Nat)) :=
  match chunkTreeMorton sp root fuel with
  | none => none
  | some st => permuteCol st.children st.indices

/-- The child list stored for old index `old` is either empty or a contiguous
index range lying strictly above position `j`. -/
def childOk (children : List (List Nat)) (old j : Nat) : Prop :=
  children.getD old [] = [] ∨
  ∃ s k, children.getD old [] = List.range' s k ∧ j < s

/-- The chunk-tree layout invariant: every already-placed splat either has
its child list rewritten to a contiguous range above its position, or is
still pending (queued in the ordering or in a follow-up batch). -/
def layoutInv (st : LayoutSt) (pending : List Nat) : Prop :=
  ∀ j, j < st.indices.length →
    childOk st.children (st.indices.getD j 0) j ∨ st.indices.getD j 0 ∈ pending

/-! ## `morton_tree` size-level sweep (chunk_tree.rs:269–320), for C9 -/

/-- Feature size of an old splat index. -/
def sizeOfSplat (sp : LayoutSplats) (u : Nat) : ℚ :=
  sp.sizes.getD u 0

/-- The per-wave parent processing of `morton_tree` (chunk_tree.rs:299–309):
parents with children get the next contiguous range and their children are
appended to `indices` and to `additional`. -/
def mortonProcess (st : LayoutSt) (parents : List Nat) : LayoutSt × List Nat :=
  parents.foldl
    (fun acc parent =>
      let cs := acc.1.children.getD parent []
      if cs = [] then acc
      else
        (⟨acc.1.indices ++ cs,
          listSet acc.1.children parent (List.range' acc.1.indices.length cs.length)⟩,
         acc.2 ++ cs))
    (st, [])

/-- The inner `while !active.is_empty()` loop of `morton_tree`
(chunk_tree.rs:281–312): nodes below the current size limit are deferred into
`next_active`, the rest are Morton-sorted and expanded; their children form
the next wave. -/
def mortonWave (sp : LayoutSplats) :
    Nat → LayoutSt → List Nat → ℚ → List Nat → Option (LayoutSt × List Nat)
  | 0, _, _, _, _ => none
  | fuel + 1, st, active, limit, nextActive =>
    match active with
    | [] => some (st, nextActive)
    | _ :: _ =>
      let current := active.filter fun u => decide (limit ≤ sizeOfSplat sp u)
      let below := active.filter fun u => ¬ decide (limit ≤ sizeOfSplat sp u)
      let sorted := sortMorton 24 16777215 sp current
      let p := mortonProcess st sorted
      mortonWave sp fuel p.1 p.2 limit (nextActive ++ below)

/-- The outer level loop of `morton_tree` (chunk_tree.rs:276–316): when the
frontier at the current size level is exhausted, divide `size_limit` by
`SLICE_FACTOR` and continue with the deferred nodes. -/
def mortonOuter (sp : LayoutSplats) : Nat → LayoutSt → List Nat → ℚ → Option LayoutSt
  | 0, _, _, _ => none
  | fuel + 1, st, active, limit =>
    match active with
    | [] => some st
    | _ :: _ =>
      match mortonWave sp fuel st active limit [] with
      | none => none
      | some (st', next) => mortonOuter sp fuel st' next (limit / SLICE_FACTOR)

/-- `morton_tree(splats, root)` (chunk_tree.rs:269) up to the final length
assertion. -/
def mortonTree (sp : LayoutSplats) (root : Nat) (fuel : Nat) : Option LayoutSt :=
  match mortonOuter sp fuel ⟨[root], sp.children⟩ [root] (sizeOfSplat sp root) with
  | none => none
  | some st => if st.indices.length = sp.centers.length then some st else none

/-! ## Similarity metric (tsplat.rs:153–194), over ℝ

`SymMat3` lives in `symmat3.rs`, which is not among the sources; its
operations are modelled from the spec (§4.B): the covariance of a splat is
`Σ = R · diag(s²) · Rᵀ` with `R` the rotation matrix of the quaternion,
stored symmetric; the inverse is cofactor/determinant (that is, the matrix
inverse), failing when `|det| < ε ≈ 1e-30`; the average is `½(Σₐ + Σ_b)`.
The f32 arithmetic of `tsplat.rs` is embedded as exact real arithmetic. -/

/-- A splat as consumed by the similarity metric. -/
structure RSplat where
  center : Fin 3 → ℝ
  scales : Fin 3 → ℝ
  quat : Fin 4 → ℝ
  rgb : Fin 3 → ℝ

/-- The rotation matrix of a quaternion `(x, y, z, w)` (the standard
quaternion-to-matrix formula used by `glam::Mat3A::from_quat`). -/
noncomputable def rotOfQuat (q : Fin 4 → ℝ) : Matrix (Fin 3) (Fin 3) ℝ :=
  !![1 - 2 * (q 1 ^ 2 + q 2 ^ 2), 2 * (q 0 * q 1 - q 2 * q 3), 2 * (q 0 * q 2 + q 1 * q 3);
     2 * (q 0 * q 1 + q 2 * q 3), 1 - 2 * (q 0 ^ 2 + q 2 ^ 2), 2 * (q 1 * q 2 - q 0 * q 3);
     2 * (q 0 * q 2 - q 1 * q 3), 2 * (q 1 * q 2 + q 0 * q 3), 1 - 2 * (q 0 ^ 2 + q 1 ^ 2)]

/-- Modelled from the spec: `SymMat3::new_scale_quaternion(scales, quat)`
is `Σ = R · diag(s²) · Rᵀ`. -/
noncomputable def covOfSplat (a : RSplat) : Matrix (Fin 3) (Fin 3) ℝ :=
  rotOfQuat a.quat * Matrix.diagonal (fun i => a.scales i ^ 2) * (rotOfQuat a.quat).transpose

/-- The singularity threshold of `SymMat3::inverse` (spec §4.B: ε ≈ 1e−30). -/
noncomputable def epsSing : ℝ := 1 / 10 ^ 30

/-- `bhattacharyya_distance(a, b)` (tsplat.rs:153): `Σ = ½(Σₐ + Σ_b)`; if the
inverse fails (`|det Σ| < ε`) return 0; otherwise
`⅛ δᵀΣ⁻¹δ + ½ ln(det Σ / √(det Σₐ · det Σ_b))`, with the quadratic form
expanded from the six stored components exactly as in tsplat.rs:162–167. -/
noncomputable def bhattacharyya_distance (a b : RSplat) : ℝ :=
  let covA := covOfSplat a
  let covB := covOfSplat b
  let sigma := (1 / 2 : ℝ) • (covA + covB)
  if |sigma.det| < epsSing then 0
  else
    let inv := sigma⁻¹
    let dx := b.center 0 - a.center 0
    let dy := b.center 1 - a.center 1
    let dz := b.center 2 - a.center 2
    let quad := inv 0 0 * dx * dx + inv 1 1 * dy * dy + inv 2 2 * dz * dz
      + 2 * inv 0 1 * dx * dy + 2 * inv 0 2 * dx * dz + 2 * inv 1 2 * dy * dz
    0.125 * quad + 0.5 * Real.log (sigma.det / Real.sqrt (covA.det * covB.det))

/-- `bhattacharyya_coeff(a, b)` (tsplat.rs:178). -/
noncomputable def bhattacharyya_coeff (a b : RSplat) : ℝ :=
  Real.exp (-bhattacharyya_distance a b)

/-- `similarity_metric(a, b)` (tsplat.rs:182):
`exp(−D_B) · exp(−‖rgb_a − rgb_b‖²)`; the `is_nan` guard of the f32 code is
vacuous over ℝ. -/
noncomputable def similarity_metric (a b : RSplat) : ℝ :=
  bhattacharyya_coeff a b *
    Real.exp (-((a.rgb 0 - b.rgb 0) ^ 2 + (a.rgb 1 - b.rgb 1) ^ 2 + (a.rgb 2 - b.rgb 2) ^ 2))

end Spark

namespace Spark

/-! # Theorems

General list lemmas shared by several claims, then the claim theorems. -/

theorem getD_map_range {α : Type} (f : Nat → α) (n i : Nat) (d : α) :
    ((List.range n).map f).getD i d = if i < n then f i else d := by
  rcases lt_or_le i n with h | h
  · rw [List.getD_eq_getElem?_getD]
    simp [List.getElem?_map, List.getElem?_range h, h]
  · rw [List.getD_eq_getElem?_getD]
    rw [List.getElem?_eq_none (by simpa using h)]
    simp [Nat.not_lt.mpr h]

theorem length_flatMap_const {α : Type} (f : Nat → List α) (L n : Nat)
    (h : ∀ i < n, (f i).length = L) : ((List.range n).flatMap f).length = n * L := by
  induction n with
  | zero => simp
  | succ m ih =>
    rw [List.range_succ, List.flatMap_append]
    simp only [List.length_append, List.flatMap_cons, List.flatMap_nil, List.append_nil]
    rw [ih (fun i hi => h i (Nat.lt_succ_of_lt hi)), h m (Nat.lt_succ_self m)]
    ring

theorem getD_flatMap_const {α : Type} (f : Nat → List α) (L n : Nat)
    (h : ∀ i < n, (f i).length = L) (i r : Nat) (hi : i < n) (hr : r < L) (d : α) :
    ((List.range n).flatMap f).getD (i * L + r) d = (f i).getD r d := by
  induction n with
  | zero => omega
  | succ m ih =>
    rw [List.range_succ, List.flatMap_append]
    simp only [List.flatMap_cons, List.flatMap_nil, List.append_nil]
    rcases lt_or_le i m with him | him
    · rw [List.getD_append]
      · exact ih (fun j hj => h j (Nat.lt_succ_of_lt hj)) him
      · rw [length_flatMap_const f L m (fun j hj => h j (Nat.lt_succ_of_lt hj))]
        calc i * L + r < i * L + L := by omega
          _ = (i + 1) * L := by ring
          _ ≤ m * L := Nat.mul_le_mul_right L him
    · have hieq : i = m := by omega
      subst hieq
      rw [List.getD_append_right]
      · rw [length_flatMap_const f L i (fun j hj => h j (Nat.lt_succ_of_lt hj))]
        congr 1
        omega
      · rw [length_flatMap_const f L i (fun j hj => h j (Nat.lt_succ_of_lt hj))]
        omega

end Spark

namespace Spark

/-! ## C10: child_start = 0 as the leaf marker -/

theorem get_child_start_zero_of_mem (cs : List Nat) (h : 0 ∉ cs) :
    get_child_start cs = 0 ↔ cs = [] := by
  cases cs with
  | nil => simp [get_child_start]
  | cons x t =>
    simp only [get_child_start, List.getD_cons_zero]
    constructor
    · intro hx
      exact absurd (hx ▸ List.mem_cons_self x t) h
    · intro hx
      exact absurd hx (List.cons_ne_nil x t)

/-- C10 counterexample: on the child list `[0]` (a non-empty list whose first
child is splat 0), `get_child_start` emits 0, so the encoder-side marker is
not 0 "exactly for nodes whose child list is empty" as the claim states. -/
theorem C10_counterexample :
    get_child_start [0] = 0 ∧ ([0] : List Nat) ≠ [] := by
  constructor
  · rfl
  · simp

/-- C10 (amended): in the compact splat array, `set_child_start` with value 0
clears the node's child list, so a decoded node whose `child_start` property
is 0 is a leaf regardless of its previously set `child_count`; conversely
`get_child_start` emits 0 for every empty child list, and — provided no child
list contains splat index 0, as holds after chunk-tree layout where children
point above their parent — it emits 0 exactly for the empty ones. -/
theorem set_child_start_zero_clears :
    (∀ (children : List (List Nat)) (base : Nat) (starts : List Nat) (i : Nat),
      base ≤ i → i < base + starts.length → i < children.length →
      starts.getD (i - base) 0 = 0 →
      (set_child_start children base starts).getD i [] = []) ∧
    (get_child_start ([] : List Nat) = 0) ∧
    (∀ cs : List Nat, 0 ∉ cs → (get_child_start cs = 0 ↔ cs = [])) := by
  refine ⟨?_, rfl, get_child_start_zero_of_mem⟩
  intro children base starts i h1 h2 h3 h4
  unfold set_child_start
  rw [getD_map_range]
  simp only [h3, if_true]
  rw [if_pos ⟨h1, h2⟩, if_pos h4]

/-- C10 witness. -/
theorem set_child_start_zero_clears_witness :
    (set_child_start [[7, 8], [9]] 0 [0, 3]).getD 0 [] = [] ∧
    (get_child_start [5] = 0 ↔ ([5] : List Nat) = []) := by
  constructor
  · exact set_child_start_zero_clears.1 [[7, 8], [9]] 0 [0, 3] 0 (by decide) (by decide)
      (by decide) (by decide)
  · exact set_child_start_zero_clears.2.2 [5] (by decide)

end Spark


namespace Spark

/-! ## C7: `retain` keeps all parallel columns coherent -/

theorem filterByMask_length {α : Type} :
    ∀ (mask : List Bool) (xs : List α), mask.length = xs.length →
      (filterByMask mask xs).length = (maskIndices mask).length := by
  intro mask
  induction mask with
  | nil =>
    intro xs h
    cases xs with
    | nil => simp [filterByMask, maskIndices]
    | cons x t => simp at h
  | cons b m ih =>
    intro xs h
    cases xs with
    | nil => simp at h
    | cons x t =>
      simp only [List.length_cons, Nat.succ.injEq] at h
      cases b with
      | true => simp [filterByMask, maskIndices, ih t h]
      | false => simp [filterByMask, maskIndices, ih t h]

theorem getD_map_add_one (l : List Nat) (i : Nat) (hi : i < l.length) :
    ((l.map (· + 1)).getD i 0) = l.getD i 0 + 1 := by
  rw [List.getD_eq_getElem?_getD, List.getD_eq_getElem?_getD, List.getElem?_map,
    List.getElem?_eq_getElem hi]
  rfl

theorem filterByMask_getD {α : Type} :
    ∀ (mask : List Bool) (xs : List α), mask.length = xs.length →
      ∀ (i : Nat), i < (maskIndices mask).length → ∀ (d : α),
      (filterByMask mask xs).getD i d = xs.getD ((maskIndices mask).getD i 0) d := by
  intro mask
  induction mask with
  | nil =>
    intro xs h i hi
    simp [maskIndices] at hi
  | cons b m ih =>
    intro xs h i hi d
    cases xs with
    | nil => simp at h
    | cons x t =>
      simp only [List.length_cons, Nat.succ.injEq] at h
      cases b with
      | true =>
        simp only [maskIndices, if_true] at hi ⊢
        cases i with
        | zero => simp [filterByMask]
        | succ j =>
          have hj : j < (maskIndices m).length := by
            simpa using Nat.lt_of_succ_lt_succ (by simpa using hi)
          simp only [filterByMask, if_true, List.getD_cons_succ]
          rw [ih t h j hj d, getD_map_add_one _ j hj]
          simp
      | false =>
        simp only [maskIndices] at hi ⊢
        have hi' : i < (maskIndices m).length := by simpa using hi
        simp only [filterByMask]
        rw [if_neg (by simp), if_neg (by simp)]
        rw [ih t h i hi' d, getD_map_add_one _ i hi']
        simp

/-- C7: `retain(p)` keeps all parallel columns coherent: on a coherent array,
the filtered array is coherent (the splat count equals the length of every
parallel column present), and every surviving index reads the `sh1` data its
pre-filter original had, where `old_index` is the in-order map of surviving
splats to their original positions. -/
theorem retain_coherent {S : Type} (a : CsplatColumns S) (f : S → Bool)
    (h : a.coherent) :
    (a.retain f).coherent ∧
    (∀ i, i < (a.retain f).splats.length →
      get_sh1 (a.retain f) i = get_sh1 a ((maskIndices (a.splats.map f)).getD i 0)) := by
  obtain ⟨hch, hsh1, hsh2, hsh3⟩ := h
  have hmask : (a.splats.map f).length = a.splats.length := by simp
  have hslen : (filterByMask (a.splats.map f) a.splats).length =
      (maskIndices (a.splats.map f)).length :=
    filterByMask_length _ _ hmask
  constructor
  · refine ⟨?_, ?_, ?_, ?_⟩
    · intro hne
      by_cases hc : a.children = []
      · simp [CsplatColumns.retain, hc] at hne
      · simp only [CsplatColumns.retain, if_neg hc] at hne ⊢
        rw [filterByMask_length _ _ (by rw [hmask, hch hc]), hslen]
    · intro hne
      by_cases hc : a.sh1 = []
      · simp [CsplatColumns.retain, hc] at hne
      · simp only [CsplatColumns.retain, if_neg hc] at hne ⊢
        rw [filterByMask_length _ _ (by rw [hmask, hsh1 hc]), hslen]
    · intro hne
      by_cases hc : a.sh2 = []
      · simp [CsplatColumns.retain, hc] at hne
      · simp only [CsplatColumns.retain, if_neg hc] at hne ⊢
        rw [filterByMask_length _ _ (by rw [hmask, hsh2 hc]), hslen]
    · intro hne
      by_cases hc : a.sh3 = []
      · simp [CsplatColumns.retain, hc] at hne
      · simp only [CsplatColumns.retain, if_neg hc] at hne ⊢
        rw [filterByMask_length _ _ (by rw [hmask, hsh3 hc]), hslen]
  · intro i hi
    simp only [CsplatColumns.retain, get_sh1] at hi ⊢
    by_cases hc : a.sh1 = []
    · simp [hc]
    · simp only [if_neg hc]
      rw [filterByMask_getD _ _ (by rw [hmask, hsh1 hc]) i (by rw [← hslen]; exact hi)]

/-- C7 witness: a 3-splat array with one SH1 column, filtered by a predicate
keeping splats 0 and 2. -/
theorem retain_coherent_witness :
    ((⟨[0, 1, 2], [], [[1], [2], [3]], [], []⟩ :
      CsplatColumns ℕ).retain (fun s => decide (s ≠ 1))).coherent ∧
    get_sh1 ((⟨[0, 1, 2], [], [[1], [2], [3]], [], []⟩ :
      CsplatColumns ℕ).retain (fun s => decide (s ≠ 1))) 1 = [3 / 127] := by
  have h := retain_coherent
    (⟨[0, 1, 2], [], [[1], [2], [3]], [], []⟩ : CsplatColumns ℕ)
    (fun s => decide (s ≠ 1))
    (by refine ⟨?_, ?_, ?_, ?_⟩ <;> intro hne <;> simp_all)
  refine ⟨h.1, ?_⟩
  have h2 := h.2 1 (by decide)
  rw [h2]
  norm_num [get_sh1, maskIndices, CsplatColumns.retain, filterByMask]

end Spark

namespace Spark

/-! ## C1: quantizer round trips -/

theorem getD_eq_getElem {α : Type} (l : List α) (i : Nat) (d : α) (h : i < l.length) :
    l.getD i d = l[i] := by
  rw [List.getD_eq_getElem?_getD, List.getElem?_eq_getElem h]
  rfl

theorem list_eq_of_getD {α : Type} (l1 l2 : List α) (d : α) (h : l1.length = l2.length)
    (hp : ∀ i, i < l1.length → l1.getD i d = l2.getD i d) : l1 = l2 := by
  apply List.ext_getElem h
  intro i h1 h2
  rw [← getD_eq_getElem l1 i d h1, ← getD_eq_getElem l2 i d h2]
  exact hp i h1

theorem ofLe4_leBytes4 (v : Nat) (h : v < 2 ^ 32) :
    v % 256 + 256 * (v / 256 % 256) + 2 ^ 16 * (v / 2 ^ 16 % 256) +
      2 ^ 24 * (v / 2 ^ 24 % 256) = v := by
  have h16 : (2 : Nat) ^ 16 = 65536 := by norm_num
  have h24 : (2 : Nat) ^ 24 = 16777216 := by norm_num
  have h32 : (2 : Nat) ^ 32 = 4294967296 := by norm_num
  rw [h16, h24] at *
  rw [h32] at h
  omega

theorem ofLe2_leBytes2 (v : Nat) (h : v < 2 ^ 16) :
    v % 256 + 256 * (v / 256 % 256) = v := by
  have h16 : (2 : Nat) ^ 16 = 65536 := by norm_num
  rw [h16] at h
  omega

theorem idx_lt (d dims i count : Nat) (hd : d < dims) (hi : i < count) :
    d + i * dims < dims * count := by
  calc d + i * dims < dims + i * dims := by omega
    _ = (i + 1) * dims := by ring
    _ ≤ count * dims := Nat.mul_le_mul_right dims hi
    _ = dims * count := by ring

theorem encode_f32_getD (data : List Nat) (dims count d j b p : Nat)
    (hd : d < dims) (hj : j < count) (hb : b < 4)
    (hp : p = d * (4 * count) + (j * 4 + b)) :
    (encode_f32 data dims count).getD p 0 =
      (leBytes4 (data.getD (d + j * dims) 0)).getD b 0 := by
  subst hp
  unfold encode_f32
  have hinner : ∀ (i : Nat), ∀ j < count, (leBytes4 (data.getD (i + j * dims) 0)).length = 4 :=
    fun _ _ _ => by simp [leBytes4]
  have houter : ∀ i < dims,
      ((List.range count).flatMap fun j => leBytes4 (data.getD (i + j * dims) 0)).length
        = 4 * count := by
    intro i _
    rw [length_flatMap_const _ 4 count (hinner i)]
    ring
  rw [getD_flatMap_const _ (4 * count) dims houter d (j * 4 + b) hd (by omega) 0]
  rw [getD_flatMap_const _ 4 count (hinner d) j b hj hb 0]

theorem decode_encode_f32 (data : List Nat) (dims count : Nat)
    (hlen : data.length = dims * count) (hv : ∀ v ∈ data, v < 2 ^ 32) :
    decode_f32 (encode_f32 data dims count) dims count = data := by
  apply list_eq_of_getD _ _ 0
  · unfold decode_f32
    rw [length_flatMap_const _ dims count (fun _ _ => by simp), hlen]
    ring
  · intro p hp
    have hlen2 : (decode_f32 (encode_f32 data dims count) dims count).length
        = count * dims := by
      unfold decode_f32
      exact length_flatMap_const _ dims count (fun _ _ => by simp)
    rw [hlen2] at hp
    have hdims : 0 < dims := by
      rcases Nat.eq_zero_or_pos dims with h | h
      · subst h; omega
      · exact h
    set i := p / dims with hi
    set d := p % dims with hd
    have hpd : p = i * dims + d := by
      rw [hi, hd, Nat.mul_comm]
      exact (Nat.div_add_mod p dims).symm
    have hic : i < count := by
      rw [hi]
      exact Nat.div_lt_of_lt_mul (by rw [Nat.mul_comm dims count]; exact hp)
    have hdd : d < dims := Nat.mod_lt p hdims
    unfold decode_f32
    rw [hpd, getD_flatMap_const _ dims count (fun _ _ => by simp) i d hic hdd 0,
      getD_map_range]
    rw [if_pos hdd]
    unfold ofLeBytes4
    rw [encode_f32_getD data dims count d i 0 _ hdd hic (by omega) (by ring),
      encode_f32_getD data dims count d i 1 _ hdd hic (by omega) (by ring),
      encode_f32_getD data dims count d i 2 _ hdd hic (by omega) (by ring),
      encode_f32_getD data dims count d i 3 _ hdd hic (by omega) (by ring)]
    have hmem : data.getD (d + i * dims) 0 ∈ data := by
      rw [getD_eq_getElem data _ 0 (by rw [hlen]; exact idx_lt d dims i count hdd hic)]
      exact List.getElem_mem _
    have hv' := hv _ hmem
    simp only [leBytes4, List.getD_cons_zero, List.getD_cons_succ]
    have hidx : i * dims + d = d + i * dims := by ring
    rw [hidx]
    exact ofLe4_leBytes4 _ hv'

end Spark

namespace Spark

theorem encode_f16_getD (toH : Nat → Nat) (data : List Nat) (dims count d j b p : Nat)
    (hd : d < dims) (hj : j < count) (hb : b < 2)
    (hp : p = d * (2 * count) + (j * 2 + b)) :
    (encode_f16 toH data dims count).getD p 0 =
      (leBytes2 (toH (data.getD (d + j * dims) 0))).getD b 0 := by
  subst hp
  unfold encode_f16
  have hinner : ∀ (i : Nat), ∀ j < count,
      (leBytes2 (toH (data.getD (i + j * dims) 0))).length = 2 :=
    fun _ _ _ => by simp [leBytes2]
  have houter : ∀ i < dims,
      ((List.range count).flatMap fun j => leBytes2 (toH (data.getD (i + j * dims) 0))).length
        = 2 * count := by
    intro i _
    rw [length_flatMap_const _ 2 count (hinner i)]
    ring
  rw [getD_flatMap_const _ (2 * count) dims houter d (j * 2 + b) hd (by omega) 0]
  rw [getD_flatMap_const _ 2 count (hinner d) j b hj hb 0]

theorem decode_encode_f16 (toH ofH : Nat → Nat) (data : List Nat) (dims count : Nat)
    (hlen : data.length = dims * count) (hto : ∀ v ∈ data, toH v < 2 ^ 16)
    (hid : ∀ v ∈ data, ofH (toH v) = v) :
    decode_f16 ofH (encode_f16 toH data dims count) dims count = data := by
  apply list_eq_of_getD _ _ 0
  · unfold decode_f16
    rw [length_flatMap_const _ dims count (fun _ _ => by simp), hlen]
    ring
  · intro p hp
    have hlen2 : (decode_f16 ofH (encode_f16 toH data dims count) dims count).length
        = count * dims := by
      unfold decode_f16
      exact length_flatMap_const _ dims count (fun _ _ => by simp)
    rw [hlen2] at hp
    have hdims : 0 < dims := by
      rcases Nat.eq_zero_or_pos dims with h | h
      · subst h; omega
      · exact h
    set i := p / dims with hi
    set d := p % dims with hd
    have hpd : p = i * dims + d := by
      rw [hi, hd, Nat.mul_comm]
      exact (Nat.div_add_mod p dims).symm
    have hic : i < count := by
      rw [hi]
      exact Nat.div_lt_of_lt_mul (by rw [Nat.mul_comm dims count]; exact hp)
    have hdd : d < dims := Nat.mod_lt p hdims
    unfold decode_f16
    rw [hpd, getD_flatMap_const _ dims count (fun _ _ => by simp) i d hic hdd 0,
      getD_map_range]
    rw [if_pos hdd]
    unfold ofLeBytes2
    rw [encode_f16_getD toH data dims count d i 0 _ hdd hic (by omega) (by ring),
      encode_f16_getD toH data dims count d i 1 _ hdd hic (by omega) (by ring)]
    have hmem : data.getD (d + i * dims) 0 ∈ data := by
      rw [getD_eq_getElem data _ 0 (by rw [hlen]; exact idx_lt d dims i count hdd hic)]
      exact List.getElem_mem _
    simp only [leBytes2, List.getD_cons_zero, List.getD_cons_succ]
    have hidx : i * dims + d = d + i * dims := by ring
    rw [hidx]
    rw [ofLe2_leBytes2 _ (hto _ hmem)]
    exact hid _ hmem

theorem decode_encode_u16 (data : List Nat) (count : Nat)
    (hlen : data.length = count) (hv : ∀ v ∈ data, v < 2 ^ 16) :
    decode_u16 (encode_u16 data 1 count) 1 count = data := by
  have henc : encode_u16 data 1 count = encode_f16 (fun v => v) data 1 count := rfl
  apply list_eq_of_getD _ _ 0
  · simp [decode_u16, hlen]
  · intro p hp
    have hp' : p < count := by simpa [decode_u16] using hp
    unfold decode_u16
    rw [getD_map_range, if_pos hp']
    unfold ofLeBytes2
    rw [henc,
      encode_f16_getD (fun v => v) data 1 count 0 p 0 _ (by omega) hp' (by omega) (by ring),
      encode_f16_getD (fun v => v) data 1 count 0 p 1 _ (by omega) hp' (by omega) (by ring)]
    have hmem : data.getD (0 + p * 1) 0 ∈ data := by
      rw [getD_eq_getElem data _ 0 (by omega)]
      exact List.getElem_mem _
    simp only [leBytes2, List.getD_cons_zero, List.getD_cons_succ]
    rw [ofLe2_leBytes2 _ (hv _ hmem)]
    congr 1
    omega

theorem encode_u32_getD (data : List Nat) (dims count d j b p : Nat)
    (hd : d < dims) (hj : j < count) (hb : b < 4)
    (hp : p = d * (4 * count) + (j * 4 + b)) :
    (encode_u32 data dims count).getD p 0 =
      (leBytes4 (data.getD (d + j * dims) 0 % 2 ^ 32)).getD b 0 := by
  subst hp
  unfold encode_u32
  have hinner : ∀ (i : Nat), ∀ j < count,
      (leBytes4 (data.getD (i + j * dims) 0 % 2 ^ 32)).length = 4 :=
    fun _ _ _ => by simp [leBytes4]
  have houter : ∀ i < dims,
      ((List.range count).flatMap fun j =>
        leBytes4 (data.getD (i + j * dims) 0 % 2 ^ 32)).length = 4 * count := by
    intro i _
    rw [length_flatMap_const _ 4 count (hinner i)]
    ring
  rw [getD_flatMap_const _ (4 * count) dims houter d (j * 4 + b) hd (by omega) 0]
  rw [getD_flatMap_const _ 4 count (hinner d) j b hj hb 0]

theorem decode_encode_u32 (data : List Nat) (count : Nat)
    (hlen : data.length = count) (hv : ∀ v ∈ data, v < 2 ^ 32) :
    decode_u32 (encode_u32 data 1 count) 1 count = data := by
  apply list_eq_of_getD _ _ 0
  · simp [decode_u32, hlen]
  · intro p hp
    have hp' : p < count := by simpa [decode_u32] using hp
    unfold decode_u32
    rw [getD_map_range, if_pos hp']
    unfold ofLeBytes4
    rw [encode_u32_getD data 1 count 0 p 0 _ (by omega) hp' (by omega) (by ring),
      encode_u32_getD data 1 count 0 p 1 _ (by omega) hp' (by omega) (by ring),
      encode_u32_getD data 1 count 0 p 2 _ (by omega) hp' (by omega) (by ring),
      encode_u32_getD data 1 count 0 p 3 _ (by omega) hp' (by omega) (by ring)]
    have hmem : data.getD (0 + p * 1) 0 ∈ data := by
      rw [getD_eq_getElem data _ 0 (by omega)]
      exact List.getElem_mem _
    simp only [leBytes4, List.getD_cons_zero, List.getD_cons_succ]
    rw [Nat.mod_eq_of_lt (hv _ hmem)]
    rw [ofLe4_leBytes4 _ (hv _ hmem)]
    congr 1
    omega

end Spark

namespace Spark

theorem encode_r8_getD (data : List ℚ) (dims count : Nat) (lo hi : ℚ) (d j p : Nat)
    (hd : d < dims) (hj : j < count) (hp : p = d * count + j) :
    (encode_r8 data dims count lo hi).getD p 0 = r8Byte (data.getD (d + j * dims) 0) lo hi := by
  subst hp
  unfold encode_r8
  have houter : ∀ i < dims,
      ((List.range count).map fun j => r8Byte (data.getD (i + j * dims) 0) lo hi).length
        = count := by
    intro i _
    simp
  have := getD_flatMap_const
    (fun d => (List.range count).map fun j => r8Byte (data.getD (d + j * dims) 0) lo hi)
    count dims houter d j hd hj 0
  rw [this, getD_map_range, if_pos hj]

theorem decode_encode_r8 (data : List ℚ) (dims count : Nat) (lo hi : ℚ)
    (hlen : data.length = dims * count) :
    decode_r8 (encode_r8 data dims count lo hi) dims count lo hi =
      data.map fun v => r8Grid (r8Byte v lo hi) lo hi := by
  apply list_eq_of_getD _ _ 0
  · unfold decode_r8
    rw [length_flatMap_const _ dims count (fun _ _ => by simp)]
    rw [List.length_map, hlen]
    ring
  · intro p hp
    have hlen2 : (decode_r8 (encode_r8 data dims count lo hi) dims count lo hi).length
        = count * dims := by
      unfold decode_r8
      exact length_flatMap_const _ dims count (fun _ _ => by simp)
    rw [hlen2] at hp
    have hdims : 0 < dims := by
      rcases Nat.eq_zero_or_pos dims with h | h
      · subst h; omega
      · exact h
    set i := p / dims with hig
    set d := p % dims with hdg
    have hpd : p = i * dims + d := by
      rw [hig, hdg, Nat.mul_comm]
      exact (Nat.div_add_mod p dims).symm
    have hic : i < count := by
      rw [hig]
      exact Nat.div_lt_of_lt_mul (by rw [Nat.mul_comm dims count]; exact hp)
    have hdd : d < dims := Nat.mod_lt p hdims
    unfold decode_r8
    rw [hpd, getD_flatMap_const _ dims count (fun _ _ => by simp) i d hic hdd 0,
      getD_map_range, if_pos hdd]
    rw [encode_r8_getD data dims count lo hi d i _ hdd hic (by ring)]
    have hidx : d + i * dims = i * dims + d := by ring
    rw [hidx]
    have hlt : i * dims + d < data.length := by
      rw [hlen, Nat.add_comm (i * dims) d]
      exact idx_lt d dims i count hdd hic
    rw [getD_eq_getElem data _ 0 hlt]
    rw [getD_eq_getElem (data.map fun v => r8Grid (r8Byte v lo hi) lo hi) _ 0
      (by rw [List.length_map]; exact hlt)]
    rw [List.getElem_map]

theorem encode_s8_getD (data : List ℚ) (dims count : Nat) (hi : ℚ) (d j p : Nat)
    (hd : d < dims) (hj : j < count) (hp : p = d * count + j) :
    (encode_s8 data dims count hi).getD p 0 = s8Byte (data.getD (d + j * dims) 0) hi := by
  subst hp
  unfold encode_s8
  have houter : ∀ i < dims,
      ((List.range count).map fun j => s8Byte (data.getD (i + j * dims) 0) hi).length
        = count := by
    intro i _
    simp
  have := getD_flatMap_const
    (fun d => (List.range count).map fun j => s8Byte (data.getD (d + j * dims) 0) hi)
    count dims houter d j hd hj 0
  rw [this, getD_map_range, if_pos hj]

theorem decode_encode_s8 (data : List ℚ) (dims count : Nat) (hi : ℚ)
    (hlen : data.length = dims * count) :
    decode_s8 (encode_s8 data dims count hi) dims count hi =
      data.map fun v => s8Grid (s8Byte v hi) hi := by
  apply list_eq_of_getD _ _ 0
  · unfold decode_s8
    rw [length_flatMap_const _ dims count (fun _ _ => by simp)]
    rw [List.length_map, hlen]
    ring
  · intro p hp
    have hlen2 : (decode_s8 (encode_s8 data dims count hi) dims count hi).length
        = count * dims := by
      unfold decode_s8
      exact length_flatMap_const _ dims count (fun _ _ => by simp)
    rw [hlen2] at hp
    have hdims : 0 < dims := by
      rcases Nat.eq_zero_or_pos dims with h | h
      · subst h; omega
      · exact h
    set i := p / dims with hiq
    set d := p % dims with hd
    have hpd : p = i * dims + d := by
      rw [hiq, hd, Nat.mul_comm]
      exact (Nat.div_add_mod p dims).symm
    have hic : i < count := by
      rw [hiq]
      exact Nat.div_lt_of_lt_mul (by rw [Nat.mul_comm dims count]; exact hp)
    have hdd : d < dims := Nat.mod_lt p hdims
    unfold decode_s8
    rw [hpd, getD_flatMap_const _ dims count (fun _ _ => by simp) i d hic hdd 0,
      getD_map_range, if_pos hdd]
    rw [encode_s8_getD data dims count hi d i _ hdd hic (by ring)]
    have hidx : d + i * dims = i * dims + d := by ring
    rw [hidx]
    have hlt : i * dims + d < data.length := by
      rw [hlen, Nat.add_comm (i * dims) d]
      exact idx_lt d dims i count hdd hic
    rw [getD_eq_getElem data _ 0 hlt]
    rw [getD_eq_getElem (data.map fun v => s8Grid (s8Byte v hi) hi) _ 0
      (by rw [List.length_map]; exact hlt)]
    rw [List.getElem_map]

end Spark

namespace Spark

theorem abs_rustRound_sub (x : ℚ) : |(rustRound x : ℚ) - x| ≤ 1 / 2 := by
  unfold rustRound
  split
  · rw [show ⌊x + 1 / 2⌋ = round x from (round_eq x).symm]
    rw [abs_sub_comm]
    exact abs_sub_round x
  · rw [show ⌊-x + 1 / 2⌋ = round (-x) from (round_eq (-x)).symm]
    push_cast
    rw [show -(round (-x) : ℚ) - x = -x - (round (-x) : ℚ) by ring]
    exact abs_sub_round (-x)

theorem rustRound_nonneg (x : ℚ) (h : 0 ≤ x) : 0 ≤ rustRound x := by
  unfold rustRound
  rw [if_pos h]
  positivity

theorem r8_tolerance (v lo hi : ℚ) (h1 : lo < hi) (h2 : lo ≤ v) (h3 : v ≤ hi) :
    |r8Grid (r8Byte v lo hi) lo hi - v| ≤ (hi - lo) / 510 := by
  have hpos : (0 : ℚ) < hi - lo := by linarith
  set t : ℚ := (v - lo) / (hi - lo) * 255 with ht
  have ht0 : 0 ≤ t := by
    rw [ht]
    exact mul_nonneg (div_nonneg (by linarith) (by linarith)) (by norm_num)
  have ht255 : t ≤ 255 := by
    rw [ht]
    rw [div_mul_eq_mul_div, div_le_iff₀ hpos]
    nlinarith
  have hclamp : clampQ t 0 255 = t := by
    unfold clampQ
    rw [min_eq_left ht255, max_eq_right ht0]
  have hb0 : 0 ≤ rustRound t := rustRound_nonneg t ht0
  have hcast : ((rustRound t).toNat : ℚ) = ((rustRound t : ℤ) : ℚ) := by
    exact_mod_cast congrArg (fun z : ℤ => (z : ℚ)) (Int.toNat_of_nonneg hb0)
  have hbyte : r8Byte v lo hi = (rustRound t).toNat := by
    unfold r8Byte
    rw [← ht, hclamp]
  have hvt : t / 255 * (hi - lo) + lo = v := by
    rw [ht]
    field_simp
    ring
  have hgrid : r8Grid (r8Byte v lo hi) lo hi - v
      = ((rustRound t : ℚ) - t) / 255 * (hi - lo) := by
    unfold r8Grid
    rw [hbyte, hcast]
    rw [← hvt]
    ring
  rw [hgrid]
  rw [abs_mul, abs_div]
  rw [abs_of_pos hpos]
  have h255 : |(255 : ℚ)| = 255 := by norm_num
  rw [h255]
  have := abs_rustRound_sub t
  rw [div_mul_eq_mul_div, div_le_div_iff (by norm_num) (by norm_num : (0:ℚ) < 510)]
  nlinarith [abs_nonneg ((rustRound t : ℚ) - t)]

theorem i8Val_emod (b : ℤ) (h1 : -128 ≤ b) (h2 : b < 128) :
    i8Val (b % 256).toNat = b := by
  unfold i8Val
  split <;> omega

theorem s8_tolerance (v hi : ℚ) (h1 : 0 < hi) (h2 : -hi ≤ v) (h3 : v ≤ hi) :
    |s8Grid (s8Byte v hi) hi - v| ≤ hi / 254 := by
  set t : ℚ := v / hi * 127 with ht
  have ht127 : t ≤ 127 := by
    rw [ht, div_mul_eq_mul_div, div_le_iff h1]
    nlinarith
  have htm127 : -127 ≤ t := by
    rw [ht, div_mul_eq_mul_div, le_div_iff h1]
    nlinarith
  have hclamp : clampQ t (-127) 127 = t := by
    unfold clampQ
    rw [min_eq_left ht127, max_eq_right htm127]
  have hround := abs_rustRound_sub t
  have hrlo : -128 ≤ rustRound t := by
    have : (-128 : ℚ) ≤ (rustRound t : ℚ) := by
      have := abs_le.mp hround
      linarith [this.1]
    exact_mod_cast this
  have hrhi : rustRound t < 128 := by
    have : (rustRound t : ℚ) < 128 := by
      have := abs_le.mp hround
      linarith [this.2]
    exact_mod_cast this
  have hbyte : s8Byte v hi = ((rustRound t) % 256).toNat := by
    unfold s8Byte
    rw [← ht, hclamp]
  have hival : i8Val (s8Byte v hi) = rustRound t := by
    rw [hbyte]
    exact i8Val_emod _ hrlo hrhi
  have hvt : t / 127 * hi = v := by
    rw [ht]
    field_simp
    ring
  have hgrid : s8Grid (s8Byte v hi) hi - v = ((rustRound t : ℚ) - t) / 127 * hi := by
    unfold s8Grid
    rw [hival, ← hvt]
    ring
  rw [hgrid, abs_mul, abs_div]
  rw [abs_of_pos h1]
  have h127 : |(127 : ℚ)| = 127 := by norm_num
  rw [h127]
  rw [div_mul_eq_mul_div, div_le_div_iff (by norm_num) (by norm_num : (0:ℚ) < 254)]
  nlinarith [abs_nonneg ((rustRound t : ℚ) - t)]

/-- C1 counterexample: the claim asserts byte-exactness "for every dims and
count" also for `u16`; but `decode_u16` ignores `dims` and reads only `count`
words (rad.rs:1135), so with `dims = 2, count = 1` the column `[3, 5]` decodes
to `[3]`. -/
theorem u16_round_trip_fails :
    decode_u16 (encode_u16 [3, 5] 2 1) 2 1 ≠ [3, 5] := by
  decide

/-- C1 (amended): quantizer round trips.  `decode(encode(v, dims, count))`
is value-exact for `f32` (any `dims`/`count`), for `f16` on inputs
representable in half precision (any `dims`/`count`), and for `u16`/`u32` with
`dims = 1` — the only multiplicity the source ever uses, its `u16`/`u32`
decoders ignoring `dims`.  For `r8`/`s8` the decode of the encode lands
exactly on the codec's byte grid, and for inputs inside the declared range the
grid point is within half a grid step of the input. -/
theorem quantizer_round_trip :
    (∀ (data : List Nat) (dims count : Nat), data.length = dims * count →
      (∀ v ∈ data, v < 2 ^ 32) →
      decode_f32 (encode_f32 data dims count) dims count = data) ∧
    (∀ (toH ofH : Nat → Nat) (data : List Nat) (dims count : Nat),
      data.length = dims * count → (∀ v ∈ data, toH v < 2 ^ 16) →
      (∀ v ∈ data, ofH (toH v) = v) →
      decode_f16 ofH (encode_f16 toH data dims count) dims count = data) ∧
    (∀ (data : List Nat) (count : Nat), data.length = count →
      (∀ v ∈ data, v < 2 ^ 16) →
      decode_u16 (encode_u16 data 1 count) 1 count = data) ∧
    (∀ (data : List Nat) (count : Nat), data.length = count →
      (∀ v ∈ data, v < 2 ^ 32) →
      decode_u32 (encode_u32 data 1 count) 1 count = data) ∧
    (∀ (data : List ℚ) (dims count : Nat) (lo hi : ℚ), data.length = dims * count →
      decode_r8 (encode_r8 data dims count lo hi) dims count lo hi
        = data.map fun v => r8Grid (r8Byte v lo hi) lo hi) ∧
    (∀ (v lo hi : ℚ), lo < hi → lo ≤ v → v ≤ hi →
      |r8Grid (r8Byte v lo hi) lo hi - v| ≤ (hi - lo) / 510) ∧
    (∀ (data : List ℚ) (dims count : Nat) (hi : ℚ), data.length = dims * count →
      decode_s8 (encode_s8 data dims count hi) dims count hi
        = data.map fun v => s8Grid (s8Byte v hi) hi) ∧
    (∀ (v hi : ℚ), 0 < hi → -hi ≤ v → v ≤ hi →
      |s8Grid (s8Byte v hi) hi - v| ≤ hi / 254) :=
  ⟨decode_encode_f32, decode_encode_f16, decode_encode_u16, decode_encode_u32,
    decode_encode_r8, r8_tolerance, decode_encode_s8, s8_tolerance⟩

/-- C1 witness: the round trips at concrete columns. -/
theorem quantizer_round_trip_witness :
    decode_f32 (encode_f32 [5, 4096] 2 1) 2 1 = [5, 4096] ∧
    decode_f16 (fun v => v) (encode_f16 (fun v => v) [9] 1 1) 1 1 = [9] ∧
    decode_u16 (encode_u16 [700] 1 1) 1 1 = [700] ∧
    decode_u32 (encode_u32 [70000] 1 1) 1 1 = [70000] ∧
    decode_r8 (encode_r8 [1/2] 1 1 0 1) 1 1 0 1
      = [r8Grid (r8Byte (1/2) 0 1) 0 1] ∧
    |r8Grid (r8Byte (1/2) 0 1) 0 1 - 1/2| ≤ (1 - 0) / 510 ∧
    decode_s8 (encode_s8 [1/3] 1 1 1) 1 1 1 = [s8Grid (s8Byte (1/3) 1) 1] ∧
    |s8Grid (s8Byte (1/3) 1) 1 - 1/3| ≤ 1 / 254 := by
  refine ⟨?_, ?_, ?_, ?_, ?_, ?_, ?_, ?_⟩
  · exact quantizer_round_trip.1 [5, 4096] 2 1 (by decide) (by decide)
  · exact quantizer_round_trip.2.1 (fun v => v) (fun v => v) [9] 1 1 (by decide)
      (by decide) (fun v _ => rfl)
  · exact quantizer_round_trip.2.2.1 [700] 1 (by decide) (by decide)
  · exact quantizer_round_trip.2.2.2.1 [70000] 1 (by decide) (by decide)
  · have := quantizer_round_trip.2.2.2.2.1 [1/2] 1 1 0 1 (by decide)
    simpa using this
  · exact quantizer_round_trip.2.2.2.2.2.1 (1/2) 0 1 (by norm_num) (by norm_num)
      (by norm_num)
  · have := quantizer_round_trip.2.2.2.2.2.2.1 [1/3] 1 1 1 (by decide)
    simpa using this
  · exact quantizer_round_trip.2.2.2.2.2.2.2 (1/3) 1 (by norm_num) (by norm_num)
      (by norm_num)

end Spark

namespace Spark

/-! ## C6: delta encodings decode identically to the plain encodings -/

theorem r8Byte_lt (v lo hi : ℚ) : r8Byte v lo hi < 256 := by
  unfold r8Byte clampQ rustRound
  set x := (v - lo) / (hi - lo) * 255 with hx
  have hc0 : (0 : ℚ) ≤ max 0 (min x 255) := le_max_left _ _
  have hc255 : max 0 (min x 255) ≤ 255 := max_le (by norm_num) (min_le_right _ _)
  rw [if_pos hc0]
  have hfl : ⌊max 0 (min x 255) + 1 / 2⌋ ≤ 255 := by
    have h1 : max 0 (min x 255) + 1 / 2 ≤ (511 : ℚ) / 2 := by linarith
    have h2 := Int.floor_le_floor h1
    have h3 : ⌊(511 : ℚ) / 2⌋ = 255 := by norm_num
    omega
  omega

theorem s8Byte_lt (v hi : ℚ) : s8Byte v hi < 256 := by
  unfold s8Byte
  have h1 := Int.emod_nonneg (rustRound (clampQ (v / hi * 127) (-127) 127))
    (by norm_num : (256 : ℤ) ≠ 0)
  have h2 := Int.emod_lt_of_pos (rustRound (clampQ (v / hi * 127) (-127) 127))
    (by norm_num : (0 : ℤ) < 256)
  omega

theorem deltaChain_length (qs : List Nat) : (deltaChain qs).length = qs.length := by
  unfold deltaChain
  simp

theorem prefixByte_reconstruct (bytes : List Nat) (start : Nat) (qs : List Nat)
    (hq : ∀ b ∈ qs, b < 256) :
    ∀ i, i < qs.length →
      (∀ j, j ≤ i → bytes.getD (start + j) 0 = (deltaChain qs).getD j 0) →
      prefixByte bytes start i = qs.getD i 0 := by
  intro i
  induction i with
  | zero =>
    intro hi hb
    have h0 := hb 0 (le_refl 0)
    unfold prefixByte
    rw [show start + 0 = start from rfl] at h0
    rw [h0]
    unfold deltaChain
    rw [getD_map_range, if_pos (by omega)]
    have hif : (if (0 : Nat) = 0 then (0 : Nat) else qs.getD (0 - 1) 0) = 0 := rfl
    rw [hif]
    have hq0 : qs.getD 0 0 < 256 := by
      apply hq
      rw [getD_eq_getElem qs 0 0 hi]
      exact List.getElem_mem _
    unfold wadd wsub
    omega
  | succ j ih =>
    intro hi hb
    unfold prefixByte
    rw [ih (by omega) (fun k hk => hb k (by omega))]
    rw [hb (j + 1) (le_refl _)]
    unfold deltaChain
    rw [getD_map_range, if_pos (by omega)]
    rw [if_neg (by omega)]
    have hqj : qs.getD j 0 < 256 := by
      apply hq
      rw [getD_eq_getElem qs j 0 (by omega)]
      exact List.getElem_mem _
    have hqj1 : qs.getD (j + 1) 0 < 256 := by
      apply hq
      rw [getD_eq_getElem qs (j + 1) 0 hi]
      exact List.getElem_mem _
    unfold wadd wsub
    simp only [Nat.add_sub_cancel]
    omega

theorem encode_r8_delta_getD (data : List ℚ) (dims count : Nat) (lo hi : ℚ) (d j p : Nat)
    (hd : d < dims) (hj : j < count) (hp : p = d * count + j) :
    (encode_r8_delta data dims count lo hi).getD p 0 =
      (deltaChain ((List.range count).map fun j =>
        r8Byte (data.getD (d + j * dims) 0) lo hi)).getD j 0 := by
  subst hp
  unfold encode_r8_delta
  have houter : ∀ i < dims,
      (deltaChain ((List.range count).map fun j =>
        r8Byte (data.getD (i + j * dims) 0) lo hi)).length = count := by
    intro i _
    rw [deltaChain_length]
    simp
  exact getD_flatMap_const _ count dims houter d j hd hj 0

theorem encode_s8_delta_getD (data : List ℚ) (dims count : Nat) (hi : ℚ) (d j p : Nat)
    (hd : d < dims) (hj : j < count) (hp : p = d * count + j) :
    (encode_s8_delta data dims count hi).getD p 0 =
      (deltaChain ((List.range count).map fun j =>
        s8Byte (data.getD (d + j * dims) 0) hi)).getD j 0 := by
  subst hp
  unfold encode_s8_delta
  have houter : ∀ i < dims,
      (deltaChain ((List.range count).map fun j =>
        s8Byte (data.getD (i + j * dims) 0) hi)).length = count := by
    intro i _
    rw [deltaChain_length]
    simp
  exact getD_flatMap_const _ count dims houter d j hd hj 0

theorem decode_r8_delta_eq_plain (data : List ℚ) (dims count : Nat) (lo hi : ℚ)
    (hlen : data.length = dims * count) :
    decode_r8_delta (encode_r8_delta data dims count lo hi) dims count lo hi =
      decode_r8 (encode_r8 data dims count lo hi) dims count lo hi := by
  apply list_eq_of_getD _ _ 0
  · unfold decode_r8_delta decode_r8
    rw [length_flatMap_const _ dims count (fun _ _ => by simp),
      length_flatMap_const _ dims count (fun _ _ => by simp)]
  · intro p hp
    have hlen2 : (decode_r8_delta (encode_r8_delta data dims count lo hi) dims count
        lo hi).length = count * dims := by
      unfold decode_r8_delta
      exact length_flatMap_const _ dims count (fun _ _ => by simp)
    rw [hlen2] at hp
    have hdims : 0 < dims := by
      rcases Nat.eq_zero_or_pos dims with h | h
      · subst h; omega
      · exact h
    set i := p / dims with hig
    set d := p % dims with hdg
    have hpd : p = i * dims + d := by
      rw [hig, hdg, Nat.mul_comm]
      exact (Nat.div_add_mod p dims).symm
    have hic : i < count := by
      rw [hig]
      exact Nat.div_lt_of_lt_mul (by rw [Nat.mul_comm dims count]; exact hp)
    have hdd : d < dims := Nat.mod_lt p hdims
    unfold decode_r8_delta decode_r8
    rw [hpd, getD_flatMap_const _ dims count (fun _ _ => by simp) i d hic hdd 0,
      getD_flatMap_const _ dims count (fun _ _ => by simp) i d hic hdd 0,
      getD_map_range, getD_map_range, if_pos hdd, if_pos hdd]
    set qs := (List.range count).map fun j => r8Byte (data.getD (d + j * dims) 0) lo hi
      with hqs
    have hquant : ∀ b ∈ qs, b < 256 := by
      intro b hb
      rw [hqs] at hb
      obtain ⟨w, _, rfl⟩ := List.mem_map.mp hb
      exact r8Byte_lt _ lo hi
    have hpre : prefixByte (encode_r8_delta data dims count lo hi) (d * count) i
        = qs.getD i 0 := by
      apply prefixByte_reconstruct _ _ qs hquant i (by rw [hqs]; simpa using hic)
      intro j hj
      exact encode_r8_delta_getD data dims count lo hi d j _ hdd (by omega) rfl
    rw [hpre]
    rw [encode_r8_getD data dims count lo hi d i _ hdd hic (by ring)]
    rw [hqs, getD_map_range, if_pos hic]

theorem decode_s8_delta_eq_plain (data : List ℚ) (dims count : Nat) (hi : ℚ)
    (hlen : data.length = dims * count) :
    decode_s8_delta (encode_s8_delta data dims count hi) dims count hi =
      decode_s8 (encode_s8 data dims count hi) dims count hi := by
  apply list_eq_of_getD _ _ 0
  · unfold decode_s8_delta decode_s8
    rw [length_flatMap_const _ dims count (fun _ _ => by simp),
      length_flatMap_const _ dims count (fun _ _ => by simp)]
  · intro p hp
    have hlen2 : (decode_s8_delta (encode_s8_delta data dims count hi) dims count
        hi).length = count * dims := by
      unfold decode_s8_delta
      exact length_flatMap_const _ dims count (fun _ _ => by simp)
    rw [hlen2] at hp
    have hdims : 0 < dims := by
      rcases Nat.eq_zero_or_pos dims with h | h
      · subst h; omega
      · exact h
    set i := p / dims with hig
    set d := p % dims with hdg
    have hpd : p = i * dims + d := by
      rw [hig, hdg, Nat.mul_comm]
      exact (Nat.div_add_mod p dims).symm
    have hic : i < count := by
      rw [hig]
      exact Nat.div_lt_of_lt_mul (by rw [Nat.mul_comm dims count]; exact hp)
    have hdd : d < dims := Nat.mod_lt p hdims
    unfold decode_s8_delta decode_s8
    rw [hpd, getD_flatMap_const _ dims count (fun _ _ => by simp) i d hic hdd 0,
      getD_flatMap_const _ dims count (fun _ _ => by simp) i d hic hdd 0,
      getD_map_range, getD_map_range, if_pos hdd, if_pos hdd]
    set qs := (List.range count).map fun j => s8Byte (data.getD (d + j * dims) 0) hi
      with hqs
    have hquant : ∀ b ∈ qs, b < 256 := by
      intro b hb
      rw [hqs] at hb
      obtain ⟨w, _, rfl⟩ := List.mem_map.mp hb
      exact s8Byte_lt _ hi
    have hpre : prefixByte (encode_s8_delta data dims count hi) (d * count) i
        = qs.getD i 0 := by
      apply prefixByte_reconstruct _ _ qs hquant i (by rw [hqs]; simpa using hic)
      intro j hj
      exact encode_s8_delta_getD data dims count hi d j _ hdd (by omega) rfl
    rw [hpre]
    rw [encode_s8_getD data dims count hi d i _ hdd hic (by ring)]
    rw [hqs, getD_map_range, if_pos hic]

/-- C6: for every float column, dims, count and fixed range, decoding the
delta encoding (first value quantized, subsequent values as wrapping byte
deltas, reconstructed by wrapping prefix sum) yields exactly the same values
as decoding the plain `r8`/`s8` encoding of the column. -/
theorem delta_idempotence :
    (∀ (data : List ℚ) (dims count : Nat) (lo hi : ℚ), data.length = dims * count →
      decode_r8_delta (encode_r8_delta data dims count lo hi) dims count lo hi =
        decode_r8 (encode_r8 data dims count lo hi) dims count lo hi) ∧
    (∀ (data : List ℚ) (dims count : Nat) (hi : ℚ), data.length = dims * count →
      decode_s8_delta (encode_s8_delta data dims count hi) dims count hi =
        decode_s8 (encode_s8 data dims count hi) dims count hi) :=
  ⟨decode_r8_delta_eq_plain, decode_s8_delta_eq_plain⟩

/-- C6 witness: a concrete 2-dimensional column of three elements. -/
theorem delta_idempotence_witness :
    decode_r8_delta (encode_r8_delta [0, 1/2, 1/4, 3/4, 1, 0] 2 3 0 1) 2 3 0 1 =
      decode_r8 (encode_r8 [0, 1/2, 1/4, 3/4, 1, 0] 2 3 0 1) 2 3 0 1 ∧
    decode_s8_delta (encode_s8_delta [1/3, -1/2, 1] 1 3 1) 1 3 1 =
      decode_s8 (encode_s8 [1/3, -1/2, 1] 1 3 1) 1 3 1 := by
  constructor
  · exact delta_idempotence.1 [0, 1/2, 1/4, 3/4, 1, 0] 2 3 0 1 (by decide)
  · exact delta_idempotence.2 [1/3, -1/2, 1] 1 3 1 (by decide)

end Spark

namespace Spark

/-! ## C8: the streaming decoder's property-offset discipline -/

theorem poll_chunk_props_mismatch (inflate : List Nat → Option (List Nat))
    (payloadStart : Nat) (p : RadChunkProperty) (rest : List RadChunkProperty)
    (st : DecoderSt) (h : payloadStart + p.offset ≠ st.offset) :
    poll_chunk_props inflate payloadStart (p :: rest) st =
      .error "Property offset mismatch" := by
  unfold poll_chunk_props
  rw [if_pos h]

theorem poll_chunk_props_consume (inflate : List Nat → Option (List Nat))
    (payloadStart : Nat) :
    ∀ (props : List RadChunkProperty) (st st' : DecoderSt),
      poll_chunk_props inflate payloadStart props st = .ok (true, st') →
      ∀ (j : Nat) (hj : j < props.length),
        payloadStart + (props.get ⟨j, hj⟩).offset =
          st.offset + (((props.take j).map fun q => roundup8 q.bytes).sum) := by
  intro props
  induction props with
  | nil =>
    intro st st' h j hj
    simp at hj
  | cons p rest ih =>
    intro st st' h j hj
    unfold poll_chunk_props at h
    by_cases h1 : payloadStart + p.offset ≠ st.offset
    · rw [if_pos h1] at h
      simp at h
    · push_neg at h1
      rw [if_neg (not_not_intro h1)] at h
      by_cases h2 : st.buffer.length < roundup8 p.bytes
      · rw [if_pos h2] at h
        simp at h
      · rw [if_neg h2] at h
        cases hinf : (if p.compression then inflate (st.buffer.take p.bytes)
            else some (st.buffer.take p.bytes)) with
        | none =>
          rw [hinf] at h
          simp at h
        | some val =>
          rw [hinf] at h
          cases hdisp : decodeDispatch p with
          | error e =>
            rw [hdisp] at h
            simp at h
          | ok u =>
            rw [hdisp] at h
            simp only at h
            cases j with
            | zero =>
              simp [h1]
            | succ k =>
              have hk : k < rest.length := by simpa using Nat.lt_of_succ_lt_succ hj
              have := ih _ st' h k hk
              simp only [List.get_cons_succ, List.take_succ_cons, List.map_cons,
                List.sum_cons] at this ⊢
              omega

/-- C8: in the streaming RAD decoder, a property whose declared offset
(payload start + offset field) disagrees with the running payload cursor
fails the stream with an error; and in every successful full consumption the
properties are consumed in declared order at matching offsets, so property
`j`'s declared offset is exactly the sum of its predecessors' padded sizes. -/
theorem rad_offset_discipline :
    (∀ (inflate : List Nat → Option (List Nat)) (payloadStart : Nat)
      (p : RadChunkProperty) (rest : List RadChunkProperty) (st : DecoderSt),
      payloadStart + p.offset ≠ st.offset →
      poll_chunk_props inflate payloadStart (p :: rest) st =
        .error "Property offset mismatch") ∧
    (∀ (inflate : List Nat → Option (List Nat)) (payloadStart : Nat)
      (props : List RadChunkProperty) (st st' : DecoderSt),
      poll_chunk_props inflate payloadStart props st = .ok (true, st') →
      ∀ (j : Nat) (hj : j < props.length),
        payloadStart + (props.get ⟨j, hj⟩).offset =
          st.offset + (((props.take j).map fun q => roundup8 q.bytes).sum)) :=
  ⟨poll_chunk_props_mismatch, poll_chunk_props_consume⟩

/-- C8 witness: a declared offset 4 against a cursor at payload start fails;
and a successful two-property consumption has offsets 0 and 8. -/
theorem rad_offset_discipline_witness :
    poll_chunk_props (fun l => some l) 100
      [⟨4, 4, .center, .f32, false, none, none⟩]
      ⟨[0, 0, 0, 0, 0, 0, 0, 0], 100⟩ = .error "Property offset mismatch" ∧
    100 + (([⟨0, 4, .center, .f32, false, none, none⟩,
             ⟨8, 2, .alpha, .f16, false, none, none⟩] :
        List RadChunkProperty).get ⟨1, by decide⟩).offset =
      100 + ((([⟨0, 4, .center, .f32, false, none, none⟩,
             ⟨8, 2, .alpha, .f16, false, none, none⟩] :
        List RadChunkProperty).take 1).map fun q => roundup8 q.bytes).sum := by
  constructor
  · exact rad_offset_discipline.1 (fun l => some l) 100 _ []
      ⟨[0, 0, 0, 0, 0, 0, 0, 0], 100⟩ (by decide)
  · exact rad_offset_discipline.2 (fun l => some l) 100
      [⟨0, 4, .center, .f32, false, none, none⟩,
       ⟨8, 2, .alpha, .f16, false, none, none⟩]
      ⟨[0, 0, 0, 0, 0, 0, 0, 0, 0, 0, 0, 0, 0, 0, 0, 0], 100⟩ ⟨[], 116⟩
      (by rfl) 1 (by decide)

end Spark

namespace Spark

/-! ## C3: the Bhatt-LoD pruning condition -/

theorem foldl_max_init (xs : List ℚ) : ∀ x : ℚ, x ≤ xs.foldl max x := by
  induction xs with
  | nil => intro x; simp
  | cons y ys ih =>
    intro x
    simp only [List.foldl_cons]
    exact le_trans (le_max_left x y) (ih (max x y))

theorem foldl_max_mem (xs : List ℚ) : ∀ (x z : ℚ), z ∈ xs → z ≤ xs.foldl max x := by
  induction xs with
  | nil => intro x z hz; simp at hz
  | cons y ys ih =>
    intro x z hz
    simp only [List.foldl_cons]
    rcases List.mem_cons.mp hz with rfl | hz
    · exact le_trans (le_max_right x z) (foldl_max_init ys (max x z))
    · exact ih (max x y) z hz

theorem foldl_max_choice (xs : List ℚ) : ∀ x : ℚ, xs.foldl max x = x ∨ xs.foldl max x ∈ xs := by
  induction xs with
  | nil => intro x; left; rfl
  | cons y ys ih =>
    intro x
    simp only [List.foldl_cons]
    rcases ih (max x y) with h | h
    · rcases max_choice x y with hm | hm
      · left; rw [h, hm]
      · right; rw [h, hm]; exact List.mem_cons_self y ys
    · right; exact List.mem_cons_of_mem y h

theorem foldl_max_le (xs : List ℚ) : ∀ (x b : ℚ), x ≤ b → (∀ z ∈ xs, z ≤ b) →
    xs.foldl max x ≤ b := by
  induction xs with
  | nil => intro x b hx _; simpa using hx
  | cons y ys ih =>
    intro x b hx hz
    simp only [List.foldl_cons]
    exact ih (max x y) b (max_le hx (hz y (List.mem_cons_self y ys)))
      (fun z h => hz z (List.mem_cons_of_mem y h))

theorem qMax_mem (l : List ℚ) (h : l ≠ []) : qMax l ∈ l := by
  cases l with
  | nil => exact absurd rfl h
  | cons x xs =>
    show xs.foldl max x ∈ x :: xs
    rcases foldl_max_choice xs x with h2 | h2
    · rw [h2]; exact List.mem_cons_self x xs
    · exact List.mem_cons_of_mem x h2

theorem le_qMax (l : List ℚ) (x : ℚ) (hx : x ∈ l) : x ≤ qMax l := by
  cases l with
  | nil => simp at hx
  | cons y ys =>
    unfold qMax
    rcases List.mem_cons.mp hx with rfl | hx
    · exact foldl_max_init ys x
    · exact foldl_max_mem ys y x hx

theorem qMax_le (l : List ℚ) (b : ℚ) (h : l ≠ []) (hb : ∀ x ∈ l, x ≤ b) : qMax l ≤ b := by
  cases l with
  | nil => exact absurd rfl h
  | cons y ys =>
    unfold qMax
    exact foldl_max_le ys y b (hb y (List.mem_cons_self y ys))
      (fun z hz => hb z (List.mem_cons_of_mem y hz))

theorem qMax_eq (l : List ℚ) (V : ℚ) (hV : V ∈ l) (hb : ∀ x ∈ l, x ≤ V) : qMax l = V :=
  le_antisymm (qMax_le l V (by rintro rfl; simp at hV) hb) (le_qMax l V hV)

theorem mergeTree_rec (P : MergeTree → Prop)
    (h : ∀ a o cs, (∀ c ∈ cs, P c) → P (MergeTree.node a o cs)) : ∀ t, P t
  | .node a o cs => h a o cs (fun c hc => mergeTree_rec P h c)
decreasing_by
  have := List.sizeOf_lt_of_mem hc
  simp only [MergeTree.node.sizeOf_spec]
  omega

theorem nonnegList_mem : ∀ (cs : List MergeTree), nonnegList cs = true →
    ∀ c ∈ cs, nonneg c = true := by
  intro cs
  induction cs with
  | nil => intro _ c hc; simp at hc
  | cons d ds ih =>
    intro h c hc
    unfold nonnegList at h
    rw [Bool.and_eq_true] at h
    rcases List.mem_cons.mp hc with rfl | hc
    · exact h.1
    · exact ih h.2 c hc

theorem go_fst (lodBase : ℚ) : ∀ cs : List MergeTree,
    (recurseToOutput.go lodBase cs).1 =
      cs.map fun c => (recurseToOutput lodBase false c).1 := by
  intro cs
  induction cs with
  | nil => simp [recurseToOutput.go]
  | cons c rest ih =>
    cases rest with
    | nil => simp [recurseToOutput.go]
    | cons c' rest' =>
      simp only [recurseToOutput.go, List.map_cons]
      rw [ih]
      simp

theorem go_val_mem (lodBase : ℚ) : ∀ cs : List MergeTree, cs ≠ [] →
    (recurseToOutput.go lodBase cs).2.1 ∈
      cs.map fun c => (recurseToOutput lodBase false c).2.1 := by
  intro cs
  induction cs with
  | nil => intro h; exact absurd rfl h
  | cons c rest ih =>
    intro _
    cases rest with
    | nil => simp [recurseToOutput.go]
    | cons c' rest' =>
      simp only [recurseToOutput.go, List.map_cons]
      rcases max_choice (recurseToOutput lodBase false c).2.1
          (recurseToOutput.go lodBase (c' :: rest')).2.1 with h | h
      · rw [h]; exact List.mem_cons_self _ _
      · rw [h]
        exact List.mem_cons_of_mem _ (by simpa using ih (by simp))

theorem go_val_le (lodBase : ℚ) : ∀ (cs : List MergeTree) (x : ℚ),
    (x ∈ cs.map fun c => (recurseToOutput lodBase false c).2.1) →
      x ≤ (recurseToOutput.go lodBase cs).2.1 := by
  intro cs
  induction cs with
  | nil => intro x hx; simp at hx
  | cons c rest ih =>
    intro x hx
    cases rest with
    | nil =>
      simp only [List.map_cons, List.map_nil] at hx
      rcases List.mem_cons.mp hx with rfl | hx
      · simp [recurseToOutput.go]
      · simp at hx
    | cons c' rest' =>
      simp only [recurseToOutput.go]
      rcases List.mem_cons.mp hx with rfl | hx
      · exact le_max_left _ _
      · exact le_trans (ih x (by simpa using hx)) (le_max_right _ _)

end Spark

namespace Spark

theorem mem_keptImpsList (x : ℚ) : ∀ l : List KeptTree,
    (x ∈ keptImpsList l ↔ ∃ k ∈ l, x ∈ keptImps k) := by
  intro l
  induction l with
  | nil => simp [keptImpsList]
  | cons k ks ih =>
    unfold keptImpsList
    rw [List.mem_append, ih]
    constructor
    · rintro (h | ⟨w, hw, hx⟩)
      · exact ⟨k, List.mem_cons_self k ks, h⟩
      · exact ⟨w, List.mem_cons_of_mem k hw, hx⟩
    · rintro ⟨w, hw, hx⟩
      rcases List.mem_cons.mp hw with rfl | hw
      · exact Or.inl hx
      · exact Or.inr ⟨w, hw, hx⟩

theorem mem_allSubtreesList (s : KeptTree) : ∀ l : List KeptTree,
    (s ∈ allSubtreesList l ↔ ∃ k ∈ l, s ∈ allSubtrees k) := by
  intro l
  induction l with
  | nil => simp [allSubtreesList]
  | cons k ks ih =>
    unfold allSubtreesList
    rw [List.mem_append, ih]
    constructor
    · rintro (h | ⟨w, hw, hx⟩)
      · exact ⟨k, List.mem_cons_self k ks, h⟩
      · exact ⟨w, List.mem_cons_of_mem k hw, hx⟩
    · rintro ⟨w, hw, hx⟩
      rcases List.mem_cons.mp hw with rfl | hw
      · exact Or.inl hx
      · exact Or.inr ⟨w, hw, hx⟩

theorem mem_allSubtrees (s k : KeptTree) :
    s ∈ allSubtrees k ↔ s = k ∨ s ∈ allSubtreesList k.children := by
  cases k with
  | node a o kp cs =>
    unfold allSubtrees
    rw [List.mem_cons]
    rfl

theorem prune_invariant (lodBase : ℚ) (hL : 1 ≤ lodBase) :
    ∀ t : MergeTree, nonneg t = true → ∀ isRoot : Bool,
      keptImps (recurseToOutput lodBase isRoot t).1 ≠ [] ∧
      (isRoot = false → ∀ x ∈ keptImps (recurseToOutput lodBase isRoot t).1,
        x ≤ (recurseToOutput lodBase isRoot t).2.1) ∧
      (recurseToOutput lodBase isRoot t).2.1 ∈
        keptImps (recurseToOutput lodBase isRoot t).1 ∧
      (∀ s ∈ allSubtreesList (recurseToOutput lodBase isRoot t).1.children,
        nodeOk lodBase s) ∧
      (isRoot = false → nodeOk lodBase (recurseToOutput lodBase isRoot t).1) ∧
      (isRoot = true → (recurseToOutput lodBase isRoot t).1.kept = true) ∧
      (∀ x ∈ keptImps (recurseToOutput lodBase isRoot t).1, 0 ≤ x) := by
  intro t
  induction t using mergeTree_rec with
  | _ a o cs IH =>
  intro hnn isRoot
  have hnn' : (0 ≤ a ∧ 0 ≤ o) ∧ nonnegList cs = true := by
    unfold nonneg at hnn
    rw [Bool.and_eq_true, Bool.and_eq_true] at hnn
    exact ⟨⟨of_decide_eq_true hnn.1.1, of_decide_eq_true hnn.1.2⟩, hnn.2⟩
  obtain ⟨⟨ha, ho⟩, hcsnn⟩ := hnn'
  cases cs with
  | nil =>
    refine ⟨?_, ?_, ?_, ?_, ?_, ?_, ?_⟩ <;>
      simp [recurseToOutput, keptImps, keptImpsList, allSubtreesList, nodeOk,
        KeptTree.kept, KeptTree.children, mul_nonneg ha ho]
  | cons c rest =>
    have hchild : ∀ c' ∈ c :: rest, nonneg c' = true := nonnegList_mem _ hcsnn
    have hKmem : ∀ x, x ∈ keptImpsList (recurseToOutput.go lodBase (c :: rest)).1 ↔
        ∃ c' ∈ c :: rest, x ∈ keptImps (recurseToOutput lodBase false c').1 := by
      intro x
      rw [mem_keptImpsList, go_fst]
      constructor
      · rintro ⟨k, hk, hx⟩
        obtain ⟨c', hc', rfl⟩ := List.mem_map.mp hk
        exact ⟨c', hc', hx⟩
      · rintro ⟨c', hc', hx⟩
        exact ⟨_, List.mem_map.mpr ⟨c', hc', rfl⟩, hx⟩
    have hKLne : keptImpsList (recurseToOutput.go lodBase (c :: rest)).1 ≠ [] := by
      have hA := (IH c (List.mem_cons_self c rest) (hchild c (List.mem_cons_self c rest))
        false).1
      obtain ⟨x, hx⟩ := List.exists_mem_of_ne_nil _ hA
      have : x ∈ keptImpsList (recurseToOutput.go lodBase (c :: rest)).1 :=
        (hKmem x).mpr ⟨c, List.mem_cons_self c rest, hx⟩
      exact List.ne_nil_of_mem this
    have hKLle : ∀ x ∈ keptImpsList (recurseToOutput.go lodBase (c :: rest)).1,
        x ≤ (recurseToOutput.go lodBase (c :: rest)).2.1 := by
      intro x hx
      obtain ⟨c', hc', hxk⟩ := (hKmem x).mp hx
      have hB := (IH c' hc' (hchild c' hc') false).2.1 rfl x hxk
      refine le_trans hB (go_val_le lodBase (c :: rest) _ ?_)
      exact List.mem_map.mpr ⟨c', hc', rfl⟩
    have hKLmem : (recurseToOutput.go lodBase (c :: rest)).2.1 ∈
        keptImpsList (recurseToOutput.go lodBase (c :: rest)).1 := by
      have hm := go_val_mem lodBase (c :: rest) (by simp)
      obtain ⟨c', hc', heq⟩ := List.mem_map.mp hm
      have hC := (IH c' hc' (hchild c' hc') false).2.2.1
      rw [← heq]
      exact (hKmem _).mpr ⟨c', hc', hC⟩
    have hKL0 : ∀ x ∈ keptImpsList (recurseToOutput.go lodBase (c :: rest)).1, 0 ≤ x := by
      intro x hx
      obtain ⟨c', hc', hxk⟩ := (hKmem x).mp hx
      exact (IH c' hc' (hchild c' hc') false).2.2.2.2.2.2 x hxk
    have hqKL : qMax (keptImpsList (recurseToOutput.go lodBase (c :: rest)).1) =
        (recurseToOutput.go lodBase (c :: rest)).2.1 :=
      qMax_eq _ _ hKLmem hKLle
    have hval0 : 0 ≤ (recurseToOutput.go lodBase (c :: rest)).2.1 := hKL0 _ hKLmem
    have hD : ∀ s ∈ allSubtreesList (recurseToOutput.go lodBase (c :: rest)).1,
        nodeOk lodBase s := by
      intro s hs
      rw [mem_allSubtreesList, go_fst] at hs
      obtain ⟨k, hk, hsk⟩ := hs
      obtain ⟨c', hc', rfl⟩ := List.mem_map.mp hk
      rcases (mem_allSubtrees s _).mp hsk with rfl | hs'
      · exact (IH c' hc' (hchild c' hc') false).2.2.2.2.1 rfl
      · exact (IH c' hc' (hchild c' hc') false).2.2.2.1 s hs'
    have hRne : (recurseToOutput.go lodBase (c :: rest)).1 ≠ [] := by
      rw [go_fst]
      simp
    have hrec : recurseToOutput lodBase isRoot (MergeTree.node a o (c :: rest)) =
        if isRoot || decide (lodBase * (recurseToOutput.go lodBase (c :: rest)).2.1 ≤ a * o)
        then (KeptTree.node a o true (recurseToOutput.go lodBase (c :: rest)).1, a * o,
          [a * o])
        else (KeptTree.node a o false (recurseToOutput.go lodBase (c :: rest)).1,
          (recurseToOutput.go lodBase (c :: rest)).2.1,
          (recurseToOutput.go lodBase (c :: rest)).2.2) := by
      rfl
    cases hkeep : (isRoot ||
        decide (lodBase * (recurseToOutput.go lodBase (c :: rest)).2.1 ≤ a * o)) with
    | true =>
      rw [hrec, hkeep, if_pos rfl]
      have hkimp : keptImps (KeptTree.node a o true
          (recurseToOutput.go lodBase (c :: rest)).1) =
          a * o :: keptImpsList (recurseToOutput.go lodBase (c :: rest)).1 := by
        unfold keptImps
        simp
      refine ⟨?_, ?_, ?_, ?_, ?_, ?_, ?_⟩
      · rw [hkimp]; simp
      · intro hroot x hx
        rw [hroot, Bool.false_or] at hkeep
        have hcond := of_decide_eq_true hkeep
        rw [hkimp] at hx
        rcases List.mem_cons.mp hx with rfl | hx
        · exact le_refl _
        · refine le_trans (hKLle x hx) (le_trans ?_ hcond)
          exact le_mul_of_one_le_left hval0 hL
      · rw [hkimp]; exact List.mem_cons_self _ _
      · exact hD
      · intro hroot
        rw [hroot, Bool.false_or] at hkeep
        have hcond := of_decide_eq_true hkeep
        constructor
        · intro h
          rfl
        · intro _
          constructor
          · intro _
            rw [show survImps (KeptTree.node a o true
              (recurseToOutput.go lodBase (c :: rest)).1) =
              keptImpsList (recurseToOutput.go lodBase (c :: rest)).1 from rfl, hqKL]
            exact hcond
          · intro _
            rfl
      · intro _
        rfl
      · intro x hx
        rw [hkimp] at hx
        rcases List.mem_cons.mp hx with rfl | hx
        · exact mul_nonneg ha ho
        · exact hKL0 x hx
    | false =>
      rw [Bool.or_eq_false_iff] at hkeep
      obtain ⟨hroot, hcondf⟩ := hkeep
      have hcond : ¬ (lodBase * (recurseToOutput.go lodBase (c :: rest)).2.1 ≤ a * o) :=
        of_decide_eq_false hcondf
      rw [hrec, hroot, Bool.false_or, hcondf, if_neg (by simp)]
      have hkimp : keptImps (KeptTree.node a o false
          (recurseToOutput.go lodBase (c :: rest)).1) =
          keptImpsList (recurseToOutput.go lodBase (c :: rest)).1 := by
        unfold keptImps
        simp
      refine ⟨?_, ?_, ?_, ?_, ?_, ?_, ?_⟩
      · rw [hkimp]; exact hKLne
      · intro _ x hx
        rw [hkimp] at hx
        exact hKLle x hx
      · rw [hkimp]; exact hKLmem
      · exact hD
      · intro _
        constructor
        · intro h
          exact absurd h (by simpa [KeptTree.children] using hRne)
        · intro _
          constructor
          · intro hk
            simp [KeptTree.kept] at hk
          · intro hle
            rw [show survImps (KeptTree.node a o false
              (recurseToOutput.go lodBase (c :: rest)).1) =
              keptImpsList (recurseToOutput.go lodBase (c :: rest)).1 from rfl, hqKL] at hle
            exact absurd hle hcond
      · intro h
        simp at h
      · intro x hx
        rw [hkimp] at hx
        exact hKL0 x hx

/-- C3 counterexample: the claim states the keep-iff-condition "for every
interior node"; but `to_output[root]` is pre-set `true` (bhatt_lod.rs:148), so
an interior *root* is kept even when its importance `1` is below
`lod_base * max(surviving descendants) = 2 * 3`. -/
theorem C3_counterexample :
    (pruneTree 2 (MergeTree.node 1 1
        [MergeTree.node 3 1 [], MergeTree.node 3 1 []])).children ≠ [] ∧
    (pruneTree 2 (MergeTree.node 1 1
        [MergeTree.node 3 1 [], MergeTree.node 3 1 []])).kept = true ∧
    ¬ (2 * qMax (survImps (pruneTree 2 (MergeTree.node 1 1
        [MergeTree.node 3 1 [], MergeTree.node 3 1 []]))) ≤
      (pruneTree 2 (MergeTree.node 1 1
        [MergeTree.node 3 1 [], MergeTree.node 3 1 []])).imp) := by
  have h1 : pruneTree 2 (MergeTree.node 1 1
      [MergeTree.node 3 1 [], MergeTree.node 3 1 []]) =
      KeptTree.node 1 1 true [KeptTree.node 3 1 true [], KeptTree.node 3 1 true []] := by
    rfl
  rw [h1]
  have h2 : survImps (KeptTree.node 1 1 true
      [KeptTree.node 3 1 true [], KeptTree.node 3 1 true []]) = [3 * 1, 3 * 1] := by
    simp [survImps, keptImps, keptImpsList, KeptTree.children]
  refine ⟨by simp [KeptTree.children], rfl, ?_⟩
  rw [h2]
  norm_num [qMax, KeptTree.imp]

/-- C3: in the Bhatt-LoD pruning pass with `lod_base ≥ 1` over a merge tree
with non-negative areas and opacities, every node strictly below the root is
kept in the output set iff its importance (`area · opacity`) is at least
`lod_base` times the maximum importance among its surviving descendants, and
every leaf there is kept; the root itself is always kept (its `to_output`
flag is pre-set, bhatt_lod.rs:148), regardless of the condition. -/
theorem bhatt_prune_condition (lodBase : ℚ) (t : MergeTree)
    (hL : 1 ≤ lodBase) (hnn : nonneg t = true) :
    (∀ s ∈ properSubtrees (pruneTree lodBase t), nodeOk lodBase s) ∧
    (pruneTree lodBase t).kept = true := by
  have h := prune_invariant lodBase hL t hnn true
  exact ⟨h.2.2.2.1, h.2.2.2.2.2.1 rfl⟩

/-- Witness for `bhatt_prune_condition` at `lod_base = 2` on a two-level
tree. -/
theorem bhatt_prune_condition_witness :
    (pruneTree 2 (MergeTree.node 1 1 [MergeTree.node 3 1 []])).kept = true :=
  (bhatt_prune_condition 2 (MergeTree.node 1 1 [MergeTree.node 3 1 []])
    (by norm_num) (by decide)).2

/-! ### Positive-semidefiniteness toolbox for the similarity metric -/

section Psd

open Matrix

variable {n : Type*} [Fintype n] [DecidableEq n]

theorem psd_smul_nonneg {M : Matrix n n ℝ} (hM : M.PosSemidef) {c : ℝ} (hc : 0 ≤ c) :
    (c • M).PosSemidef := by
  refine ⟨?_, fun x => ?_⟩
  · show (c • M).conjTranspose = c • M
    rw [conjTranspose_smul, star_trivial, hM.1]
  · rw [smul_mulVec_assoc, dotProduct_smul, smul_eq_mul]
    exact mul_nonneg hc (hM.2 x)

theorem psd_det_nonneg {M : Matrix n n ℝ} (hM : M.PosSemidef) : 0 ≤ M.det := by
  rw [hM.1.det_eq_prod_eigenvalues]
  refine Finset.prod_nonneg fun i _ => ?_
  simpa [RCLike.ofReal_real_eq_id] using hM.eigenvalues_nonneg i

theorem psd_posDef_of_det_ne_zero {M : Matrix n n ℝ} (hM : M.PosSemidef)
    (hd : M.det ≠ 0) : M.PosDef := by
  refine ⟨hM.1, fun x hx => ?_⟩
  have hSS : hM.sqrt * hM.sqrt = M := hM.sqrt_mul_self
  have hdS : (hM.sqrt).det ≠ 0 := by
    intro h0
    apply hd
    rw [← hSS, Matrix.det_mul, h0, mul_zero]
  have hSx : hM.sqrt *ᵥ x ≠ 0 := by
    intro h0
    apply hx
    have hinv : (hM.sqrt)⁻¹ *ᵥ (hM.sqrt *ᵥ x) = x := by
      rw [mulVec_mulVec, Matrix.nonsing_inv_mul _ (Ne.isUnit hdS), one_mulVec]
    rw [← hinv, h0, mulVec_zero]
  have hherm : (hM.sqrt).conjTranspose = hM.sqrt := hM.posSemidef_sqrt.1
  calc (0:ℝ) < dotProduct (star (hM.sqrt *ᵥ x)) (hM.sqrt *ᵥ x) :=
        dotProduct_star_self_pos_iff.mpr hSx
    _ = dotProduct (star x) (M *ᵥ x) := by
        rw [star_mulVec, hherm, ← dotProduct_mulVec, mulVec_mulVec, hSS]

theorem sqrt_prod_of_nonneg {ι : Type*} (s : Finset ι) (f : ι → ℝ)
    (h : ∀ i ∈ s, 0 ≤ f i) :
    Real.sqrt (∏ i in s, f i) = ∏ i in s, Real.sqrt (f i) := by
  induction s using Finset.cons_induction with
  | empty => simp
  | cons i s hi ih =>
    rw [Finset.prod_cons, Finset.prod_cons,
      Real.sqrt_mul (h i (Finset.mem_cons_self i s)),
      ih fun j hj => h j (Finset.mem_cons_of_mem hj)]

theorem det_half_one_add_psd {W : Matrix n n ℝ} (hW : W.PosSemidef) :
    Real.sqrt W.det ≤ ((1/2 : ℝ) • (1 + W)).det := by
  have hmu : ∀ i, 0 ≤ hW.1.eigenvalues i := hW.eigenvalues_nonneg
  have hVV : (Matrix.IsHermitian.eigenvectorUnitary hW.1 : Matrix n n ℝ) *
      star (Matrix.IsHermitian.eigenvectorUnitary hW.1 : Matrix n n ℝ) = 1 :=
    Matrix.mem_unitaryGroup_iff.mp (Matrix.IsHermitian.eigenvectorUnitary hW.1).2
  have hcoe : (RCLike.ofReal ∘ hW.1.eigenvalues : n → ℝ) = hW.1.eigenvalues := by
    funext i
    simp [RCLike.ofReal_real_eq_id]
  have hspec : W = (Matrix.IsHermitian.eigenvectorUnitary hW.1 : Matrix n n ℝ) *
      Matrix.diagonal hW.1.eigenvalues *
      star (Matrix.IsHermitian.eigenvectorUnitary hW.1 : Matrix n n ℝ) := by
    have h := hW.1.spectral_theorem
    rw [hcoe] at h
    exact h
  have key : (1/2 : ℝ) • (1 + W) =
      (Matrix.IsHermitian.eigenvectorUnitary hW.1 : Matrix n n ℝ) *
        ((1/2 : ℝ) • (1 + Matrix.diagonal hW.1.eigenvalues)) *
        star (Matrix.IsHermitian.eigenvectorUnitary hW.1 : Matrix n n ℝ) := by
    rw [Matrix.mul_smul, Matrix.smul_mul]
    congr 1
    rw [Matrix.mul_add, Matrix.mul_one, Matrix.add_mul, hVV, ← hspec]
  have hdet1 : ((Matrix.IsHermitian.eigenvectorUnitary hW.1 : Matrix n n ℝ)).det *
      (star (Matrix.IsHermitian.eigenvectorUnitary hW.1 : Matrix n n ℝ)).det = 1 := by
    rw [← Matrix.det_mul, hVV, Matrix.det_one]
  have hdetM : ((1/2 : ℝ) • (1 + Matrix.diagonal hW.1.eigenvalues)).det =
      ∏ i, (1 + hW.1.eigenvalues i) / 2 := by
    rw [← Matrix.diagonal_one, Matrix.diagonal_add, ← Matrix.diagonal_smul,
      Matrix.det_diagonal]
    refine Finset.prod_congr rfl fun i _ => ?_
    simp [Pi.smul_apply, Pi.add_apply]
    ring
  have hdetW : W.det = ∏ i, hW.1.eigenvalues i := by
    rw [hW.1.det_eq_prod_eigenvalues]
    refine Finset.prod_congr rfl fun i _ => ?_
    simp [RCLike.ofReal_real_eq_id]
  rw [key, Matrix.det_mul, Matrix.det_mul, hdetW,
    sqrt_prod_of_nonneg Finset.univ _ fun i _ => hmu i]
  rw [show ∀ x y z : ℝ, x * y * z = y * (x * z) from fun x y z => by ring, hdet1, mul_one,
    hdetM]
  refine Finset.prod_le_prod (fun i _ => Real.sqrt_nonneg _) (fun i _ => ?_)
  nlinarith [Real.sq_sqrt (hmu i), Real.sqrt_nonneg (hW.1.eigenvalues i),
    sq_nonneg (1 - Real.sqrt (hW.1.eigenvalues i))]

theorem sqrt_det_le_det_avg {A B : Matrix n n ℝ} (hA : A.PosSemidef) (hB : B.PosSemidef)
    (hdA : 0 < A.det) :
    Real.sqrt (A.det * B.det) ≤ ((1/2 : ℝ) • (A + B)).det := by
  have hSS : hA.sqrt * hA.sqrt = A := hA.sqrt_mul_self
  have hdetSS : (hA.sqrt).det * (hA.sqrt).det = A.det := by
    rw [← Matrix.det_mul, hSS]
  have hdS0 : 0 ≤ (hA.sqrt).det := psd_det_nonneg hA.posSemidef_sqrt
  have hdS : (hA.sqrt).det ≠ 0 := by
    intro h0
    rw [h0, mul_zero] at hdetSS
    exact absurd hdetSS.symm (ne_of_gt hdA)
  have hsqrtA : Real.sqrt A.det = (hA.sqrt).det := by
    rw [← hdetSS, Real.sqrt_mul_self hdS0]
  have hSinvH : ((hA.sqrt)⁻¹).conjTranspose = (hA.sqrt)⁻¹ := hA.posSemidef_sqrt.inv.1
  have hW : ((hA.sqrt)⁻¹ * B * (hA.sqrt)⁻¹).PosSemidef := by
    have h := hB.mul_mul_conjTranspose_same (hA.sqrt)⁻¹
    rwa [hSinvH] at h
  have hSW : hA.sqrt * ((hA.sqrt)⁻¹ * B * (hA.sqrt)⁻¹) * hA.sqrt = B := by
    rw [← Matrix.mul_assoc, ← Matrix.mul_assoc,
      Matrix.mul_nonsing_inv _ (Ne.isUnit hdS), Matrix.one_mul, Matrix.mul_assoc,
      Matrix.nonsing_inv_mul _ (Ne.isUnit hdS), Matrix.mul_one]
  have hhalf : (1/2 : ℝ) • (A + B) =
      hA.sqrt * ((1/2 : ℝ) • (1 + (hA.sqrt)⁻¹ * B * (hA.sqrt)⁻¹)) * hA.sqrt := by
    rw [Matrix.mul_smul, Matrix.smul_mul]
    congr 1
    rw [Matrix.mul_add, Matrix.mul_one, Matrix.add_mul, hSS, hSW]
  have hdetW : ((hA.sqrt)⁻¹ * B * (hA.sqrt)⁻¹).det = B.det / A.det := by
    rw [Matrix.det_mul, Matrix.det_mul, Matrix.det_nonsing_inv, Ring.inverse_eq_inv]
    rw [← hdetSS]
    field_simp
  have hmain := det_half_one_add_psd hW
  rw [hdetW] at hmain
  have hsqrtW : Real.sqrt (B.det / A.det) =
      Real.sqrt B.det / Real.sqrt A.det :=
    Real.sqrt_div (psd_det_nonneg hB) _
  rw [hhalf, Matrix.det_mul, Matrix.det_mul]
  have hgoal : Real.sqrt (A.det * B.det) =
      (hA.sqrt).det * Real.sqrt (B.det / A.det) * (hA.sqrt).det := by
    rw [hsqrtW, Real.sqrt_mul hdA.le, ← hsqrtA]
    have hsA : Real.sqrt A.det ≠ 0 := by
      rw [hsqrtA]
      exact hdS
    field_simp
    ring
  rw [hgoal]
  have h1 : (hA.sqrt).det * Real.sqrt (B.det / A.det) ≤
      (hA.sqrt).det * ((1/2 : ℝ) • (1 + (hA.sqrt)⁻¹ * B * (hA.sqrt)⁻¹)).det :=
    mul_le_mul_of_nonneg_left hmain hdS0
  exact mul_le_mul_of_nonneg_right h1 hdS0

end Psd

/-- The covariance `Σ = R · diag(s²) · Rᵀ` of a splat is positive
semidefinite for every (not necessarily unit) quaternion and scales. -/
theorem cov_psd (a : RSplat) : (covOfSplat a).PosSemidef := by
  have hD : (Matrix.diagonal fun i : Fin 3 => a.scales i ^ 2).PosSemidef :=
    Matrix.PosSemidef.diagonal (Pi.le_def.mpr fun i => by positivity)
  have h := hD.mul_mul_conjTranspose_same (rotOfQuat a.quat)
  have hRT : (rotOfQuat a.quat).conjTranspose = (rotOfQuat a.quat).transpose := by
    ext i j
    simp [Matrix.conjTranspose_apply]
  rw [hRT] at h
  exact h

/-- `bhattacharyya_distance(a, a) = 0`: the quadratic form vanishes on a zero
difference, and the log ratio is `ln 1` (in the singular branch, `0`
directly). -/
theorem bhatt_dist_self (a : RSplat) : bhattacharyya_distance a a = 0 := by
  have hAA : (1/2 : ℝ) • (covOfSplat a + covOfSplat a) = covOfSplat a := by
    rw [← two_smul ℝ (covOfSplat a), smul_smul]
    norm_num
  unfold bhattacharyya_distance
  simp only [hAA, sub_self]
  split_ifs with h
  · rfl
  · have hd0 : 0 ≤ (covOfSplat a).det := psd_det_nonneg (cov_psd a)
    have hdne : (covOfSplat a).det ≠ 0 := by
      intro h0
      apply h
      rw [h0]
      simp [epsSing]
    rw [Real.sqrt_mul_self hd0, div_self hdne, Real.log_one]
    ring

/-- `bhattacharyya_distance` is non-negative: the quadratic form of the
positive-definite `Σ⁻¹` is non-negative and `det Σ ≥ √(det Σₐ · det Σ_b)`. -/
theorem bhatt_dist_nonneg (a b : RSplat) : 0 ≤ bhattacharyya_distance a b := by
  unfold bhattacharyya_distance
  dsimp only
  split_ifs with h
  · exact le_refl 0
  · push_neg at h
    have hps : ((1/2 : ℝ) • (covOfSplat a + covOfSplat b)).PosSemidef :=
      psd_smul_nonneg ((cov_psd a).add (cov_psd b)) (by norm_num)
    have hdet : ((1/2 : ℝ) • (covOfSplat a + covOfSplat b)).det ≠ 0 := by
      intro h0
      rw [h0] at h
      norm_num [epsSing] at h
    have hPD := psd_posDef_of_det_ne_zero hps hdet
    have hInv := hPD.inv
    have hsym : ∀ i j, ((1/2 : ℝ) • (covOfSplat a + covOfSplat b))⁻¹ j i =
        ((1/2 : ℝ) • (covOfSplat a + covOfSplat b))⁻¹ i j := by
      intro i j
      have h1 := congrFun (congrFun hInv.1 i) j
      rw [Matrix.conjTranspose_apply, star_trivial] at h1
      exact h1
    have hq := hInv.posSemidef.2
      ![b.center 0 - a.center 0, b.center 1 - a.center 1, b.center 2 - a.center 2]
    simp only [Matrix.dotProduct, Matrix.mulVec, Fin.sum_univ_three, Pi.star_apply,
      star_trivial, Matrix.cons_val_zero, Matrix.cons_val_one, Matrix.head_cons,
      Matrix.cons_val_two, Matrix.tail_cons] at hq
    rw [hsym 0 1, hsym 0 2, hsym 1 2] at hq
    refine add_nonneg ?_ ?_
    · nlinarith [hq]
    · rcases lt_or_eq_of_le (mul_nonneg (psd_det_nonneg (cov_psd a))
        (psd_det_nonneg (cov_psd b))) with hpos | hzero
      · have hAd : 0 < (covOfSplat a).det := by
          rcases (psd_det_nonneg (cov_psd a)).lt_or_eq with h1 | h1
          · exact h1
          · rw [← h1, zero_mul] at hpos
            exact absurd hpos (lt_irrefl 0)
        have hsqrtpos : 0 < Real.sqrt ((covOfSplat a).det * (covOfSplat b).det) :=
          Real.sqrt_pos.mpr hpos
        have hle := sqrt_det_le_det_avg (cov_psd a) (cov_psd b) hAd
        exact mul_nonneg (by norm_num) (Real.log_nonneg ((one_le_div hsqrtpos).mpr hle))
      · rw [← hzero, Real.sqrt_zero, div_zero, Real.log_zero, mul_zero]

/-- C5: over the real-arithmetic embedding of the f32 code, the similarity
metric `s(a, b) = exp(−D_B) · exp(−‖rgb_a − rgb_b‖²)` satisfies `s(a, a) = 1`
(for every splat `a`, positivity of the scales not being needed because a
singular average covariance takes the `ε`-guard branch) and
`0 ≤ s(a, b) ≤ 1` for every pair; over ℝ no NaN arises, so the `is_nan`
guard of tsplat.rs:186 is vacuous. -/
theorem similarity_metric_bounds (a b : RSplat) :
    similarity_metric a a = 1 ∧
    0 ≤ similarity_metric a b ∧ similarity_metric a b ≤ 1 := by
  refine ⟨?_, ?_, ?_⟩
  · unfold similarity_metric bhattacharyya_coeff
    rw [bhatt_dist_self]
    simp
  · unfold similarity_metric bhattacharyya_coeff
    positivity
  · unfold similarity_metric bhattacharyya_coeff
    have h1 : Real.exp (-bhattacharyya_distance a b) ≤ 1 := by
      rw [Real.exp_le_one_iff]
      linarith [bhatt_dist_nonneg a b]
    have h2 : Real.exp (-((a.rgb 0 - b.rgb 0) ^ 2 + (a.rgb 1 - b.rgb 1) ^ 2 +
        (a.rgb 2 - b.rgb 2) ^ 2)) ≤ 1 := by
      rw [Real.exp_le_one_iff]
      nlinarith [sq_nonneg (a.rgb 0 - b.rgb 0), sq_nonneg (a.rgb 1 - b.rgb 1),
        sq_nonneg (a.rgb 2 - b.rgb 2)]
    exact mul_le_one h1 (Real.exp_nonneg _) h2

/-! ### Heap order facts for the traversal loop -/

theorem heapLe_true_fst {a b : ℚ × Nat × Nat} (h : heapLe a b = true) : a.1 ≤ b.1 := by
  unfold heapLe at h
  rw [Bool.or_eq_true] at h
  rcases h with h | h
  · exact le_of_lt (of_decide_eq_true h)
  · rw [Bool.and_eq_true] at h
    exact le_of_eq (of_decide_eq_true h.1)

theorem heapLe_false_fst {a b : ℚ × Nat × Nat} (h : heapLe a b = false) : b.1 ≤ a.1 := by
  unfold heapLe at h
  rw [Bool.or_eq_false_iff] at h
  have h1 := of_decide_eq_false h.1
  linarith [lt_or_ge a.1 b.1]

theorem heapMax_mem (x : ℚ × Nat × Nat) (l : List (ℚ × Nat × Nat)) :
    heapMax x l ∈ x :: l := by
  unfold heapMax
  induction l generalizing x with
  | nil => simp
  | cons y l ih =>
    rw [List.foldl_cons]
    have h := ih (if heapLe x y then y else x)
    rcases List.mem_cons.mp h with h1 | h1
    · rw [h1]
      split <;> simp
    · exact List.mem_cons_of_mem _ (List.mem_cons_of_mem _ h1)

theorem le_heapMax (x : ℚ × Nat × Nat) (l : List (ℚ × Nat × Nat)) :
    ∀ e ∈ x :: l, e.1 ≤ (heapMax x l).1 := by
  unfold heapMax
  induction l generalizing x with
  | nil =>
    intro e he
    rcases List.mem_cons.mp he with rfl | h1
    · exact le_refl _
    · simp at h1
  | cons y l ih =>
    intro e he
    rw [List.foldl_cons]
    have hstep : e = x ∨ e = y ∨ e ∈ l := by
      rcases List.mem_cons.mp he with rfl | h1
      · exact Or.inl rfl
      · rcases List.mem_cons.mp h1 with rfl | h2
        · exact Or.inr (Or.inl rfl)
        · exact Or.inr (Or.inr h2)
    have hxy : e.1 ≤ (if heapLe x y then y else x).1 ∨ e ∈ l := by
      rcases hstep with rfl | rfl | h2
      · left
        split
        · next hle => exact heapLe_true_fst hle
        · exact le_refl _
      · left
        split
        · exact le_refl _
        · next hle => exact heapLe_false_fst (Bool.of_not_eq_true hle)
      · exact Or.inr h2
    rcases hxy with h2 | h2
    · exact le_trans h2 (ih _ _ (List.mem_cons_self _ _))
    · exact ih _ _ (List.mem_cons_of_mem _ h2)

theorem heapErase_length {l : List (ℚ × Nat × Nat)} {x : ℚ × Nat × Nat} (h : x ∈ l) :
    (heapErase l x).length + 1 = l.length := by
  induction l with
  | nil => simp at h
  | cons y l ih =>
    unfold heapErase
    split
    · simp
    · next hne =>
      rcases List.mem_cons.mp h with rfl | h1
      · exact absurd rfl hne
      · simp [ih h1]

theorem heapErase_subset (l : List (ℚ × Nat × Nat)) (x : ℚ × Nat × Nat) :
    ∀ e ∈ heapErase l x, e ∈ l := by
  induction l with
  | nil => simp [heapErase]
  | cons y l ih =>
    intro e he
    unfold heapErase at he
    split at he
    · exact List.mem_cons_of_mem _ he
    · rcases List.mem_cons.mp he with rfl | h1
      · exact List.mem_cons_self _ _
      · exact List.mem_cons_of_mem _ (ih e h1)

/-- The effect of the per-child emission fold of `expandChildren`, for any
step function with its branch behaviour. -/
theorem fold_emit_spec (inst : LodInstanceT) (limit : ℚ) (instIndex : Nat)
    (g : TravState → Nat → TravState)
    (hg : ∀ acc p,
      (inst.ps p ≤ limit ∧
        g acc p = { acc with output := acc.output ++ [(instIndex, p)] }) ∨
      (¬ inst.ps p ≤ limit ∧
        g acc p = { acc with frontier := acc.frontier ++ [(inst.ps p, instIndex, p)] })) :
    ∀ (ps : List Nat) (acc : TravState),
      (ps.foldl g acc).output.length + (ps.foldl g acc).frontier.length =
        acc.output.length + acc.frontier.length + ps.length ∧
      (ps.foldl g acc).numSplats = acc.numSplats ∧
      (ps.foldl g acc).touched = acc.touched ∧
      (∀ e ∈ (ps.foldl g acc).frontier,
        e ∈ acc.frontier ∨ ∃ p, e = (inst.ps p, instIndex, p)) ∧
      (∀ q ∈ (ps.foldl g acc).output,
        q ∈ acc.output ∨ ∃ p, q = (instIndex, p) ∧ inst.ps p ≤ limit) := by
  intro ps
  induction ps with
  | nil =>
    intro acc
    refine ⟨by simp, rfl, rfl, fun e he => Or.inl he, fun q hq => Or.inl hq⟩
  | cons p ps ih =>
    intro acc
    rw [List.foldl_cons]
    rcases hg acc p with ⟨hle, hgeq⟩ | ⟨hnle, hgeq⟩
    · rw [hgeq]
      obtain ⟨i1, i2, i3, i4, i5⟩ := ih { acc with output := acc.output ++ [(instIndex, p)] }
      refine ⟨by simp at i1 ⊢; omega, i2, i3, ?_, ?_⟩
      · intro e he
        exact i4 e he
      · intro q hq
        rcases i5 q hq with hq1 | hq1
        · rcases List.mem_append.mp hq1 with h | h
          · exact Or.inl h
          · rcases List.mem_singleton.mp h with rfl
            exact Or.inr ⟨p, rfl, hle⟩
        · exact Or.inr hq1
    · rw [hgeq]
      obtain ⟨i1, i2, i3, i4, i5⟩ :=
        ih { acc with frontier := acc.frontier ++ [(inst.ps p, instIndex, p)] }
      refine ⟨by simp at i1 ⊢; omega, i2, i3, ?_, ?_⟩
      · intro e he
        rcases i4 e he with he1 | he1
        · rcases List.mem_append.mp he1 with h | h
          · exact Or.inl h
          · rcases List.mem_singleton.mp h with rfl
            exact Or.inr ⟨p, rfl⟩
        · exact Or.inr he1
      · intro q hq
        exact i5 q hq

/-- The state produced by `expandChildren`: the node's heap slot is replaced
by its children, each child going to `output` (scale within limit) or the
frontier (above the limit), and `num_splats` is adjusted by `childCount - 1`. -/
theorem expandChildren_spec (inst : LodInstanceT) (instIndex : Nat) (limit : ℚ)
    (node : LodSplatT) (st : TravState) (rest : List (ℚ × Nat × Nat)) :
    (expandChildren inst instIndex limit node st rest).output.length +
      (expandChildren inst instIndex limit node st rest).frontier.length =
      st.output.length + rest.length + node.childCount ∧
    (expandChildren inst instIndex limit node st rest).numSplats =
      st.numSplats - 1 + node.childCount ∧
    (expandChildren inst instIndex limit node st rest).touched = st.touched ∧
    (∀ e ∈ (expandChildren inst instIndex limit node st rest).frontier,
      e ∈ rest ∨ ∃ p, e = (inst.ps p, instIndex, p)) ∧
    (∀ q ∈ (expandChildren inst instIndex limit node st rest).output,
      q ∈ st.output ∨ ∃ p, q = (instIndex, p) ∧ inst.ps p ≤ limit) := by
  unfold expandChildren
  dsimp only
  have h := fold_emit_spec inst limit instIndex
    (fun acc pagedIndex =>
      if inst.ps pagedIndex ≤ limit then
        { acc with output := acc.output ++ [(instIndex, pagedIndex)] }
      else
        { acc with frontier := acc.frontier ++ [(inst.ps pagedIndex, instIndex, pagedIndex)] })
    (fun acc p => by
      dsimp only
      split_ifs with hle
      · exact Or.inl ⟨hle, rfl⟩
      · exact Or.inr ⟨hle, rfl⟩)
    (List.map
      (fun k => inst.chunkToPage.getD ((node.childStart + k) / 2 ^ 16) 0 * 2 ^ 16 +
        (node.childStart + k) % 2 ^ 16)
      (List.range node.childCount))
    { frontier := rest, output := st.output, touched := st.touched,
      numSplats := st.numSplats - 1 + node.childCount }
  obtain ⟨h1, h2, h3, h4, h5⟩ := h
  refine ⟨?_, h2, h3, h4, h5⟩
  rw [h1]
  simp

/-- `getD` of an `enumFrom` member. -/
theorem enumFrom_getD {α : Type} (d : α) :
    ∀ (l : List α) (n : Nat) (p : Nat × α), p ∈ List.enumFrom n l →
      n ≤ p.1 ∧ l.getD (p.1 - n) d = p.2 := by
  intro l
  induction l with
  | nil =>
    intro n p hp
    simp [List.enumFrom] at hp
  | cons x t ih =>
    intro n p hp
    rw [List.enumFrom] at hp
    rcases List.mem_cons.mp hp with rfl | hp
    · exact ⟨le_refl n, by simp⟩
    · obtain ⟨h1, h2⟩ := ih (n + 1) p hp
      refine ⟨le_trans (Nat.le_succ n) h1, ?_⟩
      have hs : p.1 - n = (p.1 - (n + 1)) + 1 := by omega
      rw [hs]
      simpa using h2

/-- `getD` of an `enum` member returns the member's value. -/
theorem enum_getD {α : Type} (d : α) (l : List α) (p : Nat × α) (hp : p ∈ l.enum) :
    l.getD p.1 d = p.2 := by
  have h := enumFrom_getD d l 0 p (by simpa [List.enum] using hp)
  simpa using h.2

/-- The traversal loop preserves `travInv`, and reports through its exit kind
why it stopped: on `limitReached` every remaining heap entry is within the
pixel-scale limit, and on `emptied` the heap is empty. -/
theorem travLoop_inv (insts : List LodInstanceT) (maxSplats : Nat) (limit : ℚ) :
    ∀ (fuel : Nat) (st st2 : TravState) (ex : TravExit),
      travInv insts maxSplats limit st →
      travLoop insts maxSplats limit fuel st = some (st2, ex) →
      travInv insts maxSplats limit st2 ∧
      (ex = TravExit.limitReached → ∀ e ∈ st2.frontier, e.1 ≤ limit) ∧
      (ex = TravExit.emptied → st2.frontier = []) := by
  intro fuel
  induction fuel with
  | zero =>
    intro st st2 ex _ hrun
    simp [travLoop] at hrun
  | succ fuel ih =>
    intro st st2 ex hinv hrun
    obtain ⟨hn1, hn2, hn3, hn4⟩ := hinv
    unfold travLoop at hrun
    cases hf : st.frontier with
    | nil =>
      rw [hf] at hrun
      dsimp only at hrun
      injection hrun with h
      injection h with ha hb
      subst ha
      subst hb
      exact ⟨⟨hn1, hn2, hn3, hn4⟩, fun hc => TravExit.noConfusion hc, fun _ => hf⟩
    | cons x l =>
      rw [hf] at hrun
      dsimp only at hrun
      set dflt : LodInstanceT := ⟨[], [], 0, 0, fun _ => 0⟩ with hdflt
      set top := heapMax x l with htop
      set inst := insts.getD top.2.1 dflt with hinst
      set node := inst.splats.getD top.2.2 ⟨0, 0⟩ with hnode
      set rest := heapErase (x :: l) top with hrest
      set fc := node.childStart / 2 ^ 16 with hfc
      set lc := (node.childStart + node.childCount - 1) / 2 ^ 16 with hlc
      set T := if lc ≠ fc then
          touchChunk (touchChunk st.touched (inst.lodId, fc)) (inst.lodId, lc)
        else touchChunk st.touched (inst.lodId, fc) with hT
      have hlen : rest.length = l.length := by
        have h := heapErase_length (l := x :: l) (x := top) (heapMax_mem x l)
        rw [← hrest] at h
        simp at h
        omega
      have hsub : ∀ e ∈ rest, e ∈ st.frontier := by
        intro e he
        rw [hf]
        exact heapErase_subset _ _ e he
      split_ifs at hrun with h1 h2 h3 h4 h5
      · injection hrun with h
        injection h with ha hb
        subst ha
        subst hb
        refine ⟨⟨hn1, hn2, hn3, hn4⟩, ?_, ?_⟩
        · intro _ e he
          exact le_trans (le_heapMax x l e (hf ▸ he)) h1
        · intro hc
          exact TravExit.noConfusion hc
      · refine ih _ st2 ex ?_ hrun
        refine ⟨?_, ?_, ?_, ?_⟩
        · dsimp only
          rw [hf] at hn1
          simp at hn1 ⊢
          omega
        · exact hn2
        · intro e he
          exact hn3 e (hsub e he)
        · intro q hq
          dsimp only at hq
          rcases List.mem_append.mp hq with hq1 | hq1
          · exact hn4 q hq1
          · rcases List.mem_singleton.mp hq1 with rfl
            exact Or.inr (Or.inl h2)
      · injection hrun with h
        injection h with ha hb
        subst ha
        subst hb
        exact ⟨⟨hn1, hn2, hn3, hn4⟩, fun hc => TravExit.noConfusion hc,
          fun hc => TravExit.noConfusion hc⟩
      · refine ih _ st2 ex ?_ hrun
        refine ⟨?_, ?_, ?_, ?_⟩
        · dsimp only
          rw [hf] at hn1
          simp at hn1 ⊢
          omega
        · exact hn2
        · intro e he
          exact hn3 e (hsub e he)
        · intro q hq
          dsimp only at hq
          rcases List.mem_append.mp hq with hq1 | hq1
          · exact hn4 q hq1
          · rcases List.mem_singleton.mp hq1 with rfl
            exact Or.inr (Or.inr ⟨h2, Or.inl h4⟩)
      · refine ih _ st2 ex ?_ hrun
        refine ⟨?_, ?_, ?_, ?_⟩
        · dsimp only
          rw [hf] at hn1
          simp at hn1 ⊢
          omega
        · exact hn2
        · intro e he
          exact hn3 e (hsub e he)
        · intro q hq
          dsimp only at hq
          rcases List.mem_append.mp hq with hq1 | hq1
          · exact hn4 q hq1
          · rcases List.mem_singleton.mp hq1 with rfl
            exact Or.inr (Or.inr ⟨h2, Or.inr h5⟩)
      · obtain ⟨e1, e2, e3, e4, e5⟩ := expandChildren_spec inst top.2.1 limit node
          ⟨x :: l, st.output, T, st.numSplats⟩ rest
        refine ih _ st2 ex ?_ hrun
        refine ⟨?_, ?_, ?_, ?_⟩
        · dsimp only at e1 e2 ⊢
          rw [hf] at hn1
          simp at hn1
          omega
        · dsimp only at e2
          rw [e2]
          omega
        · intro e he
          rcases e4 e he with he1 | ⟨p, rfl⟩
          · exact hn3 e (hsub e he1)
          · rfl
        · intro q hq
          rcases e5 q hq with hq1 | ⟨p, rfl, hple⟩
          · exact hn4 q hq1
          · exact Or.inl hple

/-- C4 counterexample: the claim allows an over-limit emission only on budget
termination; but a leaf root with pixel scale `10 > limit = 1` is emitted with
no budget stop (lod_tree.rs:783-785 pops a childless node straight to the
output), so "pixel-scale ≤ limit OR budget-terminated" fails as stated. -/
theorem C4_counterexample :
    newTraverseLodTrees [⟨[⟨0, 0⟩], [0], 0, 0, fun _ => 10⟩] 5 1 10 =
      some ⟨[(0, 0)], [(0, 0)], false⟩ ∧
    ¬ instPs [⟨[⟨0, 0⟩], [0], 0, 0, fun _ => 10⟩] 0 0 ≤ 1 := by
  constructor
  · rfl
  · unfold instPs
    norm_num

/-- C4: for every residency map and per-instance view parameters, if the
number of instance roots is within `max_splats`, then every successful run of
the traversal emits at most `max_splats` pairs, and every emitted pair has
its pixel scale within `pixel_scale_limit` OR is a leaf OR is a coarser
stand-in for non-resident children OR the run was budget-terminated. -/
theorem traversal_budget (insts : List LodInstanceT) (maxSplats : Nat) (limit : ℚ)
    (fuel : Nat) (res : TravResult)
    (hn : insts.length ≤ maxSplats)
    (hrun : newTraverseLodTrees insts maxSplats limit fuel = some res) :
    res.output.length ≤ maxSplats ∧
    ∀ q ∈ res.output,
      instPs insts q.1 q.2 ≤ limit ∨ (instNode insts q.1 q.2).childCount = 0 ∨
      standIn insts q.1 q.2 ∨ res.budgetTerminated = true := by
  unfold newTraverseLodTrees at hrun
  dsimp only at hrun
  have hinv0 : travInv insts maxSplats limit
      { frontier := insts.enum.map fun p => (p.2.ps (rootIndex p.2), p.1, rootIndex p.2)
        output := []
        touched := insts.foldl (fun acc inst => touchChunk acc (inst.lodId, 0)) []
        numSplats := insts.length } := by
    refine ⟨?_, hn, ?_, ?_⟩
    · simp
    · intro e he
      dsimp only at he
      obtain ⟨p, hp, rfl⟩ := List.mem_map.mp he
      dsimp only
      unfold instPs
      rw [enum_getD _ insts p hp]
    · intro q hq
      simp at hq
  cases hloop : travLoop insts maxSplats limit fuel
      { frontier := insts.enum.map fun p => (p.2.ps (rootIndex p.2), p.1, rootIndex p.2)
        output := []
        touched := insts.foldl (fun acc inst => touchChunk acc (inst.lodId, 0)) []
        numSplats := insts.length } with
  | none =>
    rw [hloop] at hrun
    exact absurd hrun (by simp)
  | some pr =>
    obtain ⟨st, exk⟩ := pr
    rw [hloop] at hrun
    dsimp only at hrun
    have hres := Option.some.inj hrun
    obtain ⟨⟨i1, i2, i3, i4⟩, hlim, hemp⟩ :=
      travLoop_inv insts maxSplats limit fuel _ st exk hinv0 hloop
    constructor
    · rw [← hres]
      dsimp only
      rw [List.length_append, List.length_map]
      omega
    · intro q hq
      rw [← hres] at hq
      dsimp only at hq
      rcases List.mem_append.mp hq with hq1 | hq1
      · rcases i4 q hq1 with h | h | h
        · exact Or.inl h
        · exact Or.inr (Or.inl h)
        · exact Or.inr (Or.inr (Or.inl h))
      · obtain ⟨e, he, rfl⟩ := List.mem_map.mp hq1
        cases exk with
        | limitReached =>
          refine Or.inl ?_
          have h1 := hlim rfl e he
          have h2 := i3 e he
          rw [h2] at h1
          exact h1
        | budgetStop =>
          refine Or.inr (Or.inr (Or.inr ?_))
          rw [← hres]
          simp
        | emptied =>
          rw [hemp rfl] at he
          simp at he

/-- Witness for `traversal_budget` on a single leaf-root instance. -/
theorem traversal_budget_witness :
    (TravResult.mk [(0, 0)] [(0, 0)] false).output.length ≤ 5 :=
  (traversal_budget [⟨[⟨0, 0⟩], [0], 0, 0, fun _ => 10⟩] 5 1 10
    ⟨[(0, 0)], [(0, 0)], false⟩ (by norm_num) (by rfl)).1

/-! ### The `morton_tree` size-level sweep versus `chunk_tree` (C9) -/

/-- Every node deferred by a `morton_tree` wave has feature size strictly
below the wave's size limit. -/
theorem mortonWave_deferred (sp : LayoutSplats) :
    ∀ (fuel : Nat) (st : LayoutSt) (active : List Nat) (limit : ℚ)
      (acc : List Nat) (st' : LayoutSt) (next : List Nat),
      (∀ u ∈ acc, sizeOfSplat sp u < limit) →
      mortonWave sp fuel st active limit acc = some (st', next) →
      ∀ u ∈ next, sizeOfSplat sp u < limit := by
  intro fuel
  induction fuel with
  | zero =>
    intro st active limit acc st' next _ h
    simp [mortonWave] at h
  | succ fuel ih =>
    intro st active limit acc st' next hacc h
    unfold mortonWave at h
    cases active with
    | nil =>
      dsimp only at h
      injection h with h1
      injection h1 with h2 h3
      subst h3
      exact hacc
    | cons a rest =>
      dsimp only at h
      refine ih _ _ _ _ _ _ ?_ h
      intro u hu
      rcases List.mem_append.mp hu with h1 | h1
      · exact hacc u h1
      · have hb := (List.mem_filter.mp h1).2
        simp at hb
        exact hb

/-- C9: the size-level sweep belongs to `morton_tree`, not to the chunk-tree
layout: `chunk_tree` simply delegates to `chunk_tree_morton`, whose batch
loop has no size limit.  In `morton_tree`, when the frontier of the current
size level is exhausted the limit is divided by `SLICE_FACTOR = 3` and the
sweep continues with the deferred nodes, all of which have feature size
strictly below the exhausted level's limit. -/
theorem chunk_tree_no_size_sweep :
    (∀ (sp : LayoutSplats) (root fuel : Nat),
      chunk_tree sp root fuel = chunkTreeMorton sp root fuel) ∧
    SLICE_FACTOR = 3 ∧
    (∀ (sp : LayoutSplats) (fuel : Nat) (st : LayoutSt) (active : List Nat)
      (limit : ℚ) (st2 : LayoutSt),
      mortonOuter sp (fuel + 1) st active limit = some st2 →
      (active = [] ∧ st2 = st) ∨
      ∃ st' next, mortonWave sp fuel st active limit [] = some (st', next) ∧
        mortonOuter sp fuel st' next (limit / SLICE_FACTOR) = some st2) ∧
    (∀ (sp : LayoutSplats) (fuel : Nat) (st : LayoutSt) (active : List Nat)
      (limit : ℚ) (st' : LayoutSt) (next : List Nat),
      mortonWave sp fuel st active limit [] = some (st', next) →
      ∀ u ∈ next, sizeOfSplat sp u < limit) := by
  refine ⟨fun _ _ _ => rfl, rfl, ?_, ?_⟩
  · intro sp fuel st active limit st2 h
    unfold mortonOuter at h
    cases active with
    | nil =>
      dsimp only at h
      injection h with h1
      exact Or.inl ⟨rfl, h1.symm⟩
    | cons a rest =>
      dsimp only at h
      cases hw : mortonWave sp fuel st (a :: rest) limit [] with
      | none =>
        rw [hw] at h
        exact absurd h (by simp)
      | some pr =>
        obtain ⟨s3, n3⟩ := pr
        rw [hw] at h
        dsimp only at h
        exact Or.inr ⟨s3, n3, rfl, h⟩
  · intro sp fuel st active limit st' next h
    exact mortonWave_deferred sp fuel st active limit [] st' next (by simp) h

/-- C9 counterexample: on a concrete five-node tree, `chunk_tree` lays out
the splats in breadth-first batch order `[0, 1, 2, 3, 4]` with no size-level
sweep, while the claimed defer-and-halve behaviour (`morton_tree`) produces
`[0, 1, 2, 4, 3]`: node 1 (feature size 1) is deferred across two levels even
though its parent was processed first. -/
theorem C9_counterexample :
    (chunk_tree ⟨List.replicate 5 (0, 0, 0), [9, 1, 9, 1, 3],
        [[1, 2], [3], [4], [], []]⟩ 0 9).map LayoutSt.indices =
      some [0, 1, 2, 3, 4] ∧
    (mortonTree ⟨List.replicate 5 (0, 0, 0), [9, 1, 9, 1, 3],
        [[1, 2], [3], [4], [], []]⟩ 0 9).map LayoutSt.indices =
      some [0, 1, 2, 4, 3] := by
  constructor
  · norm_num [chunk_tree, chunkTreeMorton, outerLoop, innerLoop, sortMorton,
      centerOf, aabbOf, listSet, BATCH_SIZE, MIN_BATCH_SIZE, List.mergeSort]
  · have h93 : (9 : ℚ) / 3 = 3 := by norm_num
    have h33 : (3 : ℚ) / 3 = 1 := by norm_num
    simp +decide [mortonTree, mortonOuter, mortonWave, mortonProcess, sortMorton,
      sizeOfSplat, centerOf, aabbOf, listSet, SLICE_FACTOR, List.mergeSort,
      List.getD, h93, h33]

/-- Witness for `chunk_tree_no_size_sweep`: a one-node wave at limit 9 defers
node 1, whose feature size 1 is indeed below the limit. -/
theorem chunk_tree_no_size_sweep_witness :
    sizeOfSplat ⟨List.replicate 5 (0, 0, 0), [9, 1, 9, 1, 3],
      [[1, 2], [3], [4], [], []]⟩ 1 < 9 :=
  chunk_tree_no_size_sweep.2.2.2
    ⟨List.replicate 5 (0, 0, 0), [9, 1, 9, 1, 3], [[1, 2], [3], [4], [], []]⟩
    2 ⟨[0], [[1, 2], [3], [4], [], []]⟩ [1] 9
    ⟨[0], [[1, 2], [3], [4], [], []]⟩ [1]
    (by norm_num [mortonWave, mortonProcess, sortMorton, sizeOfSplat, centerOf,
      aabbOf, List.mergeSort])
    1 (by simp)

/-! ### `listSet` / `listSwap` access lemmas -/

theorem length_listSet {α : Type} : ∀ (l : List α) (i : Nat) (x : α),
    (listSet l i x).length = l.length := by
  intro l
  induction l with
  | nil => intro i x; rfl
  | cons a t ih =>
    intro i x
    cases i with
    | zero => rfl
    | succ n => simp [listSet, ih]

theorem listSet_getD_self {α : Type} :
    ∀ (l : List α) (i : Nat) (x : α) (d : α), i < l.length →
    (listSet l i x).getD i d = x := by
  intro l
  induction l with
  | nil =>
    intro i x d h
    simp at h
  | cons a t ih =>
    intro i x d h
    cases i with
    | zero => rfl
    | succ n =>
      simp at h
      simpa [listSet] using ih n x d h

theorem listSet_getD_other {α : Type} :
    ∀ (l : List α) (i j : Nat) (x : α) (d : α), j ≠ i →
    (listSet l i x).getD j d = l.getD j d := by
  intro l
  induction l with
  | nil => intro i j x d _; rfl
  | cons a t ih =>
    intro i j x d hne
    cases i with
    | zero =>
      cases j with
      | zero => exact absurd rfl hne
      | succ jn => rfl
    | succ n =>
      cases j with
      | zero => rfl
      | succ jn => simpa [listSet] using ih n jn x d (fun h => hne (by rw [h]))

theorem length_listSwap {α : Type} (l : List α) (i j : Nat) :
    (listSwap l i j).length = l.length := by
  unfold listSwap
  cases h1 : l[i]? with
  | none => rfl
  | some xi =>
    cases h2 : l[j]? with
    | none => rfl
    | some xj => simp [length_listSet]

theorem getElem?_eq_getD {α : Type} (l : List α) (i : Nat) (d : α) (h : i < l.length) :
    l[i]? = some (l.getD i d) := by
  rw [List.getElem?_eq_getElem h, getD_eq_getElem l i d h]

theorem listSwap_getD_fst {α : Type} (l : List α) (i j : Nat) (d : α)
    (hi : i < l.length) (hj : j < l.length) :
    (listSwap l i j).getD i d = l.getD j d := by
  unfold listSwap
  rw [getElem?_eq_getD l i d hi, getElem?_eq_getD l j d hj]
  dsimp only
  by_cases hij : i = j
  · subst hij
    rw [listSet_getD_self _ _ _ _ (by rw [length_listSet]; exact hi)]
  · rw [listSet_getD_other (listSet l i (l.getD j d)) j i (l.getD i d) d hij,
      listSet_getD_self _ _ _ _ hi]

theorem listSwap_getD_snd {α : Type} (l : List α) (i j : Nat) (d : α)
    (hi : i < l.length) (hj : j < l.length) :
    (listSwap l i j).getD j d = l.getD i d := by
  unfold listSwap
  rw [getElem?_eq_getD l i d hi, getElem?_eq_getD l j d hj]
  dsimp only
  rw [listSet_getD_self _ _ _ _ (by rw [length_listSet]; exact hj)]

theorem listSwap_getD_other {α : Type} (l : List α) (i j k : Nat) (d : α)
    (hki : k ≠ i) (hkj : k ≠ j) :
    (listSwap l i j).getD k d = l.getD k d := by
  unfold listSwap
  cases h1 : l[i]? with
  | none => rfl
  | some xi =>
    cases h2 : l[j]? with
    | none => rfl
    | some xj =>
      rw [listSet_getD_other _ _ _ _ _ hkj, listSet_getD_other _ _ _ _ _ hki]

/-! ### `build_dest` of `compute_swaps` -/

theorem foldl_listSet_length (L : List (Nat × Nat)) :
    ∀ acc : List Nat,
      (L.foldl (fun dest p => listSet dest p.2 p.1) acc).length = acc.length := by
  induction L with
  | nil => intro acc; rfl
  | cons q L ih =>
    intro acc
    rw [List.foldl_cons, ih, length_listSet]

theorem foldl_listSet_untouched (L : List (Nat × Nat)) :
    ∀ (acc : List Nat) (k : Nat), k ∉ L.map Prod.snd →
      (L.foldl (fun dest p => listSet dest p.2 p.1) acc).getD k 0 = acc.getD k 0 := by
  induction L with
  | nil => intro acc k _; rfl
  | cons q L ih =>
    intro acc k hk
    simp at hk
    rw [List.foldl_cons, ih _ _ (by simpa using hk.2),
      listSet_getD_other _ _ _ _ _ hk.1]

theorem foldl_listSet_writes (L : List (Nat × Nat)) :
    ∀ (acc : List Nat) (p : Nat × Nat), p ∈ L → (L.map Prod.snd).Nodup →
      p.2 < acc.length →
      (L.foldl (fun dest q => listSet dest q.2 q.1) acc).getD p.2 0 = p.1 := by
  induction L with
  | nil =>
    intro acc p hp
    simp at hp
  | cons q L ih =>
    intro acc p hp hnd hlen
    rw [List.map_cons, List.nodup_cons] at hnd
    rcases List.mem_cons.mp hp with rfl | hp
    · rw [List.foldl_cons, foldl_listSet_untouched L _ _ hnd.1,
        listSet_getD_self _ _ _ _ hlen]
    · rw [List.foldl_cons]
      exact ih _ p hp hnd.2 (by rw [length_listSet]; exact hlen)

theorem mem_enumFrom_getD {α : Type} (d : α) :
    ∀ (l : List α) (n j : Nat), j < l.length →
      (n + j, l.getD j d) ∈ List.enumFrom n l := by
  intro l
  induction l with
  | nil =>
    intro n j h
    simp at h
  | cons a t ih =>
    intro n j h
    rw [List.enumFrom]
    cases j with
    | zero => simp
    | succ jn =>
      simp at h
      have := ih (n + 1) jn h
      refine List.mem_cons_of_mem _ ?_
      have harr : n + (jn + 1) = (n + 1) + jn := by omega
      rw [harr]
      simpa using this

theorem length_buildDest (m : List Nat) : (buildDest m).length = m.length := by
  unfold buildDest
  rw [foldl_listSet_length, List.length_replicate]

theorem buildDest_getD (m : List Nat) (hnodup : m.Nodup) (j : Nat)
    (hj : j < m.length) (hb : m.getD j 0 < m.length) :
    (buildDest m).getD (m.getD j 0) 0 = j := by
  unfold buildDest
  have hmem : (j, m.getD j 0) ∈ m.enum := by
    have := mem_enumFrom_getD 0 m 0 j hj
    simpa [List.enum] using this
  have hnd : (m.enum.map Prod.snd).Nodup := by
    rw [List.enum_map_snd]
    exact hnodup
  exact foldl_listSet_writes m.enum _ (j, m.getD j 0) hmem hnd
    (by rw [List.length_replicate]; exact hb)

theorem enumFrom_fst_lt {α : Type} :
    ∀ (l : List α) (n : Nat) (p : Nat × α), p ∈ List.enumFrom n l →
      p.1 < n + l.length := by
  intro l
  induction l with
  | nil =>
    intro n p hp
    simp at hp
  | cons a t ih =>
    intro n p hp
    rw [List.enumFrom] at hp
    rcases List.mem_cons.mp hp with rfl | hp
    · simp
    · have := ih (n + 1) p hp
      simp at this ⊢
      omega

theorem buildDest_bounds (m : List Nat) :
    ∀ k, k < m.length → (buildDest m).getD k 0 < m.length := by
  suffices h : ∀ (L : List (Nat × Nat)) (acc : List Nat),
      (∀ k, k < acc.length → acc.getD k 0 < m.length) →
      (∀ p ∈ L, p.1 < m.length) →
      ∀ k, k < acc.length →
        (L.foldl (fun dest q => listSet dest q.2 q.1) acc).getD k 0 < m.length by
    intro k hk
    unfold buildDest
    refine h m.enum (List.replicate m.length 0) ?_ ?_ k
      (by rw [List.length_replicate]; exact hk)
    · intro kk hkk
      have : (List.replicate m.length 0).getD kk 0 = 0 := by
        rw [getD_eq_getElem _ _ 0 hkk, List.getElem_replicate]
      simp at hkk
      omega
    · intro p hp
      have := enumFrom_fst_lt m 0 p (by simpa [List.enum] using hp)
      omega
  intro L
  induction L with
  | nil =>
    intro acc hacc _ k hk
    exact hacc k hk
  | cons q L ih =>
    intro acc hacc hL k hk
    rw [List.foldl_cons]
    refine ih _ ?_ (fun p hp => hL p (List.mem_cons_of_mem _ hp)) k
      (by rw [length_listSet]; exact hk)
    intro kk hkk
    rw [length_listSet] at hkk
    by_cases hq : kk = q.2
    · by_cases hqlen : q.2 < acc.length
      · rw [hq, listSet_getD_self _ _ _ _ hqlen]
        exact hL q (List.mem_cons_self _ _)
      · rw [hq] at hkk
        exact absurd hkk hqlen
    · rw [listSet_getD_other _ _ _ _ _ hq]
      exact hacc kk hkk

/-- A duplicate-free in-bounds index map of full length is surjective. -/
theorem indexMap_surj (m : List Nat) (hnodup : m.Nodup)
    (hbound : ∀ x ∈ m, x < m.length) :
    ∀ k, k < m.length → ∃ j, j < m.length ∧ m.getD j 0 = k := by
  have hsub : m ⊆ List.range m.length := by
    intro x hx
    exact List.mem_range.mpr (hbound x hx)
  have hperm : m.Perm (List.range m.length) :=
    (List.subperm_of_subset hnodup hsub).perm_of_length_le
      (by rw [List.length_range])
  intro k hk
  have hkm : k ∈ m := hperm.mem_iff.mpr (List.mem_range.mpr hk)
  obtain ⟨j, hj, hget⟩ := List.mem_iff_getElem.mp hkm
  exact ⟨j, hj, by rw [getD_eq_getElem _ _ _ hj]; exact hget⟩

theorem buildDest_rightInv (m : List Nat) (hnodup : m.Nodup)
    (hbound : ∀ x ∈ m, x < m.length) :
    ∀ k, k < m.length → m.getD ((buildDest m).getD k 0) 0 = k := by
  intro k hk
  obtain ⟨j, hj, hget⟩ := indexMap_surj m hnodup hbound k hk
  have hb : m.getD j 0 < m.length := by
    rw [hget]
    exact hk
  have h1 := buildDest_getD m hnodup j hj hb
  rw [hget] at h1
  rw [h1, hget]

theorem destOk_buildDest (m : List Nat) (hnodup : m.Nodup)
    (hbound : ∀ x ∈ m, x < m.length) : destOk m.length (buildDest m) := by
  refine ⟨length_buildDest m, buildDest_bounds m, ?_⟩
  intro k kk hk hkk heq
  have h1 := buildDest_rightInv m hnodup hbound k hk
  have h2 := buildDest_rightInv m hnodup hbound kk hkk
  rw [← h1, ← h2, heq]

theorem length_apply_swaps {α : Type} (sw : List (Nat × Nat)) :
    ∀ data : List α, (apply_swaps data sw).length = data.length := by
  unfold apply_swaps
  induction sw with
  | nil => intro data; rfl
  | cons p sw ih =>
    intro data
    rw [List.foldl_cons, ih, length_listSwap]

theorem swapsSem_nil (m : List Nat) (hnodup : m.Nodup)
    (hbound : ∀ x ∈ m, x < m.length) : swapsSem m [] (buildDest m) := by
  intro α d data hlen k hk
  show data.getD k d = _
  rw [buildDest_rightInv m hnodup hbound k hk]

/-! ### The swap walk of `compute_swaps` -/

theorem destOk_listSwap (n : Nat) (dest : List Nat) (i t : Nat)
    (h : destOk n dest) (hi : i < n) (ht : t < n) :
    destOk n (listSwap dest i t) := by
  obtain ⟨hlen, hb, hinj⟩ := h
  have hi2 : i < dest.length := by rw [hlen]; exact hi
  have ht2 : t < dest.length := by rw [hlen]; exact ht
  have hval : ∀ k, k < n → (listSwap dest i t).getD k 0 =
      if k = i then dest.getD t 0 else if k = t then dest.getD i 0
      else dest.getD k 0 := by
    intro k hk
    by_cases hki : k = i
    · rw [hki, listSwap_getD_fst dest i t 0 hi2 ht2, if_pos rfl]
    · by_cases hkt : k = t
      · rw [hkt, listSwap_getD_snd dest i t 0 hi2 ht2, if_neg (by rw [← hkt]; exact hki),
          if_pos rfl]
      · rw [listSwap_getD_other dest i t k 0 hki hkt, if_neg hki, if_neg hkt]
  refine ⟨by rw [length_listSwap, hlen], ?_, ?_⟩
  · intro k hk
    rw [hval k hk]
    split_ifs
    · exact hb t ht
    · exact hb i hi
    · exact hb k hk
  · intro k kk hk hkk heq
    rw [hval k hk, hval kk hkk] at heq
    by_cases hki : k = i
    · by_cases hkki : kk = i
      · omega
      · by_cases hkkt : kk = t
        · rw [if_pos hki, if_neg hkki, if_pos hkkt] at heq
          have h1 := hinj t i ht hi heq
          omega
        · rw [if_pos hki, if_neg hkki, if_neg hkkt] at heq
          have h1 := hinj t kk ht hkk heq
          exact absurd h1.symm hkkt
    · by_cases hkt : k = t
      · by_cases hkki : kk = i
        · rw [if_neg hki, if_pos hkt, if_pos hkki] at heq
          have h1 := hinj i t hi ht heq
          omega
        · by_cases hkkt : kk = t
          · omega
          · rw [if_neg hki, if_pos hkt, if_neg hkki, if_neg hkkt] at heq
            have h1 := hinj i kk hi hkk heq
            exact absurd h1.symm hkki
      · by_cases hkki : kk = i
        · rw [if_neg hki, if_neg hkt, if_pos hkki] at heq
          have h1 := hinj k t hk ht heq
          exact absurd h1 hkt
        · by_cases hkkt : kk = t
          · rw [if_neg hki, if_neg hkt, if_neg hkki, if_pos hkkt] at heq
            have h1 := hinj k i hk hi heq
            exact absurd h1 hki
          · rw [if_neg hki, if_neg hkt, if_neg hkki, if_neg hkkt] at heq
            exact hinj k kk hk hkk heq

theorem swapsSem_step (m : List Nat) (sw : List (Nat × Nat)) (dest : List Nat)
    (i t : Nat) (hSem : swapsSem m sw dest) (hdest : destOk m.length dest)
    (hi : i < m.length) (ht : t < m.length) :
    swapsSem m (sw ++ [(i, t)]) (listSwap dest i t) := by
  intro α d data hlen k hk
  have happ : apply_swaps data (sw ++ [(i, t)]) =
      listSwap (apply_swaps data sw) i t := by
    unfold apply_swaps
    rw [List.foldl_append]
    rfl
  rw [happ]
  have hcl : (apply_swaps data sw).length = data.length := length_apply_swaps sw data
  have hi2 : i < (apply_swaps data sw).length := by rw [hcl, hlen]; exact hi
  have ht2 : t < (apply_swaps data sw).length := by rw [hcl, hlen]; exact ht
  have hi3 : i < dest.length := by rw [hdest.1]; exact hi
  have ht3 : t < dest.length := by rw [hdest.1]; exact ht
  by_cases hki : k = i
  · rw [hki, listSwap_getD_fst _ _ _ _ hi2 ht2, listSwap_getD_fst dest i t 0 hi3 ht3]
    exact hSem α d data hlen t ht
  · by_cases hkt : k = t
    · rw [hkt, listSwap_getD_snd _ _ _ _ hi2 ht2, listSwap_getD_snd dest i t 0 hi3 ht3]
      exact hSem α d data hlen i hi
    · rw [listSwap_getD_other _ _ _ _ _ hki hkt, listSwap_getD_other dest i t k 0 hki hkt]
      exact hSem α d data hlen k hk

theorem swapWalk_inv (m : List Nat) :
    ∀ (fuel : Nat) (dest : List Nat) (i : Nat) (sw sw2 : List (Nat × Nat))
      (dest2 : List Nat),
      destOk m.length dest → swapsSem m sw dest → i < m.length →
      (∀ j, j < i → dest.getD j 0 = j) →
      swapWalk fuel dest i sw = some (sw2, dest2) →
      destOk m.length dest2 ∧ swapsSem m sw2 dest2 ∧
      (∀ j, j < i + 1 → dest2.getD j 0 = j) := by
  intro fuel
  induction fuel with
  | zero =>
    intro dest i sw sw2 dest2 _ _ _ _ h
    simp [swapWalk] at h
  | succ fuel ih =>
    intro dest i sw sw2 dest2 hd hs hi hpre h
    unfold swapWalk at h
    split_ifs at h with hfix
    · injection h with h1
      injection h1 with h2 h3
      subst h2
      subst h3
      refine ⟨hd, hs, ?_⟩
      intro j hj
      rcases Nat.lt_or_ge j i with hji | hji
      · exact hpre j hji
      · have : j = i := by omega
        rw [this]
        exact hfix
    · have ht : dest.getD i 0 < m.length := hd.2.1 i hi
      have htge : ¬ dest.getD i 0 < i := by
        intro hlt
        apply hfix
        exact (hd.2.2 i (dest.getD i 0) hi (lt_trans hlt hi)
          (by rw [hpre (dest.getD i 0) hlt])).symm
      have hpre2 : ∀ j, j < i → (listSwap dest i (dest.getD i 0)).getD j 0 = j := by
        intro j hj
        rw [listSwap_getD_other dest i _ j 0 (by omega) (by omega)]
        exact hpre j hj
      exact ih _ i _ sw2 dest2
        (destOk_listSwap m.length dest i _ hd hi ht)
        (swapsSem_step m sw dest i _ hs hd hi ht) hi hpre2 h

theorem computeFold_none (n : Nat) (L : List Nat) :
    L.foldl (fun acc i => acc.bind fun p => swapWalk (n + 1) p.2 i p.1) none = none := by
  induction L with
  | nil => rfl
  | cons a L ih =>
    rw [List.foldl_cons]
    exact ih

theorem computeFold_inv (m : List Nat) :
    ∀ (cnt i : Nat) (sw : List (Nat × Nat)) (dest : List Nat)
      (r : List (Nat × Nat) × List Nat),
      destOk m.length dest → swapsSem m sw dest →
      (∀ j, j < i → dest.getD j 0 = j) → i + cnt ≤ m.length →
      (List.range' i cnt).foldl
        (fun acc ii => acc.bind fun p => swapWalk (m.length + 1) p.2 ii p.1)
        (some (sw, dest)) = some r →
      destOk m.length r.2 ∧ swapsSem m r.1 r.2 ∧
      ∀ j, j < i + cnt → r.2.getD j 0 = j := by
  intro cnt
  induction cnt with
  | zero =>
    intro i sw dest r hd hs hpre hle h
    simp [List.range'] at h
    refine ⟨?_, ?_, ?_⟩
    · rw [← h]
      exact hd
    · rw [← h]
      exact hs
    · intro j hj
      rw [← h]
      exact hpre j (by omega)
  | succ cnt ih =>
    intro i sw dest r hd hs hpre hle h
    rw [show List.range' i (cnt + 1) = i :: List.range' (i + 1) cnt from rfl,
      List.foldl_cons] at h
    rw [show (some (sw, dest)).bind
        (fun p => swapWalk (m.length + 1) p.2 i p.1) =
        swapWalk (m.length + 1) dest i sw from rfl] at h
    cases hw : swapWalk (m.length + 1) dest i sw with
    | none =>
      rw [hw, computeFold_none] at h
      exact absurd h (by simp)
    | some pr =>
      obtain ⟨sw2, dest2⟩ := pr
      rw [hw] at h
      obtain ⟨hd2, hs2, hpre2⟩ :=
        swapWalk_inv m (m.length + 1) dest i sw sw2 dest2 hd hs (by omega) hpre hw
      have hres := ih (i + 1) sw2 dest2 r hd2 hs2 hpre2 (by omega) h
      exact ⟨hres.1, hres.2.1, fun j hj => hres.2.2 j (by omega)⟩

/-- Partial correctness of `compute_swaps`: when it returns a swap list, that
list realizes the index map on every parallel column of the right length. -/
theorem compute_swaps_sem (m : List Nat) (hnodup : m.Nodup)
    (hbound : ∀ x ∈ m, x < m.length) (sw : List (Nat × Nat))
    (h : compute_swaps m = some sw) :
    ∀ (α : Type) (d : α) (data : List α), data.length = m.length →
      ∀ k, k < m.length →
        (apply_swaps data sw).getD k d = data.getD (m.getD k 0) d := by
  unfold compute_swaps at h
  dsimp only at h
  cases hF : (List.range m.length).foldl
      (fun acc i => acc.bind fun p => swapWalk (m.length + 1) p.2 i p.1)
      (some ([], buildDest m)) with
  | none =>
    rw [hF] at h
    exact absurd h (by simp)
  | some r =>
    rw [hF] at h
    have hsw : r.1 = sw := by
      dsimp only [Option.map] at h
      exact Option.some.inj h
    rw [List.range_eq_range'] at hF
    obtain ⟨hd, hs, hid⟩ := computeFold_inv m m.length 0 [] (buildDest m) r
      (destOk_buildDest m hnodup hbound) (swapsSem_nil m hnodup hbound)
      (fun j hj => absurd hj (Nat.not_lt_zero j)) (by omega) hF
    intro α d data hlen k hk
    rw [← hsw, hs α d data hlen k hk, hid k (by omega)]

/-- `permute` of one column by a duplicate-free in-bounds index map: the new
entry at position `k` is the old entry at `index_map[k]`. -/
theorem permuteCol_getD {α : Type} (data : List α) (m : List Nat) (res : List α)
    (d : α) (hnodup : m.Nodup) (hbound : ∀ x ∈ m, x < m.length)
    (hrun : permuteCol data m = some res) :
    m.length = data.length ∧ res.length = data.length ∧
    ∀ k, k < m.length → res.getD k d = data.getD (m.getD k 0) d := by
  unfold permuteCol at hrun
  split_ifs at hrun with hlen
  · cases hc : compute_swaps m with
    | none =>
      rw [hc] at hrun
      exact absurd hrun (by simp)
    | some sw =>
      rw [hc] at hrun
      have hres : apply_swaps data sw = res := by
        dsimp only [Option.map] at hrun
        exact Option.some.inj hrun
      refine ⟨hlen, by rw [← hres, length_apply_swaps], ?_⟩
      intro k hk
      rw [← hres]
      exact compute_swaps_sem m hnodup hbound sw hc α d data hlen.symm k hk

/-! ### The chunk-tree layout invariant -/

theorem getD_append_left {α : Type} (l l2 : List α) (j : Nat) (d : α)
    (h : j < l.length) : (l ++ l2).getD j d = l.getD j d := by
  rw [getD_eq_getElem _ _ _ (by rw [List.length_append]; omega),
    getD_eq_getElem _ _ _ h, List.getElem_append_left]

theorem getD_append_right {α : Type} (l l2 : List α) (j : Nat) (d : α)
    (h : l.length ≤ j) : (l ++ l2).getD j d = l2.getD (j - l.length) d := by
  by_cases h2 : j < l.length + l2.length
  · rw [getD_eq_getElem _ _ _ (by rw [List.length_append]; omega),
      getD_eq_getElem _ _ _ (by omega), List.getElem_append_right h]
  · rw [List.getD_eq_default _ _ (by rw [List.length_append]; omega),
      List.getD_eq_default _ _ (by omega)]

theorem getD_mem {α : Type} (l : List α) (j : Nat) (d : α) (h : j < l.length) :
    l.getD j d ∈ l := by
  rw [getD_eq_getElem _ _ _ h]
  exact List.getElem_mem h

theorem octantOf_le (split c : ℚ × ℚ × ℚ) : octantOf split c ≤ 7 := by
  unfold octantOf
  split_ifs <;> norm_num

theorem splitLeftover_complete (sp : LayoutSplats) (leftover : List Nat) :
    ∀ u ∈ leftover, u ∈ (splitLeftover sp leftover).flatten := by
  intro u hu
  unfold splitLeftover
  dsimp only
  split_ifs with h1 h2
  · by_cases hp : axisGet (longestAxis (extentOf (aabbOf (List.map (centerOf sp) leftover))))
        (centerOf sp u) <
        axisGet (longestAxis (extentOf (aabbOf (List.map (centerOf sp) leftover))))
        (aabbCenter (aabbOf (List.map (centerOf sp) leftover))) <;>
      simp [List.mem_filter, hu, hp] <;>
      exact le_of_not_lt hp
  · by_cases hp : axisGet (longestAxis (extentOf (aabbOf (List.map (centerOf sp) leftover))))
        (centerOf sp u) <
        axisGet (longestAxis (extentOf (aabbOf (List.map (centerOf sp) leftover))))
        (aabbCenter (aabbOf (List.map (centerOf sp) leftover))) <;>
      simp [List.mem_filter, hu, hp] <;>
      exact le_of_not_lt hp
  · have ho := octantOf_le (aabbCenter (aabbOf (List.map (centerOf sp) leftover)))
      (centerOf sp u)
    interval_cases h : octantOf (aabbCenter (aabbOf (List.map (centerOf sp) leftover)))
        (centerOf sp u) <;>
      simp [List.mem_filter, hu, h]

/-- The inner parent-expansion loop preserves the layout invariant: the
stopped ordering (`leftover`) stays pending, everything else placed so far is
pending elsewhere or already has a contiguous child range above it. -/
theorem innerLoop_inv :
    ∀ (fuel : Nat) (st : LayoutSt) (ordering : List Nat) (endIdx : Nat)
      (P : List Nat) (st2 : LayoutSt) (leftover : List Nat),
      layoutInv st (ordering ++ P) →
      innerLoop fuel st ordering endIdx = some (st2, leftover) →
      layoutInv st2 (leftover ++ P) := by
  intro fuel
  induction fuel with
  | zero =>
    intro st ordering endIdx P st2 leftover _ h
    simp [innerLoop] at h
  | succ fuel ih =>
    intro st ordering endIdx P st2 leftover hinv h
    unfold innerLoop at h
    cases ordering with
    | nil =>
      dsimp only at h
      injection h with h1
      injection h1 with h2 h3
      subst h2
      subst h3
      exact hinv
    | cons parent rest =>
      dsimp only at h
      split_ifs at h with hstop
      · injection h with h1
        injection h1 with h2 h3
        subst h2
        subst h3
        exact hinv
      · refine ih _ _ _ P st2 leftover ?_ h
        intro j hj
        dsimp only at hj ⊢
        rw [List.length_append] at hj
        by_cases hjold : j < st.indices.length
        · rw [getD_append_left _ _ _ _ hjold]
          have hnew : ∀ hop : st.indices.getD j 0 = parent,
              childOk (listSet st.children parent
                (List.range' st.indices.length (st.children.getD parent []).length))
                (st.indices.getD j 0) j := by
            intro hop
            by_cases hpl : parent < st.children.length
            · right
              refine ⟨st.indices.length, (st.children.getD parent []).length, ?_, hjold⟩
              rw [hop, listSet_getD_self _ _ _ _ hpl]
            · left
              rw [hop, List.getD_eq_default _ _ (by rw [length_listSet]; omega)]
          rcases hinv j hjold with hok | hpend
          · left
            by_cases hop : st.indices.getD j 0 = parent
            · exact hnew hop
            · rcases hok with hnil | ⟨s, k, heq, hs⟩
              · left
                rw [listSet_getD_other _ _ _ _ _ hop]
                exact hnil
              · right
                refine ⟨s, k, ?_, hs⟩
                rw [listSet_getD_other _ _ _ _ _ hop]
                exact heq
          · rcases List.mem_append.mp hpend with hp1 | hp1
            · rcases List.mem_cons.mp hp1 with hop | hp2
              · exact Or.inl (hnew hop)
              · refine Or.inr (List.mem_append.mpr (Or.inl ?_))
                exact List.mem_append.mpr (Or.inl hp2)
            · exact Or.inr (List.mem_append.mpr (Or.inr hp1))
        · right
          rw [getD_append_right _ _ _ _ (by omega)]
          refine List.mem_append.mpr (Or.inl (List.mem_append.mpr (Or.inr ?_)))
          exact getD_mem _ _ _ (by omega)

/-- The outer batch loop preserves the layout invariant down to an empty
pending set. -/
theorem outerLoop_inv (sp : LayoutSplats) :
    ∀ (fuel : Nat) (st : LayoutSt) (batches : List (List Nat)) (st2 : LayoutSt),
      layoutInv st batches.flatten →
      outerLoop sp fuel st batches = some st2 →
      layoutInv st2 [] := by
  intro fuel
  induction fuel with
  | zero =>
    intro st batches st2 _ h
    simp [outerLoop] at h
  | succ fuel ih =>
    intro st batches st2 hinv h
    unfold outerLoop at h
    cases batches with
    | nil =>
      dsimp only at h
      injection h with h1
      subst h1
      simpa using hinv
    | cons batch batches =>
      dsimp only at h
      cases hin : innerLoop fuel st (sortMorton 16 65535 sp batch)
          ((st.indices.length + MIN_BATCH_SIZE + (BATCH_SIZE - 1)) / BATCH_SIZE
            * BATCH_SIZE) with
      | none =>
        rw [hin] at h
        exact absurd h (by simp)
      | some pr =>
        obtain ⟨st3, leftover⟩ := pr
        rw [hin] at h
        dsimp only at h
        have hinv2 : layoutInv st (sortMorton 16 65535 sp batch ++ batches.flatten) := by
          intro j hj
          rcases hinv j hj with hok | hpend
          · exact Or.inl hok
          · right
            rw [List.flatten_cons] at hpend
            rcases List.mem_append.mp hpend with hp | hp
            · refine List.mem_append.mpr (Or.inl ?_)
              unfold sortMorton
              simpa using hp
            · exact List.mem_append.mpr (Or.inr hp)
        have h3 := innerLoop_inv fuel st _ _ batches.flatten st3 leftover hinv2 hin
        cases leftover with
        | nil =>
          refine ih st3 batches st2 ?_ h
          simpa using h3
        | cons x xs =>
          refine ih st3 (batches ++ splitLeftover sp (x :: xs)) st2 ?_ h
          intro j hj
          rcases h3 j hj with hok | hpend
          · exact Or.inl hok
          · right
            rw [List.flatten_append]
            rcases List.mem_append.mp hpend with hp | hp
            · exact List.mem_append.mpr
                (Or.inr (splitLeftover_complete sp (x :: xs) _ hp))
            · exact List.mem_append.mpr (Or.inl hp)

/-- Every splat placed by `chunk_tree_morton` ends with a child list that is
either empty or a contiguous index range strictly above its position. -/
theorem chunkTreeMorton_childOk (sp : LayoutSplats) (root fuel : Nat) (st : LayoutSt)
    (h : chunkTreeMorton sp root fuel = some st) :
    ∀ j, j < st.indices.length → childOk st.children (st.indices.getD j 0) j := by
  unfold chunkTreeMorton at h
  cases hr : outerLoop sp fuel ⟨[root], sp.children⟩ [[root]] with
  | none =>
    rw [hr] at h
    exact absurd h (by simp)
  | some st3 =>
    rw [hr] at h
    dsimp only at h
    split_ifs at h with hlen
    · have hst : st3 = st := Option.some.inj h
      subst hst
      have hinv0 : layoutInv ⟨[root], sp.children⟩ ([[root]] : List (List Nat)).flatten := by
        intro j hj
        right
        simp at hj
        subst hj
        simp
      have hfin := outerLoop_inv sp fuel _ [[root]] st3 hinv0 hr
      intro j hj
      rcases hfin j hj with hok | hpend
      · exact hok
      · simp at hpend

/-- C2: after the chunk-tree layout permutation is applied (the run
succeeding, with the layout order a permutation of positions), every node of
the permuted child-list column has an empty child list or a contiguous child
index range `range(s, s + count)` lying strictly above the node's own index,
so the child list is expressible as `(count, first-child-index)` with
`min(children(j)) > j` and `max − min + 1 = count`. -/
theorem chunk_layout_contiguous (sp : LayoutSplats) (root fuel : Nat)
    (st : LayoutSt) (res : List (List Nat))
    (hmor : chunkTreeMorton sp root fuel = some st)
    (hnodup : st.indices.Nodup)
    (hbound : ∀ x ∈ st.indices, x < st.indices.length)
    (hres : chunkTreePermuted sp root fuel = some res) :
    ∀ j, j < res.length →
      res.getD j [] = [] ∨
      ∃ s k, res.getD j [] = List.range' s k ∧ j < s ∧
        ∀ c ∈ res.getD j [], j < c := by
  unfold chunkTreePermuted at hres
  rw [hmor] at hres
  dsimp only at hres
  have hboundc : ∀ x ∈ st.indices, x < st.children.length := by
    have hlen : st.indices.length = st.children.length := by
      unfold permuteCol at hres
      split_ifs at hres with hl
      · exact hl
    intro x hx
    rw [← hlen]
    exact hbound x hx
  obtain ⟨hlen, hreslen, hget⟩ :=
    permuteCol_getD st.children st.indices res [] hnodup
      (by
        have hlen2 : st.indices.length = st.children.length := by
          unfold permuteCol at hres
          split_ifs at hres with hl
          · exact hl
        intro x hx
        exact hbound x hx) hres
  intro j hj
  have hjlen : j < st.indices.length := by
    rw [hlen]
    rw [hreslen] at hj
    exact hj
  have hok := chunkTreeMorton_childOk sp root fuel st hmor j hjlen
  rw [hget j hjlen]
  rcases hok with hnil | ⟨s, k, heq, hs⟩
  · exact Or.inl hnil
  · refine Or.inr ⟨s, k, heq, hs, ?_⟩
    intro c hc
    rw [heq] at hc
    have := List.mem_range'_1.mp hc
    omega

/-- Witness for `chunk_layout_contiguous` on a three-splat tree: the root's
permuted child list is the contiguous range `[1, 2]`, strictly above
position 0. -/
theorem chunk_layout_contiguous_witness :
    ([[1, 2], [], []] : List (List Nat)).getD 0 [] = [] ∨
    ∃ s k, ([[1, 2], [], []] : List (List Nat)).getD 0 [] = List.range' s k ∧
      0 < s ∧ ∀ c ∈ ([[1, 2], [], []] : List (List Nat)).getD 0 [], 0 < c :=
  chunk_layout_contiguous ⟨[(0, 0, 0), (0, 0, 0), (0, 0, 0)], [1, 1, 1],
      [[1, 2], [], []]⟩ 0 6
    ⟨[0, 1, 2], [[1, 2], [], []]⟩ [[1, 2], [], []]
    (by
      simp +decide [chunkTreeMorton, outerLoop, innerLoop, sortMorton, centerOf,
        aabbOf, listSet, BATCH_SIZE, MIN_BATCH_SIZE, List.mergeSort])
    (by decide) (by decide)
    (by
      simp +decide [chunkTreePermuted, chunkTreeMorton, outerLoop, innerLoop,
        sortMorton, centerOf, aabbOf, listSet, BATCH_SIZE, MIN_BATCH_SIZE,
        List.mergeSort, permuteCol, compute_swaps, buildDest, swapWalk,
        apply_swaps, listSwap, List.range])
    0 (by norm_num)

end Spark
